import Mathlib

/-!
# Address callbacks of the bytom node

A shallow embedding of package `addresscallbacks` (`addresscallbacks.go`,
`txlistener.go`): the callback registry `CallbackStore` with `Add`, `List`
and `Delete`, the URL check `IsURL`, and the transaction listener with
`UpdateTxDB` and `ProcessTx`.

Conventions of the embedding:

* a Go `string` is a Lean `String`; `len(s)` is `s.utf8ByteSize` and
  `utf8.RuneCountInString(s)` is `s.length`;
* a `[]byte` read from or written to the database is the text it holds;
* the handle `dbm.DB` is the value `DB` passed in and handed back;
* a Go `error` result is an `Option Error`, `none` standing for `nil`;
* goroutines started with `go Callback(url, data)` are recorded, in the order
  they are started, as a list of `Dispatch` values;
* `time.Now().Unix()` is an argument `now`;
* the standard library is embedded as far as the package calls it:
  `json.Marshal` and `json.Unmarshal` on `[]string`, `regexp` on the pattern
  `URL`, `url.Parse` for the fields `IsURL` reads, and the functions of
  `strings`.
-/

namespace AddressCallbacks

/-! ## The key/value store `dbm.DB` -/

/-- The key/value store: the entries it holds, at most one of them read for a key. -/
structure DB where
  entries : List (String × String)
deriving DecidableEq, Repr

namespace DB

/-- The store without any entry. -/
def empty : DB := ⟨[]⟩

/-- Reading `db.Get(key)`: the value stored for the key, `none` for Go's `nil`. -/
def Get (db : DB) (key : String) : Option String :=
  (db.entries.find? (fun e => e.1 == key)).map Prod.snd

/-- Removing `db.Delete(key)`. -/
def Delete (db : DB) (key : String) : DB :=
  ⟨db.entries.filter (fun e => !(e.1 == key))⟩

/-- Writing `db.Set(key, value)`: the value replaces whatever the key held. -/
def Set (db : DB) (key value : String) : DB :=
  ⟨(key, value) :: (db.Delete key).entries⟩

end DB

/-! ## Errors -/

/-- The error values of the package, and `jsonError` for any error that
`encoding/json` returns. -/
inductive Error
  | ErrBadAddress
  | ErrNotValidURL
  | ErrDuplicateURL
  | ErrNoCallbacks
  | ErrCallbackNotFound
  | jsonError
deriving DecidableEq, Repr

open Error

deriving instance DecidableEq for Except

/-! ## `encoding/json` on `[]string` and on `TxDBValue`

`json.Marshal` and `json.Unmarshal` as this package calls them: on a value of
type `[]string`, and `Marshal` on a `TxDBValue`. -/

/-- The lower-case hexadecimal digit of a number below 16. -/
def hexDigit (n : Nat) : Char :=
  if n < 10 then Char.ofNat (48 + n) else Char.ofNat (87 + n)

/-- The value of a hexadecimal digit, of either case. -/
def hexVal (c : Char) : Option Nat :=
  if 48 ≤ c.toNat ∧ c.toNat ≤ 57 then some (c.toNat - 48)
  else if 97 ≤ c.toNat ∧ c.toNat ≤ 102 then some (c.toNat - 87)
  else if 65 ≤ c.toNat ∧ c.toNat ≤ 70 then some (c.toNat - 55)
  else none

/-- How `json.Marshal` writes one character of a string: the quote and the
backslash behind a backslash, the short escapes, `\u00XX` for the other control
characters and for `<`, `>` and `&`, the line separators U+2028 and U+2029
escaped, any other character as it is. -/
def encodeChar (c : Char) : List Char :=
  if c = '"' then ['\\', '"']
  else if c = '\\' then ['\\', '\\']
  else if c.toNat = 8 then ['\\', 'b']
  else if c.toNat = 12 then ['\\', 'f']
  else if c = '\n' then ['\\', 'n']
  else if c = '\r' then ['\\', 'r']
  else if c = '\t' then ['\\', 't']
  else if c.toNat < 32 ∨ c = '<' ∨ c = '>' ∨ c = '&' then
    ['\\', 'u', '0', '0', hexDigit (c.toNat / 16), hexDigit (c.toNat % 16)]
  else if c.toNat = 0x2028 then ['\\', 'u', '2', '0', '2', '8']
  else if c.toNat = 0x2029 then ['\\', 'u', '2', '0', '2', '9']
  else [c]

/-- The characters of a string between its quotes, as `json.Marshal` writes them. -/
def encodeChars : List Char → List Char
  | [] => []
  | c :: cs => encodeChar c ++ encodeChars cs

/-- A string as a JSON string literal. -/
def encodeString (s : String) : List Char :=
  '"' :: (encodeChars s.data ++ ['"'])

/-- The elements of a JSON array, separated by commas. -/
def encodeElems : List String → List Char
  | [] => []
  | [s] => encodeString s
  | s :: t :: rest => encodeString s ++ ',' :: encodeElems (t :: rest)

/-- The text `json.Marshal(cbs)` for a non-nil `cbs []string`; it returns no error. -/
def Marshal (cbs : List String) : String :=
  ⟨'[' :: (encodeElems cbs ++ [']'])⟩

/-- JSON white space. -/
def isSpace (c : Char) : Bool :=
  c = ' ' || c = '\t' || c = '\r' || c = '\n'

/-- Skips leading JSON white space. -/
def skipSpace : List Char → List Char
  | [] => []
  | c :: cs => if isSpace c then skipSpace cs else c :: cs

/-- The number written by four hexadecimal digits. -/
def getu4 (a b c d : Char) : Option Nat :=
  match hexVal a, hexVal b, hexVal c, hexVal d with
  | some x, some y, some z, some w => some (((x * 16 + y) * 16 + z) * 16 + w)
  | _, _, _, _ => none

/-- The escape `\uXXXX` at the head of the text, if there is one: its number. -/
def peekU4 : List Char → Option Nat
  | e :: u :: a :: b :: c :: d :: _ =>
    if e = '\\' ∧ u = 'u' then getu4 a b c d else none
  | _ => none

/-- Is the number a UTF-16 surrogate? -/
def isSurrogate (r : Nat) : Bool := 0xD800 ≤ r && r < 0xE000

/-- The code point of a surrogate pair (`utf16.DecodeRune`), `none` unless `r1`
is a high and `r2` a low surrogate. -/
def decodePair (r1 : Nat) (r2 : Option Nat) : Option Nat :=
  match r2 with
  | none => none
  | some r2 =>
    if 0xD800 ≤ r1 ∧ r1 < 0xDC00 ∧ 0xDC00 ≤ r2 ∧ r2 < 0xE000 then
      some ((r1 - 0xD800) * 1024 + (r2 - 0xDC00) + 0x10000)
    else none

/-- The replacement character U+FFFD. -/
def replacementChar : Char := Char.ofNat 0xFFFD

/-- Reads what follows `\u` in a JSON string literal: four hexadecimal digits.
A surrogate pair written as two `\u` escapes is one character, a lone
surrogate is U+FFFD. -/
def readU4 : List Char → Option (Char × List Char)
  | a :: b :: c :: d :: rest =>
    match getu4 a b c d with
    | none => none
    | some rr =>
      if isSurrogate rr then
        match decodePair rr (peekU4 rest) with
        | some dec => some (Char.ofNat dec, rest.drop 6)
        | none => some (replacementChar, rest)
      else some (Char.ofNat rr, rest)
  | _ => none

/-- Reads what follows a backslash in a JSON string literal: the character the
escape denotes and the text after it; `none` for an escape JSON does not have. -/
def readEscape : List Char → Option (Char × List Char)
  | [] => none
  | e :: rest =>
    if e = '"' ∨ e = '\\' ∨ e = '/' then some (e, rest)
    else if e = 'b' then some (Char.ofNat 8, rest)
    else if e = 'f' then some (Char.ofNat 12, rest)
    else if e = 'n' then some ('\n', rest)
    else if e = 'r' then some ('\r', rest)
    else if e = 't' then some ('\t', rest)
    else if e = 'u' then readU4 rest
    else none

/-- Reads one character of a JSON string literal, escaped or not: the character
and the text after it; `none` at a quote, at a control character and at a
malformed escape. -/
def readChar : List Char → Option (Char × List Char)
  | [] => none
  | c :: rest =>
    if c = '"' ∨ c.toNat < 32 then none
    else if c = '\\' then readEscape rest
    else some (c, rest)

/-- Reads a JSON string literal after its opening quote (the scanner's checks
and `unquote` together): the text it denotes and what follows the closing
quote; `none` when the literal is malformed. Every step takes at least one
character, so a `fuel` of the length of the text is enough. -/
def unquoteAux : Nat → List Char → Option (List Char × List Char)
  | 0, _ => none
  | _ + 1, [] => none
  | fuel + 1, c :: rest =>
    if c = '"' then some ([], rest)
    else
      match readChar (c :: rest) with
      | none => none
      | some (x, r) => (unquoteAux fuel r).map (fun p => (x :: p.1, p.2))

/-- Reads a JSON string literal after its opening quote. -/
def unquote (s : List Char) : Option (List Char × List Char) :=
  unquoteAux s.length s

/-- Removes the prefix `p` from the text, `none` when the text does not start with it. -/
def dropPrefix : List Char → List Char → Option (List Char)
  | [], s => some s
  | _ :: _, [] => none
  | p :: ps, c :: cs => if p = c then dropPrefix ps cs else none

/-- Reads one element of a `[]string`: a string literal, or `null`, which
leaves the element the empty string. Any other JSON value is an error. -/
def decodeValue (s : List Char) : Option (String × List Char) :=
  match dropPrefix ['n', 'u', 'l', 'l'] s with
  | some rest => some ("", rest)
  | none =>
    match s with
    | c :: rest => if c = '"' then (unquote rest).map (fun r => (⟨r.1⟩, r.2)) else none
    | [] => none

/-- Reads the elements of a non-empty array up to and including its closing
bracket. Every element takes at least one character, so a `fuel` of the length
of the text is enough. -/
def decodeElems : Nat → List Char → Option (List String × List Char)
  | 0, _ => none
  | fuel + 1, s =>
    match decodeValue s with
    | none => none
    | some (v, r) =>
      match skipSpace r with
      | c :: r1 =>
        if c = ',' then (decodeElems fuel (skipSpace r1)).map (fun p => (v :: p.1, p.2))
        else if c = ']' then some ([v], r1)
        else none
      | [] => none

/-- Reads an array after its opening bracket. -/
def decodeArray (s : List Char) : Option (List String × List Char) :=
  match skipSpace s with
  | [] => none
  | c :: r => if c = ']' then some ([], r) else decodeElems (c :: r).length (c :: r)

/-- The result of `json.Unmarshal(data, &cbs)` for `cbs []string`: the list
read, or `jsonError`. It succeeds on `null` (the list is then empty) and on an
array whose elements are strings or `null`, white space allowed around the
tokens; every other text is a syntax or a type error. -/
def Unmarshal (data : String) : Except Error (List String) :=
  let s := skipSpace data.data
  match dropPrefix ['n', 'u', 'l', 'l'] s with
  | some rest => if skipSpace rest = [] then .ok [] else .error jsonError
  | none =>
    match s with
    | c :: rest =>
      if c = '[' then
        match decodeArray rest with
        | some (l, r) => if skipSpace r = [] then .ok l else .error jsonError
        | none => .error jsonError
      else .error jsonError
    | [] => .error jsonError

/-- The text `json.Marshal(&TxDBValue{Unixtime: t})`; it returns no error. -/
def MarshalTxDBValue (unixtime : Int) : String :=
  "\x7b\"Unixtime\":" ++ toString unixtime ++ "\x7d"

/-! ## `encoding/json` on `TxDBValue`

`json.Unmarshal(value, &valueOut)` for a `valueOut` of type `TxDBValue` that
holds the zero value. The text has to be JSON; a top-level `null` changes
nothing, an object sets `Unixtime` from every member whose key is `Unixtime` in
any case of its letters, and any other value is a type error. A member that
cannot be stored in an `int64` is a type error too: the decoder goes on, and
returns the error once the text has been read. -/

/-- The value stored for a transaction id. -/
structure TxDBValue where
  Unixtime : Int
deriving DecidableEq, Repr

/-- An ASCII digit. -/
def isDigit (c : Char) : Bool := 48 ≤ c.toNat && c.toNat ≤ 57

/-- The number a text of digits writes in base ten, behind the number `acc`. -/
def digitsValue (acc : Nat) : List Char → Nat
  | [] => acc
  | c :: cs => digitsValue (acc * 10 + (c.toNat - 48)) cs

/-- A JSON number literal as the scanner reads it: its sign, the digits before
the fraction, and whether a fraction or an exponent follows them. -/
structure NumberLit where
  negative : Bool
  digits : List Char
  hasFracOrExp : Bool
deriving DecidableEq, Repr

/-- Reads the digits of a fraction or of an exponent: at least one. -/
def readDigits1 (s : List Char) : Option (List Char) :=
  if (s.takeWhile isDigit).isEmpty then none else some (s.dropWhile isDigit)

/-- Reads the exponent of a number, if there is one: whether there is, and the
text behind it. -/
def readExponent : List Char → Option (Bool × List Char)
  | [] => some (false, [])
  | c :: r =>
    if c = 'e' ∨ c = 'E' then
      match r with
      | d :: r1 =>
        if d = '+' ∨ d = '-' then (readDigits1 r1).map (fun t => (true, t))
        else (readDigits1 (d :: r1)).map (fun t => (true, t))
      | [] => none
    else some (false, c :: r)

/-- Reads the fraction and the exponent of a number, if there are any. -/
def readFracExp : List Char → Option (Bool × List Char)
  | [] => some (false, [])
  | c :: r =>
    if c = '.' then
      match readDigits1 r with
      | none => none
      | some r1 => (readExponent r1).map (fun p => (true, p.2))
    else readExponent (c :: r)

/-- Reads the digits before the fraction: a single `0`, or a digit from 1 to 9
and any digits behind it. -/
def readIntPart : List Char → Option (List Char × List Char)
  | [] => none
  | c :: r =>
    if c = '0' then some (['0'], r)
    else if isDigit c then some (c :: r.takeWhile isDigit, r.dropWhile isDigit)
    else none

/-- Reads a JSON number at the head of the text: the literal and the text
behind it. -/
def readNumber (s : List Char) : Option (NumberLit × List Char) :=
  let neg := ['-'].isPrefixOf s
  match readIntPart (if neg then s.drop 1 else s) with
  | none => none
  | some (ds, r) => (readFracExp r).map (fun p => (⟨neg, ds, p.1⟩, p.2))

/-- The call `strconv.ParseInt(s, 10, 64)` on a number literal: the number, or
`none` when the literal has a fraction or an exponent or is out of the range of
`int64`. -/
def NumberLit.toInt64 (n : NumberLit) : Option Int :=
  if n.hasFracOrExp then none
  else
    let v : Int := if n.negative then -(digitsValue 0 n.digits : Int) else (digitsValue 0 n.digits : Int)
    if -(2 : Int) ^ 63 ≤ v ∧ v < (2 : Int) ^ 63 then some v else none

/-- The depth of arrays and objects beyond which the scanner gives up. -/
def maxNestingDepth : Nat := 10000

/-- The ways the scanner reads on inside a value. -/
inductive ScanMode
  | value
  | elems
  | members
deriving DecidableEq, Repr

/-- Checks the JSON value at the head of the text and returns the text behind
it, `none` when the value is malformed or nested deeper than
`maxNestingDepth`. In the mode `elems` the text is what follows `[` or a comma
in an array, up to the closing bracket; in the mode `members` it is what
follows a comma in an object, up to the closing brace. Of two steps one takes
a character, so a `fuel` above twice the length of the text is enough. -/
def skipJSON : Nat → ScanMode → Nat → List Char → Option (List Char)
  | 0, _, _, _ => none
  | fuel + 1, .value, depth, s =>
    match s with
    | [] => none
    | c :: r =>
      if c = '"' then (unquote r).map Prod.snd
      else if c = 'n' then dropPrefix ['u', 'l', 'l'] r
      else if c = 't' then dropPrefix ['r', 'u', 'e'] r
      else if c = 'f' then dropPrefix ['a', 'l', 's', 'e'] r
      else if c = '[' then
        if depth + 1 > maxNestingDepth then none
        else
          match skipSpace r with
          | [] => none
          | d :: r1 => if d = ']' then some r1 else skipJSON fuel .elems (depth + 1) (d :: r1)
      else if c = '\x7b' then
        if depth + 1 > maxNestingDepth then none
        else
          match skipSpace r with
          | [] => none
          | d :: r1 => if d = '\x7d' then some r1 else skipJSON fuel .members (depth + 1) (d :: r1)
      else (readNumber (c :: r)).map Prod.snd
  | fuel + 1, .elems, depth, s =>
    match skipJSON fuel .value depth s with
    | none => none
    | some r =>
      match skipSpace r with
      | [] => none
      | d :: r1 =>
        if d = ',' then skipJSON fuel .elems depth (skipSpace r1)
        else if d = ']' then some r1
        else none
  | fuel + 1, .members, depth, s =>
    match s with
    | [] => none
    | q :: r =>
      if q = '"' then
        match unquote r with
        | none => none
        | some (_, r1) =>
          match skipSpace r1 with
          | [] => none
          | colon :: r2 =>
            if colon = ':' then
              match skipJSON fuel .value depth (skipSpace r2) with
              | none => none
              | some r3 =>
                match skipSpace r3 with
                | [] => none
                | d :: r4 =>
                  if d = ',' then skipJSON fuel .members depth (skipSpace r4)
                  else if d = '\x7d' then some r4
                  else none
            else none
      else none

/-- The lower-case form of an ASCII letter, any other character as it is. -/
def asciiLower (c : Char) : Char :=
  if 65 ≤ c.toNat ∧ c.toNat ≤ 90 then Char.ofNat (c.toNat + 32) else c

/-- Does the key of a member name the field `Unixtime`? The letters match in
either case. -/
def isUnixtimeKey (key : List Char) : Bool :=
  key.map asciiLower = "unixtime".data

/-- What the decoder holds while it reads an object into a `TxDBValue`: the
field, and whether a type error was met. -/
structure DecodeState where
  Unixtime : Int
  typeError : Bool
deriving DecidableEq, Repr

/-- Stores the value at the head of the text, already checked to be JSON, in the
field `Unixtime`: a number that `int64` holds is stored, `null` changes
nothing, anything else is a type error and leaves the field as it is. -/
def storeUnixtime (st : DecodeState) (s : List Char) : DecodeState :=
  match s with
  | [] => st
  | c :: _ =>
    if c = 'n' then st
    else if c = '-' ∨ isDigit c then
      match readNumber s with
      | some (n, _) =>
        match n.toInt64 with
        | some v => { st with Unixtime := v }
        | none => { st with typeError := true }
      | none => st
    else { st with typeError := true }

/-- Reads the members of an object, from a key on up to the closing brace, into
the decoder's state; `none` when the text is not JSON. Every member takes a
character, so a `fuel` above the length of the text is enough. -/
def decodeMembers : Nat → DecodeState → List Char → Option (DecodeState × List Char)
  | 0, _, _ => none
  | fuel + 1, st, s =>
    match s with
    | [] => none
    | q :: r =>
      if q = '"' then
        match unquote r with
        | none => none
        | some (key, r1) =>
          match skipSpace r1 with
          | [] => none
          | colon :: r2 =>
            if colon = ':' then
              match skipJSON (2 * (skipSpace r2).length + 2) .value 1 (skipSpace r2) with
              | none => none
              | some r3 =>
                let st1 := if isUnixtimeKey key then storeUnixtime st (skipSpace r2) else st
                match skipSpace r3 with
                | [] => none
                | d :: r4 =>
                  if d = ',' then decodeMembers fuel st1 (skipSpace r4)
                  else if d = '\x7d' then some (st1, r4)
                  else none
            else none
      else none

/-- The result of `json.Unmarshal(data, &valueOut)` for a `valueOut` of type
`TxDBValue` that holds the zero value: the value afterwards and the error.
After a syntax error the value is untouched; after a type error it holds what
the members read could store. -/
def UnmarshalTxDBValue (data : String) : TxDBValue × Option Error :=
  let s := skipSpace data.data
  match s with
  | [] => (⟨0⟩, some jsonError)
  | c :: r =>
    if c = '\x7b' then
      match skipSpace r with
      | [] => (⟨0⟩, some jsonError)
      | d :: r1 =>
        if d = '\x7d' then
          if skipSpace r1 = [] then (⟨0⟩, none) else (⟨0⟩, some jsonError)
        else
          match decodeMembers ((d :: r1).length + 1) ⟨0, false⟩ (d :: r1) with
          | none => (⟨0⟩, some jsonError)
          | some (st, r2) =>
            if skipSpace r2 = [] then
              (⟨st.Unixtime⟩, if st.typeError then some jsonError else none)
            else (⟨0⟩, some jsonError)
    else
      match dropPrefix ['n', 'u', 'l', 'l'] s with
      | some r2 => if skipSpace r2 = [] then (⟨0⟩, none) else (⟨0⟩, some jsonError)
      | none => (⟨0⟩, some jsonError)

/-! ## Regular expressions (`regexp`) and the pattern `URL` -/

/-- Regular expressions, with the operators the pattern `URL` uses. -/
inductive Regex
  | lit (s : List Char)
  | cls (p : Char → Bool)
  | seq (r s : Regex)
  | opt (r : Regex)
  | plus (r : Regex)

/-- Every way of cutting a text in two. -/
def splits : List Char → List (List Char × List Char)
  | [] => [([], [])]
  | c :: cs => ([], c :: cs) :: (splits cs).map (fun p => (c :: p.1, p.2))

/-- Is the text one or more pieces that each satisfy `m`? With `fuel` above the
length of the text the pieces after a first non-empty one are all found. -/
def matchPlus (m : List Char → Bool) : Nat → List Char → Bool
  | 0, _ => false
  | fuel + 1, s =>
    m s || (splits s).any
      (fun p => !p.1.isEmpty && !p.2.isEmpty && m p.1 && matchPlus m fuel p.2)

/-- Is the whole text in the language of the expression? -/
def Regex.matchesAll : Regex → List Char → Bool
  | .lit t, s => decide (s = t)
  | .cls p, s =>
    match s with
    | [c] => p c
    | _ => false
  | .seq r1 r2, s => (splits s).any (fun p => r1.matchesAll p.1 && r2.matchesAll p.2)
  | .opt r, s => s.isEmpty || r.matchesAll s
  | .plus r, s => matchPlus (fun t => r.matchesAll t) (s.length + 1) s

/-- The class `\w`: an ASCII letter, digit or underscore. -/
def isWord (c : Char) : Bool :=
  (48 ≤ c.toNat && c.toNat ≤ 57) || (65 ≤ c.toNat && c.toNat ≤ 90)
    || (97 ≤ c.toNat && c.toNat ≤ 122) || c = '_'

/-- The class `[\w.-]`, also written `[\w\.-]`. -/
def isHostChar (c : Char) : Bool :=
  isWord c || c = '.' || c = '-'

/-- The class `[\w\-\._~:/?#[\]@!\$&'\(\)\*\+,;=.]`. -/
def isTailChar (c : Char) : Bool :=
  isWord c || "-._~:/?#[]@!$&'()*+,;=".data.contains c

/-- The pattern `URL`,
`^(?:http(s)?:\/\/)?[\w.-]+(?:\.[\w\.-]+)+[\w\-\._~:/?#[\]@!\$&'\(\)\*\+,;=.]+$`,
between its anchors. -/
def URL : Regex :=
  .seq (.opt (.seq (.lit "http".data) (.seq (.opt (.lit "s".data)) (.lit "://".data))))
    (.seq (.plus (.cls isHostChar))
      (.seq (.plus (.seq (.lit ".".data) (.plus (.cls isHostChar))))
        (.plus (.cls isTailChar))))

/-- The call `rxURL.MatchString(str)`: the pattern is anchored at both ends, so
it matches somewhere in `str` exactly when all of `str` is in its language. -/
def rxURL_MatchString (str : String) : Bool :=
  URL.matchesAll str.data

/-- The language of an expression: the texts it denotes. -/
def Regex.Lang : Regex → List Char → Prop
  | .lit t, s => s = t
  | .cls p, s => ∃ c, s = [c] ∧ p c = true
  | .seq r1 r2, s => ∃ s1 s2, s = s1 ++ s2 ∧ r1.Lang s1 ∧ r2.Lang s2
  | .opt r, s => s = [] ∨ r.Lang s
  | .plus r, s => ∃ pieces : List (List Char), pieces ≠ [] ∧ s = pieces.flatten ∧ ∀ x ∈ pieces, r.Lang x

/-! ## `strings` -/

/-- The call `strings.HasPrefix(s, p)`. -/
def HasPrefix (s p : String) : Bool := p.data.isPrefixOf s.data

/-- Does the text `p` occur in the text? -/
def hasInfix (p : List Char) : List Char → Bool
  | [] => p.isEmpty
  | c :: cs => p.isPrefixOf (c :: cs) || hasInfix p cs

/-- The call `strings.Contains(s, p)`. -/
def Contains (s p : String) : Bool := hasInfix p.data s.data

/-- The text before the first `sep`, all of it when there is none. -/
def before (sep : Char) (s : List Char) : List Char :=
  s.takeWhile (fun c => c != sep)

/-- The text from the first `sep` on, empty when there is none. -/
def fromFirst (sep : Char) (s : List Char) : List Char :=
  s.dropWhile (fun c => c != sep)

/-- The text after the last `sep`, all of it when there is none. -/
def afterLast (sep : Char) (s : List Char) : List Char :=
  (before sep s.reverse).reverse

/-- The text before the last `sep`, for a text that has one. -/
def beforeLast (sep : Char) (s : List Char) : List Char :=
  ((fromFirst sep s.reverse).drop 1).reverse

/-! ## `net/url`

`url.Parse`, as far as `IsURL` looks at its result: whether it fails, and the
fields `Host` and `Path`. The model reads the text character by character; a
byte written as a `%XX` escape is kept as the character with that number, which
is all `IsURL` can tell of it (it tests `Host` and `Path` for being empty and
for the ASCII dot). Releases of Go differ in the hosts they accept; `parseHost`
says which behaviour is modelled. -/

/-- The fields of a parsed `url.URL` that `IsURL` reads. -/
structure ParsedURL where
  Host : String
  Path : String
deriving DecidableEq, Repr

/-- The parts of a URL that `unescape` tells apart. -/
inductive Encoding
  | encodePath
  | encodeHost
  | encodeZone
  | encodeUserPassword
  | encodeFragment
deriving DecidableEq, Repr

/-- An ASCII letter or digit. -/
def isAlnum (c : Char) : Bool :=
  (48 ≤ c.toNat && c.toNat ≤ 57) || (65 ≤ c.toNat && c.toNat ≤ 90)
    || (97 ≤ c.toNat && c.toNat ≤ 122)

/-- The function `shouldEscape(c, mode)` for the modes `encodeHost` and
`encodeZone`, the only ones `unescape` asks it about: must the ASCII character
be escaped in a host name? -/
def shouldEscapeHost (c : Char) : Bool :=
  !(isAlnum c || "!$&'()*+,;=:[]<>\"".data.contains c || "-_.~".data.contains c)

/-- The function `unescape(s, mode)`: the text with every `%XX` replaced by the
character it writes, `none` for a malformed escape, for an escape of an ASCII
character in a host and for a character a host cannot hold. -/
def unescape (mode : Encoding) : List Char → Option (List Char)
  | [] => some []
  | c :: rest =>
    if c = '%' then
      match rest with
      | h :: l :: rest2 =>
        match hexVal h, hexVal l with
        | some x, some y =>
          if mode = .encodeHost ∧ x < 8 ∧ ¬(h = '2' ∧ l = '5') then none
          else if mode = .encodeZone ∧ ¬(h = '2' ∧ l = '5') ∧ x * 16 + y ≠ 32
              ∧ shouldEscapeHost (Char.ofNat (x * 16 + y)) then none
          else (unescape mode rest2).map (fun r => Char.ofNat (x * 16 + y) :: r)
        | _, _ => none
      | _ => none
    else if (mode = .encodeHost ∨ mode = .encodeZone) ∧ c.toNat < 128 ∧ shouldEscapeHost c then
      none
    else (unescape mode rest).map (fun r => c :: r)

/-- The function `getScheme`: the scheme and what follows its colon; an empty
scheme and the whole text when there is no scheme; `none` for a text that
starts with a colon. `started` tells whether a character was read before, and
`acc` holds the characters read, last first. -/
def getSchemeAux (raw : List Char) : Bool → List Char → List Char → Option (List Char × List Char)
  | _, _, [] => some ([], raw)
  | started, acc, c :: cs =>
    if (65 ≤ c.toNat ∧ c.toNat ≤ 90) ∨ (97 ≤ c.toNat ∧ c.toNat ≤ 122) then
      getSchemeAux raw true (c :: acc) cs
    else if (48 ≤ c.toNat ∧ c.toNat ≤ 57) ∨ c = '+' ∨ c = '-' ∨ c = '.' then
      if started then getSchemeAux raw true (c :: acc) cs else some ([], raw)
    else if c = ':' then
      if started then some (acc.reverse, cs) else none
    else some ([], raw)

/-- The function `getScheme`. -/
def getScheme (raw : List Char) : Option (List Char × List Char) :=
  getSchemeAux raw false [] raw

/-- The function `validOptionalPort`: empty, or a colon and digits. -/
def validOptionalPort : List Char → Bool
  | [] => true
  | c :: cs => c = ':' && cs.all (fun d => 48 ≤ d.toNat && d.toNat ≤ 57)

/-- The function `parseHost`. An IP-literal is looked for at the start of the
host only, as the parser did when the repository was written. Later releases
of Go refuse hosts with a bracket further on that this function accepts,
`a.b[` for one; the theorems about `IsURL` do not rest on how a host with a
bracket is parsed. -/
def parseHost (host : List Char) : Option (List Char) :=
  if ['['].isPrefixOf host then
    if host.contains ']' then
      if validOptionalPort (afterLast ']' host) then
        let inner := beforeLast ']' host
        let closing := host.drop inner.length
        if hasInfix "%25".data inner then
          let zone := (inner.tails.takeWhile (fun t => !("%25".data.isPrefixOf t))).length
          match unescape .encodeHost (inner.take zone), unescape .encodeZone (inner.drop zone),
              unescape .encodeHost closing with
          | some h1, some h2, some h3 => some (h1 ++ h2 ++ h3)
          | _, _, _ => none
        else unescape .encodeHost host
      else none
    else none
  else if host.contains ':' then
    if validOptionalPort (':' :: afterLast ':' host) then unescape .encodeHost host else none
  else unescape .encodeHost host

/-- The function `validUserinfo`. -/
def validUserinfo (s : List Char) : Bool :=
  s.all (fun c => isAlnum c || "-._:~!$&'()*+,;=%@".data.contains c)

/-- The function `parseAuthority`, for the host it returns. -/
def parseAuthority (authority : List Char) : Option (List Char) :=
  if authority.contains '@' then
    match parseHost (afterLast '@' authority) with
    | none => none
    | some host =>
      let userinfo := beforeLast '@' authority
      if !validUserinfo userinfo then none
      else if !userinfo.contains ':' then
        (unescape .encodeUserPassword userinfo).map (fun _ => host)
      else
        match unescape .encodeUserPassword (before ':' userinfo),
            unescape .encodeUserPassword ((fromFirst ':' userinfo).drop 1) with
        | some _, some _ => some host
        | _, _ => none
  else parseHost authority

/-- The function `parse(rawURL, false)`. -/
def parse (rawURL : List Char) : Option ParsedURL :=
  if rawURL.any (fun c => c.toNat < 32 || c.toNat = 127) then none
  else if rawURL = ['*'] then some ⟨"", "*"⟩
  else
    match getScheme rawURL with
    | none => none
    | some (scheme, rest0) =>
      let rest := before '?' rest0
      if !(['/'].isPrefixOf rest) ∧ scheme ≠ [] then some ⟨"", ""⟩
      else if !(['/'].isPrefixOf rest) ∧ (before '/' rest).contains ':' then none
      else if (scheme ≠ [] ∨ !(['/', '/', '/'].isPrefixOf rest)) ∧ ['/', '/'].isPrefixOf rest then
        let authority := before '/' (rest.drop 2)
        let rest1 := fromFirst '/' (rest.drop 2)
        match parseAuthority authority with
        | none => none
        | some host => (unescape .encodePath rest1).map (fun path => ⟨⟨host⟩, ⟨path⟩⟩)
      else (unescape .encodePath rest).map (fun path => ⟨"", ⟨path⟩⟩)

/-- The function `url.Parse`: `none` when it returns an error. -/
def urlParse (rawURL : String) : Option ParsedURL :=
  match parse (before '#' rawURL.data) with
  | none => none
  | some u =>
    match unescape .encodeFragment ((fromFirst '#' rawURL.data).drop 1) with
    | none => none
    | some _ => some u

/-! ## `IsURL` -/

/-- The constant `maxURLRuneCount`. -/
def maxURLRuneCount : Nat := 2083

/-- The constant `minURLRuneCount`. -/
def minURLRuneCount : Nat := 3

/-- The function `IsURL`: is the string a URL? -/
def IsURL (str : String) : Bool :=
  if str = "" ∨ str.length ≥ maxURLRuneCount ∨ str.utf8ByteSize ≤ minURLRuneCount
      ∨ HasPrefix str "." then
    false
  else
    let strTemp :=
      if Contains str ":" ∧ !Contains str "://" then "http://" ++ str else str
    match urlParse strTemp with
    | none => false
    | some u =>
      if HasPrefix u.Host "." then false
      else if u.Host = "" ∧ (u.Path ≠ "" ∧ !Contains u.Path ".") then false
      else rxURL_MatchString str

/-! ## `CallbackStore` -/

/-- The store of callbacks for watching address transactions. -/
structure CallbackStore where
  DB : DB
deriving DecidableEq, Repr

/-- The function `NewStore`. -/
def NewStore (db : DB) : CallbackStore := ⟨db⟩

/-- The map `anyDups` of `Add` once its loop has run over `cbs`: every element
of `cbs` is set to `true`, a key never set reads `false`. -/
def anyDups (cbs : List String) : String → Bool :=
  cbs.foldl (fun m element => fun k => if k = element then true else m k) (fun _ => false)

/-- The method `Add`: adds a callback url for an address. The result is the
store afterwards, the boolean and the error. -/
def CallbackStore.Add (cs : CallbackStore) (address callbackURL : String) :
    CallbackStore × Bool × Option Error :=
  if address.utf8ByteSize < 42 then (cs, false, some ErrBadAddress)
  else if !IsURL callbackURL then (cs, false, some ErrNotValidURL)
  else
    let key := address
    match cs.DB.Get key with
    | some callbacksJSON =>
      match Unmarshal callbacksJSON with
      | .error err => (cs, false, some err)
      | .ok cbs =>
        if anyDups cbs callbackURL then (cs, false, some ErrDuplicateURL)
        else (⟨cs.DB.Set key (Marshal (cbs ++ [callbackURL]))⟩, true, none)
    | none => (⟨cs.DB.Set key (Marshal ([] ++ [callbackURL]))⟩, true, none)

/-- The method `List`: lists the callback urls of an address. It leaves the
store as it is. -/
def CallbackStore.List (cs : CallbackStore) (address : String) : Except Error (List String) :=
  if address.utf8ByteSize < 42 then .error ErrBadAddress
  else
    match cs.DB.Get address with
    | some callbacksJSON =>
      match Unmarshal callbacksJSON with
      | .error err => .error err
      | .ok cbs => .ok cbs
    | none => .ok []

/-- The slice `newCallbacks` of `Delete` once its loop has run over `cbs`. -/
def newCallbacks (cbs : List String) (callback : String) : List String :=
  cbs.foldl (fun acc el => if el ≠ callback then acc ++ [el] else acc) []

/-- The method `Delete`: deletes a callback from the list of an address. The
result is the store afterwards and the error. -/
def CallbackStore.Delete (cs : CallbackStore) (address callback : String) :
    CallbackStore × Option Error :=
  if address.utf8ByteSize < 42 then (cs, some ErrBadAddress)
  else
    let key := address
    match cs.DB.Get key with
    | none => (cs, some ErrNoCallbacks)
    | some callbacksJSON =>
      match Unmarshal callbacksJSON with
      | .error err => (cs, some err)
      | .ok cbs =>
        if cbs.length = (newCallbacks cbs callback).length then (cs, some ErrCallbackNotFound)
        else if (newCallbacks cbs callback).length = 0 then (⟨cs.DB.Delete key⟩, none)
        else (⟨cs.DB.Set key (Marshal (newCallbacks cbs callback))⟩, none)

/-! ## `TxListener` -/

/-- A `bc.Hash` or `bc.AssetID`, known by the text its method `String` returns. -/
structure Hash where
  hex : String
deriving DecidableEq, Repr

/-- The method `String` of a hash. -/
def Hash.String (h : Hash) : String := h.hex

/-- A `query.AnnotatedInput`, with the fields the listener reads. -/
structure AnnotatedInput where
  AssetID : Hash
  Amount : Nat
  Address : String
deriving DecidableEq, Repr

/-- A `query.AnnotatedOutput`, with the fields the listener reads. -/
structure AnnotatedOutput where
  AssetID : Hash
  Amount : Nat
  Address : String
deriving DecidableEq, Repr

/-- A transaction `types.Tx` as the listener sees it: its id and the annotated
inputs and outputs that the wallet builds from it. -/
structure Tx where
  ID : Hash
  Inputs : List AnnotatedInput
  Outputs : List AnnotatedOutput
deriving DecidableEq, Repr

/-- The data sent to a callback url. -/
structure CallbackData where
  AssetID : String
  Amount : Nat
  Address : String
  TxID : String
deriving DecidableEq, Repr

/-- One started `go Callback(url, callbackData)`. -/
structure Dispatch where
  url : String
  callbackData : CallbackData
deriving DecidableEq, Repr

/-- The listener: the callback store and the database of transactions seen. -/
structure TxListener where
  CBStore : CallbackStore
  txDB : DB
deriving DecidableEq, Repr

/-- The constant `maxTTL`: 48 hours in seconds. -/
def maxTTL : Int := 48 * 60 * 60

/-- The method `UpdateTxDB`, at the time `now`. -/
def TxListener.UpdateTxDB (txl : TxListener) (now : Int) (tIDBytes : String) : TxListener :=
  let sampleValue : TxDBValue := ⟨now⟩
  { txl with txDB := txl.txDB.Set tIDBytes (MarshalTxDBValue sampleValue.Unixtime) }

/-- The result of a computation in `int64`: the number, wrapped around into the
range from `-2^63` to `2^63 - 1`. -/
def wrapInt64 (x : Int) : Int := (x + 2 ^ 63) % 2 ^ 64 - 2 ^ 63

/-- The entries an iterator over the store visits: the keys with the values
that `Get` reads. -/
def DB.Iterator (db : DB) : List (String × String) :=
  db.entries.filter (fun e => db.Get e.1 = some e.2)

/-- The body of the inner loop of `CleanUpOldTx` for the entry under the
iterator, at the tick `now`: the database afterwards. -/
def cleanUpEntry (maxTTL now : Int) (txDB : DB) (key value : String) : DB :=
  let valueOut := (UnmarshalTxDBValue value).1
  let err := (UnmarshalTxDBValue value).2
  if err ≠ none ∧ wrapInt64 (now - valueOut.Unixtime) > maxTTL then txDB.Delete key else txDB

/-- One round of the loop of `CleanUpOldTx`, for the tick at the time `now`: the
iterator runs over the entries the database holds when the round starts. -/
def TxListener.CleanUpOldTx (txl : TxListener) (maxTTL now : Int) : TxListener :=
  { txl with
    txDB := txl.txDB.Iterator.foldl (fun db e => cleanUpEntry maxTTL now db e.1 e.2) txl.txDB }

/-- The function `isOutputAddressInInputs`. -/
def isOutputAddressInInputs : List AnnotatedInput → String → Bool
  | [], _ => false
  | inp :: inputs, address =>
    if inp.Address = address then true else isOutputAddressInInputs inputs address

/-- The function `constructInputsOutputs`: the annotated inputs and outputs of
the transaction, in order. -/
def constructInputsOutputs (newTx : Tx) : List AnnotatedInput × List AnnotatedOutput :=
  (newTx.Inputs, newTx.Outputs)

/-- The body of the loop of `ProcessTx` for one output: the callbacks it starts. -/
def dispatchOutput (cs : CallbackStore) (newTx : Tx) (allInputs : List AnnotatedInput)
    (outp : AnnotatedOutput) : List Dispatch :=
  match cs.List outp.Address with
  | .ok urls =>
    if urls.length > 0 then
      let alsoInput := isOutputAddressInInputs allInputs outp.Address
      if !alsoInput then
        let callbackData : CallbackData :=
          ⟨outp.AssetID.String, outp.Amount, outp.Address, newTx.ID.String⟩
        urls.map (fun callbackAddress => ⟨callbackAddress, callbackData⟩)
      else []
    else []
  | .error _ => []

/-- The loop of `ProcessTx` over the outputs: the callbacks it starts, in order. -/
def dispatchOutputs (cs : CallbackStore) (newTx : Tx) (allInputs : List AnnotatedInput) :
    List AnnotatedOutput → List Dispatch
  | [] => []
  | outp :: rest => dispatchOutput cs newTx allInputs outp ++ dispatchOutputs cs newTx allInputs rest

/-- The method `ProcessTx`, at the time `now`: the listener afterwards and the
callbacks started. -/
def TxListener.ProcessTx (txl : TxListener) (now : Int) (newTx : Tx) :
    TxListener × List Dispatch :=
  let tIDBytes := newTx.ID.String
  match txl.txDB.Get tIDBytes with
  | none =>
    let txl1 := txl.UpdateTxDB now tIDBytes
    let io := constructInputsOutputs newTx
    (txl1, dispatchOutputs txl1.CBStore newTx io.1 io.2)
  | some _ => (txl, [])

/-! ## Runs of calls

The sequences of calls that the properties below speak of. -/

/-- The calls `Add(address, u)` for the urls of a list, in order: the store
afterwards and the result of every call. -/
def addEach (cs : CallbackStore) (address : String) :
    List String → CallbackStore × List (Bool × Option Error)
  | [] => (cs, [])
  | u :: us => ((addEach (cs.Add address u).1 address us).1,
      (cs.Add address u).2 :: (addEach (cs.Add address u).1 address us).2)

/-- A call of `Add` or of `Delete` with its arguments. -/
inductive Call
  | add (address url : String)
  | delete (address url : String)
deriving DecidableEq, Repr

/-- The store after a call, whatever the call returns. -/
def applyCall (cs : CallbackStore) : Call → CallbackStore
  | .add address url => (cs.Add address url).1
  | .delete address url => (cs.Delete address url).1

/-- The store after a sequence of calls. -/
def applyCalls (cs : CallbackStore) : List Call → CallbackStore
  | [] => cs
  | c :: rest => applyCalls (applyCall cs c) rest

/-- What happens to a listener between two transactions of interest: it
processes a transaction, or a call changes the registry it reads. -/
inductive Event
  | processTx (now : Int) (tx : Tx)
  | registry (c : Call)
deriving DecidableEq, Repr

/-- The listener after an event. -/
def TxListener.step (txl : TxListener) : Event → TxListener
  | .processTx now tx => (txl.ProcessTx now tx).1
  | .registry c => { txl with CBStore := applyCall txl.CBStore c }

/-- The listener after a sequence of events. -/
def TxListener.run (txl : TxListener) : List Event → TxListener
  | [] => txl
  | e :: rest => (txl.step e).run rest

/-- The callbacks the specification asks for when a transaction not seen before
is processed: for every output, in order, whose address has a non-empty list
of urls and is not the address of an input, one callback per url with the
asset id, the amount and the address of the output and the id of the
transaction. -/
def fanOut (cs : CallbackStore) (tx : Tx) : List Dispatch :=
  tx.Outputs.flatMap (fun o =>
    match cs.List o.Address with
    | .ok urls =>
      if urls ≠ [] ∧ ∀ inp ∈ tx.Inputs, inp.Address ≠ o.Address then
        urls.map (fun url => ⟨url, ⟨o.AssetID.String, o.Amount, o.Address, tx.ID.String⟩⟩)
      else []
    | .error _ => [])

/-! ## The JSON text written is read back -/

theorem hexVal_hexDigit (n : Nat) (h : n < 16) : hexVal (hexDigit n) = some n := by
  interval_cases n <;> decide

theorem getu4_byte (n : Nat) (h : n < 256) :
    getu4 '0' '0' (hexDigit (n / 16)) (hexDigit (n % 16)) = some n := by
  have h1 : hexVal (hexDigit (n / 16)) = some (n / 16) := hexVal_hexDigit _ (by omega)
  have h2 : hexVal (hexDigit (n % 16)) = some (n % 16) := hexVal_hexDigit _ (by omega)
  have h0 : hexVal '0' = some 0 := by decide
  simp only [getu4, h0, h1, h2]
  congr 1
  omega

theorem char_eq_of_toNat (c : Char) (n : Nat) (h : c.toNat = n) : Char.ofNat n = c := by
  subst h
  exact Char.ofNat_toNat c

theorem readChar_encodeChar (c : Char) (t : List Char) :
    readChar (encodeChar c ++ t) = some (c, t) := by
  unfold encodeChar
  by_cases h1 : c = '"'
  · subst h1; rfl
  rw [if_neg h1]
  by_cases h2 : c = '\\'
  · subst h2; rfl
  rw [if_neg h2]
  by_cases h3 : c.toNat = 8
  · rw [if_pos h3, ← char_eq_of_toNat c 8 h3]; rfl
  rw [if_neg h3]
  by_cases h4 : c.toNat = 12
  · rw [if_pos h4, ← char_eq_of_toNat c 12 h4]; rfl
  rw [if_neg h4]
  by_cases h5 : c = '\n'
  · subst h5; rfl
  rw [if_neg h5]
  by_cases h6 : c = '\r'
  · subst h6; rfl
  rw [if_neg h6]
  by_cases h7 : c = '\t'
  · subst h7; rfl
  rw [if_neg h7]
  by_cases h8 : c.toNat < 32 ∨ c = '<' ∨ c = '>' ∨ c = '&'
  · rw [if_pos h8]
    have hlt : c.toNat < 256 := by
      rcases h8 with h | h | h | h
      · omega
      · subst h; decide
      · subst h; decide
      · subst h; decide
    have hs : isSurrogate c.toNat = false := by
      simp [isSurrogate]; omega
    have hc := char_eq_of_toNat c c.toNat rfl
    have e1 : ('\\' = '"' ∨ '\\'.toNat < 32) = False := by decide
    have e2 : ('u' = '"' ∨ 'u' = '\\' ∨ 'u' = '/') = False := by decide
    simp only [List.cons_append, List.nil_append, readChar, e1, if_false, if_true, readEscape, e2,
      readU4, getu4_byte _ hlt, hs, hc]
    rfl
  rw [if_neg h8]
  by_cases h9 : c.toNat = 0x2028
  · rw [if_pos h9, ← char_eq_of_toNat c _ h9]; rfl
  rw [if_neg h9]
  by_cases h10 : c.toNat = 0x2029
  · rw [if_pos h10, ← char_eq_of_toNat c _ h10]; rfl
  rw [if_neg h10]
  have h32 : ¬ c.toNat < 32 := fun h => h8 (Or.inl h)
  simp [readChar, h1, h2, h32]

theorem encodeChar_head_ne_quote (c : Char) (t : List Char) :
    ∃ x r, encodeChar c ++ t = x :: r ∧ x ≠ '"' := by
  have h := readChar_encodeChar c t
  cases hs : encodeChar c ++ t with
  | nil => rw [hs] at h; exact absurd h (by simp [readChar])
  | cons x r =>
    refine ⟨x, r, rfl, ?_⟩
    intro hx
    subst hx
    rw [hs] at h
    exact absurd h (by simp [readChar])

theorem encodeChar_ne_nil (c : Char) : encodeChar c ≠ [] := by
  intro h
  obtain ⟨x, r, hx, _⟩ := encodeChar_head_ne_quote c []
  rw [h] at hx
  simp at hx

theorem unquoteAux_encodeChars (cs : List Char) :
    ∀ (fuel : Nat) (t : List Char), cs.length < fuel →
      unquoteAux fuel (encodeChars cs ++ '"' :: t) = some (cs, t) := by
  induction cs with
  | nil =>
    intro fuel t h
    obtain ⟨n, rfl⟩ : ∃ n, fuel = n + 1 := ⟨fuel - 1, by simp at h; omega⟩
    simp [encodeChars, unquoteAux]
  | cons c cs ih =>
    intro fuel t h
    obtain ⟨n, rfl⟩ : ∃ n, fuel = n + 1 := ⟨fuel - 1, by simp at h; omega⟩
    have hlen : cs.length < n := by simp at h; omega
    obtain ⟨x, r, hx, hne⟩ := encodeChar_head_ne_quote c (encodeChars cs ++ '"' :: t)
    have hrc := readChar_encodeChar c (encodeChars cs ++ '"' :: t)
    simp only [encodeChars, List.append_assoc]
    rw [hx] at hrc ⊢
    simp only [unquoteAux, if_neg hne, hrc, ih n t hlen, Option.map_some']

theorem length_le_encodeChars (cs : List Char) : cs.length ≤ (encodeChars cs).length := by
  induction cs with
  | nil => simp [encodeChars]
  | cons c cs ih =>
    have := List.length_pos.mpr (encodeChar_ne_nil c)
    simp only [encodeChars, List.length_cons, List.length_append]
    omega

theorem unquote_encodeChars (cs t : List Char) :
    unquote (encodeChars cs ++ '"' :: t) = some (cs, t) := by
  unfold unquote
  apply unquoteAux_encodeChars
  have := length_le_encodeChars cs
  simp only [List.length_append, List.length_cons]
  omega

theorem decodeValue_encodeString (s : String) (t : List Char) :
    decodeValue (encodeString s ++ t) = some (s, t) := by
  have h : encodeString s ++ t = '"' :: (encodeChars s.data ++ '"' :: t) := by
    simp [encodeString]
  rw [h]
  simp [decodeValue, dropPrefix, unquote_encodeChars]

theorem encodeElems_cons (s : String) (l : List String) :
    ∃ u, encodeElems (s :: l) = '"' :: u := by
  cases l with
  | nil => exact ⟨_, rfl⟩
  | cons t rest => exact ⟨_, rfl⟩

theorem decodeElems_encodeElems (l : List String) :
    ∀ (s : String) (fuel : Nat) (t : List Char), l.length < fuel →
      decodeElems fuel (encodeElems (s :: l) ++ ']' :: t) = some (s :: l, t) := by
  induction l with
  | nil =>
    intro s fuel t h
    obtain ⟨n, rfl⟩ : ∃ n, fuel = n + 1 := ⟨fuel - 1, by simp at h; omega⟩
    simp [encodeElems, decodeElems, decodeValue_encodeString, skipSpace, isSpace]
  | cons s' l ih =>
    intro s fuel t h
    obtain ⟨n, rfl⟩ : ∃ n, fuel = n + 1 := ⟨fuel - 1, by simp at h; omega⟩
    have hlen : l.length < n := by simp at h; omega
    obtain ⟨u, hu⟩ := encodeElems_cons s' l
    have hsk : skipSpace (encodeElems (s' :: l) ++ ']' :: t) = encodeElems (s' :: l) ++ ']' :: t := by
      rw [hu]; simp [skipSpace, isSpace]
    simp [encodeElems, decodeElems, decodeValue_encodeString, skipSpace, isSpace]
    rw [hsk, ih s' n t hlen]

theorem length_le_encodeElems (l : List String) : l.length ≤ (encodeElems l).length := by
  induction l with
  | nil => simp
  | cons s l ih =>
    cases l with
    | nil => simp [encodeElems, encodeString]
    | cons s' l =>
      simp only [encodeElems, List.length_cons, List.length_append] at ih ⊢
      omega

/-- What `json.Marshal` writes for a list of strings, `json.Unmarshal` reads back. -/
theorem Unmarshal_Marshal (l : List String) : Unmarshal (Marshal l) = .ok l := by
  cases l with
  | nil => decide
  | cons s l =>
    obtain ⟨u, hu⟩ := encodeElems_cons s l
    have hlen := length_le_encodeElems (s :: l)
    have hd : decodeArray (encodeElems (s :: l) ++ [']']) = some (s :: l, []) := by
      unfold decodeArray
      have hsk : skipSpace (encodeElems (s :: l) ++ [']']) = '"' :: (u ++ [']']) := by
        rw [hu]; simp [skipSpace, isSpace]
      rw [hsk]
      have hq : ('"' = ']') = False := by decide
      simp only [hq, if_false]
      have hback : '"' :: (u ++ [']']) = encodeElems (s :: l) ++ ']' :: [] := by rw [hu]; simp
      rw [hback]
      apply decodeElems_encodeElems
      simp only [List.length_append, List.length_cons, List.length_nil] at hlen ⊢
      omega
    simp [Unmarshal, Marshal, skipSpace, isSpace, dropPrefix, hd]

/-! ## The fuel of the readers is enough -/

theorem readU4_length (s : List Char) (x : Char) (r : List Char)
    (h : readU4 s = some (x, r)) : r.length < s.length + 1 := by
  unfold readU4 at h
  split at h
  · rename_i a b c d rest
    split at h
    · simp at h
    · split_ifs at h
      · split at h
        · simp only [Option.some.injEq, Prod.mk.injEq] at h
          rw [← h.2]
          simp only [List.length_drop, List.length_cons]
          omega
        · simp only [Option.some.injEq, Prod.mk.injEq] at h
          rw [← h.2]
          simp only [List.length_cons]
          omega
      · simp only [Option.some.injEq, Prod.mk.injEq] at h
        rw [← h.2]
        simp only [List.length_cons]
        omega
  · simp at h

theorem readEscape_length (s : List Char) (x : Char) (r : List Char)
    (h : readEscape s = some (x, r)) : r.length < s.length := by
  cases s with
  | nil => simp [readEscape] at h
  | cons e rest =>
    rw [readEscape] at h
    split_ifs at h with h1 h2 h3 h4 h5 h6 h7
    all_goals try (simp only [Option.some.injEq, Prod.mk.injEq] at h; rw [← h.2]; simp)
    exact readU4_length rest x r h

theorem readChar_length (s : List Char) (x : Char) (r : List Char)
    (h : readChar s = some (x, r)) : r.length < s.length := by
  cases s with
  | nil => simp [readChar] at h
  | cons c rest =>
    rw [readChar] at h
    split_ifs at h
    · have := readEscape_length rest x r h
      simp only [List.length_cons]
      omega
    · simp only [Option.some.injEq, Prod.mk.injEq] at h
      rw [← h.2]
      simp

/-- The result of `unquoteAux` is the same for every fuel from the length of the
text on. -/
theorem unquoteAux_fuel (n : Nat) :
    ∀ (m : Nat) (s : List Char), s.length ≤ n → s.length ≤ m →
      unquoteAux n s = unquoteAux m s := by
  induction n with
  | zero =>
    intro m s hn _
    have hs : s = [] := List.length_eq_zero.mp (by omega)
    subst hs
    cases m <;> rfl
  | succ n ih =>
    intro m s hn hm
    cases s with
    | nil => cases m <;> rfl
    | cons c rest =>
      obtain ⟨k, rfl⟩ : ∃ k, m = k + 1 := ⟨m - 1, by simp at hm; omega⟩
      unfold unquoteAux
      by_cases hq : c = '"'
      · rw [if_pos hq, if_pos hq]
      · rw [if_neg hq, if_neg hq]
        cases hr : readChar (c :: rest) with
        | none => rfl
        | some p =>
          obtain ⟨x, r⟩ := p
          have hlen := readChar_length _ x r hr
          simp only [List.length_cons] at hlen hn hm
          simp only []
          rw [ih k r (by omega) (by omega)]

theorem unquoteAux_length (n : Nat) :
    ∀ (s cs r : List Char), unquoteAux n s = some (cs, r) → r.length < s.length := by
  induction n with
  | zero => intro s cs r h; simp [unquoteAux] at h
  | succ n ih =>
    intro s cs r h
    cases s with
    | nil => simp [unquoteAux] at h
    | cons c rest =>
      rw [unquoteAux] at h
      split_ifs at h
      · simp only [Option.some.injEq, Prod.mk.injEq] at h
        rw [← h.2]
        simp
      · cases hr : readChar (c :: rest) with
        | none => rw [hr] at h; simp at h
        | some p =>
          obtain ⟨x, t⟩ := p
          rw [hr] at h
          simp only [Option.map_eq_some'] at h
          obtain ⟨q, hq, hqe⟩ := h
          have h1 := readChar_length _ x t hr
          have h2 := ih t q.1 q.2 hq
          simp only [Prod.mk.injEq] at hqe
          rw [← hqe.2]
          omega

theorem dropPrefix_length (p : List Char) :
    ∀ (s r : List Char), dropPrefix p s = some r → r.length + p.length = s.length := by
  induction p with
  | nil => intro s r h; simp [dropPrefix] at h; simp [h]
  | cons a p ih =>
    intro s r h
    cases s with
    | nil => simp [dropPrefix] at h
    | cons c cs =>
      rw [dropPrefix] at h
      split_ifs at h
      have := ih cs r h
      simp only [List.length_cons]
      omega

theorem decodeValue_length (s : List Char) (v : String) (r : List Char)
    (h : decodeValue s = some (v, r)) : r.length < s.length := by
  unfold decodeValue at h
  split at h
  · rename_i rest hd
    have := dropPrefix_length _ s rest hd
    simp only [Option.some.injEq, Prod.mk.injEq] at h
    rw [← h.2]
    simp only [List.length_cons, List.length_nil] at this
    omega
  · split at h
    · rename_i c rest
      split_ifs at h
      simp only [Option.map_eq_some'] at h
      obtain ⟨q, hq, hqe⟩ := h
      have := unquoteAux_length _ _ _ _ hq
      simp only [Prod.mk.injEq] at hqe
      rw [← hqe.2]
      simp only [List.length_cons]
      omega
    · simp at h

theorem skipSpace_length (s : List Char) : (skipSpace s).length ≤ s.length := by
  induction s with
  | nil => simp [skipSpace]
  | cons c cs ih =>
    rw [skipSpace]
    split_ifs
    · simp only [List.length_cons]; omega
    · exact Nat.le_refl _

/-- The result of `decodeElems` is the same for every fuel from the length of
the text on. -/
theorem decodeElems_fuel (n : Nat) :
    ∀ (m : Nat) (s : List Char), s.length ≤ n → s.length ≤ m →
      decodeElems n s = decodeElems m s := by
  induction n with
  | zero =>
    intro m s hn _
    have hs : s = [] := List.length_eq_zero.mp (by omega)
    subst hs
    cases m with
    | zero => rfl
    | succ k => simp [decodeElems, decodeValue, dropPrefix]
  | succ n ih =>
    intro m s hn hm
    cases m with
    | zero =>
      have hs : s = [] := List.length_eq_zero.mp (by omega)
      subst hs
      simp [decodeElems, decodeValue, dropPrefix]
    | succ k =>
      rw [decodeElems, decodeElems]
      cases hv : decodeValue s with
      | none => rfl
      | some p =>
        obtain ⟨v, r⟩ := p
        have h1 := decodeValue_length s v r hv
        have h2 := skipSpace_length r
        simp only []
        cases hsk : skipSpace r with
        | nil => rfl
        | cons c r1 =>
          rw [hsk] at h2
          have h3 := skipSpace_length r1
          simp only [List.length_cons] at h2
          simp only []
          rw [ih k (skipSpace r1) (by omega) (by omega)]

/-- The pieces `splits` returns make up the text. -/
theorem append_of_mem_splits (s : List Char) :
    ∀ p ∈ splits s, p.1 ++ p.2 = s := by
  induction s with
  | nil => intro p hp; simp [splits] at hp; simp [hp]
  | cons c cs ih =>
    intro p hp
    simp only [splits, List.mem_cons, List.mem_map] at hp
    rcases hp with rfl | ⟨q, hq, rfl⟩
    · rfl
    · simp [ih q hq]

theorem any_congr_of_mem {α : Type} (l : List α) (f g : α → Bool)
    (h : ∀ x ∈ l, f x = g x) : l.any f = l.any g := by
  induction l with
  | nil => rfl
  | cons a l ih =>
    simp only [List.any_cons]
    rw [h a (List.mem_cons_self a l), ih (fun x hx => h x (List.mem_cons_of_mem a hx))]

/-- The result of `matchPlus` is the same for every fuel above the length of
the text. -/
theorem matchPlus_fuel (f : List Char → Bool) (n : Nat) :
    ∀ (m : Nat) (s : List Char), s.length < n → s.length < m →
      matchPlus f n s = matchPlus f m s := by
  induction n with
  | zero => intro m s hn _; omega
  | succ n ih =>
    intro m s hn hm
    obtain ⟨k, rfl⟩ : ∃ k, m = k + 1 := ⟨m - 1, by omega⟩
    rw [matchPlus, matchPlus]
    congr 1
    apply any_congr_of_mem
    intro p hp
    have happ := append_of_mem_splits s p hp
    by_cases h1 : p.1.isEmpty = true
    · simp [h1]
    · have hlen : p.2.length < s.length := by
        rw [← happ, List.length_append]
        have : 0 < p.1.length := by
          cases hh : p.1 with
          | nil => rw [hh] at h1; exact absurd rfl h1
          | cons _ _ => simp
        omega
      rw [ih k p.2 (by omega) (by omega)]

/-! ## The key/value store -/

theorem DB.Get_empty (k : String) : DB.empty.Get k = none := rfl

theorem DB.Get_Delete_same (db : DB) (k : String) : (db.Delete k).Get k = none := by
  simp [DB.Delete, DB.Get]

theorem find?_filter_key (es : List (String × String)) (k k' : String) (h : k' ≠ k) :
    (es.filter (fun e => !(e.1 == k))).find? (fun e => e.1 == k')
      = es.find? (fun e => e.1 == k') := by
  induction es with
  | nil => rfl
  | cons e es ih =>
    by_cases he : e.1 = k
    · have hb : (e.1 == k) = true := beq_iff_eq.mpr he
      have hk : (e.1 == k') = false := by
        apply beq_eq_false_iff_ne.mpr
        intro h'
        exact h (h'.symm.trans he)
      rw [List.filter_cons, List.find?_cons]
      simp only [hb, hk, Bool.not_true]
      exact ih
    · have hb : (e.1 == k) = false := beq_eq_false_iff_ne.mpr he
      rw [List.filter_cons]
      simp only [hb, Bool.not_false, if_true, List.find?_cons]
      rw [ih]

theorem DB.Get_Delete_ne (db : DB) (k k' : String) (h : k' ≠ k) :
    (db.Delete k).Get k' = db.Get k' := by
  unfold DB.Delete DB.Get
  rw [find?_filter_key db.entries k k' h]

theorem DB.Get_Set_same (db : DB) (k v : String) : (db.Set k v).Get k = some v := by
  simp [DB.Set, DB.Get]

theorem DB.Get_Set_ne (db : DB) (k k' v : String) (h : k' ≠ k) :
    (db.Set k v).Get k' = db.Get k' := by
  have h1 : (db.Set k v).Get k' = (db.Delete k).Get k' := by
    have hk : ¬ k = k' := fun h' => h h'.symm
    simp [DB.Set, DB.Get, List.find?_cons, hk]
  rw [h1, DB.Get_Delete_ne db k k' h]

/-! ## The loops of `Add` and `Delete` -/

theorem anyDups_foldl (cbs : List String) (u : String) :
    ∀ m : String → Bool,
      (cbs.foldl (fun m element => fun k => if k = element then true else m k) m) u
        = (m u || decide (u ∈ cbs)) := by
  induction cbs with
  | nil => intro m; simp
  | cons c cbs ih =>
    intro m
    rw [List.foldl_cons, ih]
    by_cases h : u = c
    · simp [h]
    · simp [h]

theorem anyDups_eq (cbs : List String) (u : String) : anyDups cbs u = decide (u ∈ cbs) := by
  unfold anyDups
  rw [anyDups_foldl]
  simp

theorem newCallbacks_foldl (cbs : List String) (u : String) :
    ∀ acc : List String,
      cbs.foldl (fun acc el => if el ≠ u then acc ++ [el] else acc) acc
        = acc ++ cbs.filter (fun el => decide (el ≠ u)) := by
  induction cbs with
  | nil => intro acc; simp
  | cons c cbs ih =>
    intro acc
    rw [List.foldl_cons, ih]
    by_cases h : c = u
    · simp [h]
    · simp [h, List.filter_cons]

theorem newCallbacks_eq (cbs : List String) (u : String) :
    newCallbacks cbs u = cbs.filter (fun el => decide (el ≠ u)) := by
  unfold newCallbacks
  rw [newCallbacks_foldl]
  simp

theorem length_newCallbacks_eq_iff (cbs : List String) (u : String) :
    cbs.length = (newCallbacks cbs u).length ↔ u ∉ cbs := by
  rw [newCallbacks_eq, eq_comm, List.filter_length_eq_length]
  constructor
  · intro h hu
    simpa using h u hu
  · intro h a ha
    simp only [ne_eq, decide_not, Bool.not_eq_true', decide_eq_false_iff_not]
    intro hau
    exact h (hau ▸ ha)

/-! ## What `List`, `Add` and `Delete` return -/

theorem List_of_absent (cs : CallbackStore) (a : String) (ha : ¬ a.utf8ByteSize < 42)
    (h : cs.DB.Get a = none) : cs.List a = .ok [] := by
  simp [CallbackStore.List, ha, h]

theorem List_of_present (cs : CallbackStore) (a v : String) (ha : ¬ a.utf8ByteSize < 42)
    (h : cs.DB.Get a = some v) : cs.List a = Unmarshal v := by
  simp only [CallbackStore.List, if_neg ha, h]
  cases Unmarshal v <;> rfl

theorem List_after_Set (db : DB) (a : String) (l : List String) (ha : ¬ a.utf8ByteSize < 42) :
    (CallbackStore.mk (db.Set a (Marshal l))).List a = .ok l := by
  have h := List_of_present ⟨db.Set a (Marshal l)⟩ a (Marshal l) ha (DB.Get_Set_same db a _)
  rw [h, Unmarshal_Marshal]

/-- The five ways `Add` can end. -/
theorem Add_cases (cs : CallbackStore) (a u : String) :
    (a.utf8ByteSize < 42 ∧ cs.Add a u = (cs, false, some ErrBadAddress))
    ∨ (¬ a.utf8ByteSize < 42 ∧ IsURL u = false ∧ cs.Add a u = (cs, false, some ErrNotValidURL))
    ∨ (¬ a.utf8ByteSize < 42 ∧ IsURL u = true ∧ ∃ v e, cs.DB.Get a = some v
        ∧ Unmarshal v = .error e ∧ cs.Add a u = (cs, false, some e))
    ∨ (¬ a.utf8ByteSize < 42 ∧ IsURL u = true ∧ ∃ l, cs.List a = .ok l ∧ u ∈ l
        ∧ cs.Add a u = (cs, false, some ErrDuplicateURL))
    ∨ (¬ a.utf8ByteSize < 42 ∧ IsURL u = true ∧ ∃ l, cs.List a = .ok l ∧ u ∉ l
        ∧ cs.Add a u = (⟨cs.DB.Set a (Marshal (l ++ [u]))⟩, true, none)) := by
  by_cases ha : a.utf8ByteSize < 42
  · exact Or.inl ⟨ha, by simp [CallbackStore.Add, ha]⟩
  right
  by_cases hu : IsURL u = true
  swap
  · have hu' : IsURL u = false := by simpa using hu
    exact Or.inl ⟨ha, hu', by simp [CallbackStore.Add, ha, hu']⟩
  right
  cases hg : cs.DB.Get a with
  | none =>
    right; right
    refine ⟨ha, hu, [], List_of_absent cs a ha hg, by simp, ?_⟩
    simp [CallbackStore.Add, ha, hu, hg]
  | some v =>
    cases hv : Unmarshal v with
    | error e =>
      left
      refine ⟨ha, hu, v, e, rfl, hv, ?_⟩
      simp [CallbackStore.Add, ha, hu, hg, hv]
    | ok l =>
      have hl : cs.List a = .ok l := by rw [List_of_present cs a v ha hg, hv]
      by_cases hm : u ∈ l
      · right; left
        refine ⟨ha, hu, l, hl, hm, ?_⟩
        simp [CallbackStore.Add, ha, hu, hg, hv, anyDups_eq, hm]
      · right; right
        refine ⟨ha, hu, l, hl, hm, ?_⟩
        simp [CallbackStore.Add, ha, hu, hg, hv, anyDups_eq, hm]

/-- The six ways `Delete` can end. -/
theorem Delete_cases (cs : CallbackStore) (a u : String) :
    (a.utf8ByteSize < 42 ∧ cs.Delete a u = (cs, some ErrBadAddress))
    ∨ (¬ a.utf8ByteSize < 42 ∧ cs.DB.Get a = none ∧ cs.Delete a u = (cs, some ErrNoCallbacks))
    ∨ (¬ a.utf8ByteSize < 42 ∧ ∃ v e, cs.DB.Get a = some v ∧ Unmarshal v = .error e
        ∧ cs.Delete a u = (cs, some e))
    ∨ (¬ a.utf8ByteSize < 42 ∧ ∃ v l, cs.DB.Get a = some v ∧ Unmarshal v = .ok l ∧ u ∉ l
        ∧ cs.Delete a u = (cs, some ErrCallbackNotFound))
    ∨ (¬ a.utf8ByteSize < 42 ∧ ∃ v l, cs.DB.Get a = some v ∧ Unmarshal v = .ok l ∧ u ∈ l
        ∧ l.filter (fun el => decide (el ≠ u)) = []
        ∧ cs.Delete a u = (⟨cs.DB.Delete a⟩, none))
    ∨ (¬ a.utf8ByteSize < 42 ∧ ∃ v l, cs.DB.Get a = some v ∧ Unmarshal v = .ok l ∧ u ∈ l
        ∧ l.filter (fun el => decide (el ≠ u)) ≠ []
        ∧ cs.Delete a u
            = (⟨cs.DB.Set a (Marshal (l.filter (fun el => decide (el ≠ u))))⟩, none)) := by
  by_cases ha : a.utf8ByteSize < 42
  · exact Or.inl ⟨ha, by simp [CallbackStore.Delete, ha]⟩
  right
  cases hg : cs.DB.Get a with
  | none => exact Or.inl ⟨ha, rfl, by simp [CallbackStore.Delete, ha, hg]⟩
  | some v =>
    right
    cases hv : Unmarshal v with
    | error e =>
      left
      refine ⟨ha, v, e, rfl, hv, ?_⟩
      simp [CallbackStore.Delete, ha, hg, hv]
    | ok l =>
      right
      by_cases hm : u ∈ l
      · right
        have hlen : ¬ l.length = (newCallbacks l u).length := by
          rw [length_newCallbacks_eq_iff]; simpa using hm
        by_cases hnil : l.filter (fun el => decide (el ≠ u)) = []
        · left
          refine ⟨ha, v, l, rfl, hv, hm, hnil, ?_⟩
          have h0 : (newCallbacks l u).length = 0 := by rw [newCallbacks_eq, hnil]; rfl
          simp only [CallbackStore.Delete, if_neg ha, hg, hv, if_neg hlen]
          rw [if_pos h0]
        · right
          refine ⟨ha, v, l, rfl, hv, hm, hnil, ?_⟩
          have h0 : ¬ (newCallbacks l u).length = 0 := by
            rw [newCallbacks_eq]
            intro h
            exact hnil (List.length_eq_zero.mp h)
          simp only [CallbackStore.Delete, if_neg ha, hg, hv, if_neg hlen, if_neg h0]
          rw [newCallbacks_eq]
      · left
        have hlen : l.length = (newCallbacks l u).length := by
          rw [length_newCallbacks_eq_iff]; exact hm
        refine ⟨ha, v, l, rfl, hv, hm, ?_⟩
        simp only [CallbackStore.Delete, if_neg ha, hg, hv, if_pos hlen]

/-! ## Sample values -/

theorem isURL_bytom_com : IsURL "https://bytom.com" = true := by decide

theorem isURL_bytom_com_1 : IsURL "https://bytom.com/1" = true := by decide

theorem isURL_bytom_com_2 : IsURL "https://bytom.com/2" = true := by decide

theorem not_isURL_bad_url : IsURL "bad url" = false := by decide

theorem Add_empty_bytom_com :
    (NewStore DB.empty).Add "sample address should be of length more than 42"
        "https://bytom.com"
      = (⟨⟨[("sample address should be of length more than 42", "[\"https://bytom.com\"]")]⟩⟩,
          true, none) := by
  simp [CallbackStore.Add, isURL_bytom_com, NewStore, DB.empty, DB.Get]
  decide

/-! ## The callback store -/

theorem addEach_from (a : String) (ha : ¬ a.utf8ByteSize < 42) (us : List String) :
    ∀ (cs : CallbackStore) (l : List String), cs.List a = .ok l → (l ++ us).Nodup →
      (∀ u ∈ us, IsURL u = true) →
      (addEach cs a us).2 = us.map (fun _ => (true, none))
        ∧ (addEach cs a us).1.List a = .ok (l ++ us) := by
  induction us with
  | nil => intro cs l hl _ _; simpa [addEach] using hl
  | cons u us ih =>
    intro cs l hl hnd hurl
    have hu : IsURL u = true := hurl u (List.mem_cons_self u us)
    have hni : u ∉ l := by
      intro hm
      have := List.nodup_append.mp hnd
      exact this.2.2 hm (List.mem_cons_self u us) 
    have hadd : cs.Add a u = (⟨cs.DB.Set a (Marshal (l ++ [u]))⟩, true, none) := by
      rcases Add_cases cs a u with h | h | h | h | h
      · exact absurd h.1 ha
      · rw [h.2.1] at hu; exact absurd hu (by simp)
      · obtain ⟨_, _, v, e, hg, hv, _⟩ := h
        rw [List_of_present cs a v ha hg, hv] at hl
        exact absurd hl (by simp)
      · obtain ⟨_, _, l', hl', hm, _⟩ := h
        rw [hl] at hl'
        cases hl'
        exact absurd hm hni
      · obtain ⟨_, _, l', hl', _, he⟩ := h
        rw [hl] at hl'
        cases hl'
        exact he
    have hnext := ih ⟨cs.DB.Set a (Marshal (l ++ [u]))⟩ (l ++ [u]) (List_after_Set cs.DB a _ ha)
      (by simpa using hnd) (fun w hw => hurl w (List.mem_cons_of_mem u hw))
    simp only [addEach, hadd, List.map_cons]
    refine ⟨?_, ?_⟩
    · rw [hnext.1]
    · rw [hnext.2]; simp

/-- C1. `List` returns the urls in the order they were added: for an address
of at least 42 bytes without an entry in the store and pairwise distinct urls
that all satisfy `IsURL`, the calls `Add(a, u1)`, ..., `Add(a, un)` in this order
all return `(true, nil)` and `List(a)` then returns exactly `[u1, ..., un]`
without an error. And every call `Add(a, u)` that returns `(true, nil)` makes
`List(a)` the list it was before with `u` appended at the end. -/
theorem list_returns_urls_in_insertion_order (cs : CallbackStore) (a : String)
    (us : List String) (ha : 42 ≤ a.utf8ByteSize) (hnone : cs.DB.Get a = none)
    (hnd : us.Nodup) (hurl : ∀ u ∈ us, IsURL u = true) :
    (addEach cs a us).2 = us.map (fun _ => (true, none))
      ∧ (addEach cs a us).1.List a = .ok us
      ∧ ∀ (cs' : CallbackStore) (a' u : String), (cs'.Add a' u).2 = (true, none) →
          ∃ l, cs'.List a' = .ok l ∧ (cs'.Add a' u).1.List a' = .ok (l ++ [u]) := by
  have ha' : ¬ a.utf8ByteSize < 42 := by omega
  have h := addEach_from a ha' us cs [] (List_of_absent cs a ha' hnone) (by simpa using hnd) hurl
  refine ⟨h.1, by simpa using h.2, ?_⟩
  intro cs' a' u hok
  rcases Add_cases cs' a' u with h | h | h | h | h
  · rw [h.2] at hok; exact absurd hok (by simp)
  · rw [h.2.2] at hok; exact absurd hok (by simp)
  · obtain ⟨_, _, v, e, _, _, he⟩ := h
    rw [he] at hok; exact absurd hok (by simp)
  · obtain ⟨_, _, l, _, _, he⟩ := h
    rw [he] at hok; exact absurd hok (by simp)
  · obtain ⟨ha2, _, l, hl, _, he⟩ := h
    exact ⟨l, hl, by rw [he]; exact List_after_Set cs'.DB a' _ ha2⟩

/-- An instance of C1: the three urls of `TestList` added to the empty store. -/
theorem list_returns_urls_in_insertion_order_witness :
    42 ≤ "sample address should be of length more than 42 - 1".utf8ByteSize
      ∧ (NewStore DB.empty).DB.Get "sample address should be of length more than 42 - 1" = none
      ∧ ["https://bytom.com/1", "https://bytom.com/2", "https://bytom.com"].Nodup
      ∧ (addEach (NewStore DB.empty) "sample address should be of length more than 42 - 1"
          ["https://bytom.com/1", "https://bytom.com/2", "https://bytom.com"]).1.List
            "sample address should be of length more than 42 - 1"
          = .ok ["https://bytom.com/1", "https://bytom.com/2", "https://bytom.com"] :=
  ⟨by decide, by decide, by decide,
    (list_returns_urls_in_insertion_order (NewStore DB.empty)
      "sample address should be of length more than 42 - 1"
      ["https://bytom.com/1", "https://bytom.com/2", "https://bytom.com"]
      (by decide) (by decide) (by decide)
      (by
        intro u hu
        simp only [List.mem_cons, List.mem_singleton, List.not_mem_nil, or_false] at hu
        rcases hu with rfl | rfl | rfl
        · exact isURL_bytom_com_1
        · exact isURL_bytom_com_2
        · exact isURL_bytom_com)).2.1⟩

/-- C2. Adding the same pair twice is rejected the second time: when
`Add(a, u)` returns `(true, nil)`, the same call made again returns
`(false, ErrDuplicateURL)` and leaves the store as it is, so `List(a)` is the
same after the second call as after the first; for an address without an entry
before the first call `List(a)` has length 1 after both calls. -/
theorem second_add_is_duplicate (cs : CallbackStore) (a u : String)
    (hok : (cs.Add a u).2 = (true, none)) :
    (cs.Add a u).1.Add a u = ((cs.Add a u).1, false, some ErrDuplicateURL)
      ∧ ((cs.Add a u).1.Add a u).1.List a = (cs.Add a u).1.List a
      ∧ (cs.DB.Get a = none →
          (cs.Add a u).1.List a = .ok [u] ∧ ((cs.Add a u).1.Add a u).1.List a = .ok [u]
            ∧ [u].length = 1) := by
  have hfirst : ¬ a.utf8ByteSize < 42 ∧ IsURL u = true ∧ ∃ l, cs.List a = .ok l
      ∧ cs.Add a u = (⟨cs.DB.Set a (Marshal (l ++ [u]))⟩, true, none) := by
    rcases Add_cases cs a u with h | h | h | h | h
    · rw [h.2] at hok; exact absurd hok (by simp)
    · rw [h.2.2] at hok; exact absurd hok (by simp)
    · obtain ⟨_, _, v, e, _, _, he⟩ := h
      rw [he] at hok; exact absurd hok (by simp)
    · obtain ⟨_, _, l, _, _, he⟩ := h
      rw [he] at hok; exact absurd hok (by simp)
    · obtain ⟨ha, hu, l, hl, _, he⟩ := h
      exact ⟨ha, hu, l, hl, he⟩
  obtain ⟨ha, hu, l, hl, he⟩ := hfirst
  have hlist : (cs.Add a u).1.List a = .ok (l ++ [u]) := by
    rw [he]; exact List_after_Set cs.DB a _ ha
  have hsecond : (cs.Add a u).1.Add a u = ((cs.Add a u).1, false, some ErrDuplicateURL) := by
    rcases Add_cases (cs.Add a u).1 a u with h | h | h | h | h
    · exact absurd h.1 ha
    · rw [h.2.1] at hu; exact absurd hu (by simp)
    · obtain ⟨_, _, v, e, hg, hv, _⟩ := h
      rw [List_of_present _ a v ha hg, hv] at hlist
      exact absurd hlist (by simp)
    · exact h.2.2.choose_spec.2.2
    · obtain ⟨_, _, l', hl', hni, _⟩ := h
      rw [hlist] at hl'
      cases hl'
      exact absurd (by simp) hni
  refine ⟨hsecond, by rw [hsecond], ?_⟩
  intro hnone
  have hnil : l = [] := by
    rw [List_of_absent cs a ha hnone] at hl
    cases hl
    rfl
  subst hnil
  refine ⟨by simpa using hlist, by rw [hsecond]; simpa using hlist, rfl⟩

/-- An instance of C2: the first two cases of `TestAdd`. -/
theorem second_add_is_duplicate_witness :
    ((NewStore DB.empty).Add "sample address should be of length more than 42"
        "https://bytom.com").2 = (true, none)
      ∧ (((NewStore DB.empty).Add "sample address should be of length more than 42"
          "https://bytom.com").1.Add "sample address should be of length more than 42"
          "https://bytom.com").2 = (false, some ErrDuplicateURL) :=
  have h : ((NewStore DB.empty).Add "sample address should be of length more than 42"
      "https://bytom.com").2 = (true, none) := by rw [Add_empty_bytom_com]
  ⟨h, by rw [(second_add_is_duplicate _ _ _ h).1]⟩

/-- C3. A short address is rejected first: for an address of fewer than 42
bytes, whatever the url and whatever the store holds, `Add` returns
`(false, ErrBadAddress)`, `Delete` returns `ErrBadAddress` and `List` returns
`ErrBadAddress` without a list; the store is left as it is. -/
theorem short_address_is_rejected (cs : CallbackStore) (a u : String)
    (ha : a.utf8ByteSize < 42) :
    cs.Add a u = (cs, false, some ErrBadAddress)
      ∧ cs.Delete a u = (cs, some ErrBadAddress)
      ∧ cs.List a = .error ErrBadAddress := by
  simp [CallbackStore.Add, CallbackStore.Delete, CallbackStore.List, ha]

/-- An instance of C3: the address `blahblah` of `TestDelete` on a store whose
entry for it is not JSON. -/
theorem short_address_is_rejected_witness :
    "blahblah".utf8ByteSize < 42
      ∧ (CallbackStore.mk ⟨[("blahblah", "corrupt")]⟩).Add "blahblah" "https://blahblah.com"
          = (⟨⟨[("blahblah", "corrupt")]⟩⟩, false, some ErrBadAddress)
      ∧ (CallbackStore.mk ⟨[("blahblah", "corrupt")]⟩).Delete "blahblah" "blahblah"
          = (⟨⟨[("blahblah", "corrupt")]⟩⟩, some ErrBadAddress)
      ∧ (CallbackStore.mk ⟨[("blahblah", "corrupt")]⟩).List "blahblah" = .error ErrBadAddress :=
  ⟨by decide,
    (short_address_is_rejected ⟨⟨[("blahblah", "corrupt")]⟩⟩ "blahblah" "https://blahblah.com"
      (by decide)).1,
    (short_address_is_rejected ⟨⟨[("blahblah", "corrupt")]⟩⟩ "blahblah" "blahblah"
      (by decide)).2⟩

theorem Delete_of_absent (cs : CallbackStore) (a u : String) (ha : ¬ a.utf8ByteSize < 42)
    (hg : cs.DB.Get a = none) : cs.Delete a u = (cs, some ErrNoCallbacks) := by
  simp [CallbackStore.Delete, ha, hg]

/-- C4. When `Add` succeeds, and that it changes nothing when it fails: for an
address of at least 42 bytes, a url that fails `IsURL` gives
`(false, ErrNotValidURL)` whatever the store holds; when the entry of the
address is absent (`l = []`) or decodes to the list `l`, `Add` returns
`(true, nil)` exactly when `IsURL(u)` holds and `u` is not in `l`, and
`(false, ErrDuplicateURL)` when `IsURL(u)` holds and `u` is in `l`; an entry
that does not decode gives the decoder's error. Whenever `Add` returns an
error the store is unchanged, and the boolean is `true` exactly when the error
is `nil`. -/
theorem add_succeeds_iff_valid_and_new (cs : CallbackStore) (a u : String) :
    (42 ≤ a.utf8ByteSize →
      (IsURL u = false → cs.Add a u = (cs, false, some ErrNotValidURL))
      ∧ (∀ l : List String,
          (cs.DB.Get a = none ∧ l = []) ∨ (∃ v, cs.DB.Get a = some v ∧ Unmarshal v = .ok l) →
            ((cs.Add a u).2 = (true, none) ↔ (IsURL u = true ∧ u ∉ l))
            ∧ (IsURL u = true → u ∈ l → cs.Add a u = (cs, false, some ErrDuplicateURL)))
      ∧ (∀ v e, cs.DB.Get a = some v → Unmarshal v = .error e → IsURL u = true →
          cs.Add a u = (cs, false, some e)))
    ∧ ((cs.Add a u).2.2 ≠ none → (cs.Add a u).1 = cs)
    ∧ ((cs.Add a u).2.1 = true ↔ (cs.Add a u).2.2 = none) := by
  refine ⟨?_, ?_, ?_⟩
  · intro ha
    have ha' : ¬ a.utf8ByteSize < 42 := by omega
    refine ⟨?_, ?_, ?_⟩
    · intro hu
      simp [CallbackStore.Add, ha', hu]
    · intro l hl
      have hlist : cs.List a = .ok l := by
        rcases hl with ⟨hg, rfl⟩ | ⟨v, hg, hv⟩
        · exact List_of_absent cs a ha' hg
        · rw [List_of_present cs a v ha' hg, hv]
      rcases Add_cases cs a u with h | h | h | h | h
      · exact absurd h.1 ha'
      · obtain ⟨_, hu, he⟩ := h
        simp [he, hu]
      · obtain ⟨_, _, v, e, hg, hv, _⟩ := h
        rw [List_of_present cs a v ha' hg, hv] at hlist
        exact absurd hlist (by simp)
      · obtain ⟨_, hu, l', hl', hm, he⟩ := h
        rw [hlist] at hl'
        cases hl'
        simp [he, hu, hm]
      · obtain ⟨_, hu, l', hl', hm, he⟩ := h
        rw [hlist] at hl'
        cases hl'
        simp [he, hu, hm]
    · intro v e hg hv hu
      simp [CallbackStore.Add, ha', hu, hg, hv]
  · intro herr
    rcases Add_cases cs a u with h | h | h | h | h
    · rw [h.2]
    · rw [h.2.2]
    · obtain ⟨_, _, v, e, _, _, he⟩ := h
      rw [he]
    · obtain ⟨_, _, l, _, _, he⟩ := h
      rw [he]
    · obtain ⟨_, _, l, _, _, he⟩ := h
      rw [he] at herr
      exact absurd rfl herr
  · rcases Add_cases cs a u with h | h | h | h | h
    · simp [h.2]
    · simp [h.2.2]
    · obtain ⟨_, _, v, e, _, _, he⟩ := h
      simp [he]
    · obtain ⟨_, _, l, _, _, he⟩ := h
      simp [he]
    · obtain ⟨_, _, l, _, _, he⟩ := h
      simp [he]

/-- An instance of C4: the last case of `TestAdd`, a url that is not valid. -/
theorem add_succeeds_iff_valid_and_new_witness :
    42 ≤ "sample address should be of length more than 42".utf8ByteSize
      ∧ IsURL "bad url" = false
      ∧ (NewStore DB.empty).Add "sample address should be of length more than 42" "bad url"
          = (NewStore DB.empty, false, some ErrNotValidURL) :=
  ⟨by decide, not_isURL_bad_url,
    ((add_succeeds_iff_valid_and_new (NewStore DB.empty)
      "sample address should be of length more than 42" "bad url").1 (by decide)).1
      not_isURL_bad_url⟩

/-- C5. The failures of `Delete`: for an address of at least 42 bytes,
`Delete` returns `ErrNoCallbacks` when the store holds no entry for the
address, and `ErrCallbackNotFound` when the entry decodes to a list that does
not contain the url; in both cases the store is unchanged. -/
theorem delete_fails_without_entry_or_url (cs : CallbackStore) (a u : String)
    (ha : 42 ≤ a.utf8ByteSize) :
    (cs.DB.Get a = none → cs.Delete a u = (cs, some ErrNoCallbacks))
      ∧ (∀ (v : String) (l : List String), cs.DB.Get a = some v → Unmarshal v = .ok l →
          u ∉ l → cs.Delete a u = (cs, some ErrCallbackNotFound)) := by
  have ha' : ¬ a.utf8ByteSize < 42 := by omega
  refine ⟨Delete_of_absent cs a u ha', ?_⟩
  · intro v l hg hv hni
    have hlen : l.length = (newCallbacks l u).length := (length_newCallbacks_eq_iff l u).mpr hni
    simp only [CallbackStore.Delete, if_neg ha', hg, hv, if_pos hlen]

/-- An instance of C5: `Delete` on the empty store. -/
theorem delete_fails_without_entry_or_url_witness :
    42 ≤ "sample address should be of length more than 42 - 1".utf8ByteSize
      ∧ (NewStore DB.empty).Delete "sample address should be of length more than 42 - 1"
          "https://bytom.com" = (NewStore DB.empty, some ErrNoCallbacks) :=
  ⟨by decide,
    (delete_fails_without_entry_or_url (NewStore DB.empty)
      "sample address should be of length more than 42 - 1" "https://bytom.com"
      (by decide)).1 rfl⟩

/-- C6. What a successful `Delete` leaves: for an address of at least 42 bytes
whose entry decodes to a list `l` that contains `u`, `Delete(a, u)` returns
`nil` and `List(a)` then returns `l` without `u`, the other urls in the order
they had. When nothing remains the key is removed from the store, so
`List(a)` returns the empty list without an error and a further `Delete` on
the address returns `ErrNoCallbacks`; otherwise the key holds the remainder. -/
theorem delete_removes_url (cs : CallbackStore) (a u v : String) (l : List String)
    (ha : 42 ≤ a.utf8ByteSize) (hg : cs.DB.Get a = some v) (hv : Unmarshal v = .ok l)
    (hm : u ∈ l) :
    (cs.Delete a u).2 = none
      ∧ (cs.Delete a u).1.List a = .ok (l.filter (fun el => decide (el ≠ u)))
      ∧ (l.filter (fun el => decide (el ≠ u)) = [] →
          (cs.Delete a u).1.DB.Get a = none
            ∧ (cs.Delete a u).1.List a = .ok []
            ∧ ∀ w, (cs.Delete a u).1.Delete a w = ((cs.Delete a u).1, some ErrNoCallbacks))
      ∧ (l.filter (fun el => decide (el ≠ u)) ≠ [] →
          (cs.Delete a u).1.DB.Get a = some (Marshal (l.filter (fun el => decide (el ≠ u))))) := by
  have ha' : ¬ a.utf8ByteSize < 42 := by omega
  rcases Delete_cases cs a u with h | h | h | h | h | h
  · exact absurd h.1 ha'
  · rw [h.2.1] at hg; exact absurd hg (by simp)
  · obtain ⟨_, v', e, hg', hv', _⟩ := h
    rw [hg] at hg'; cases hg'
    rw [hv] at hv'; exact absurd hv' (by simp)
  · obtain ⟨_, v', l', hg', hv', hni, _⟩ := h
    rw [hg] at hg'; cases hg'
    rw [hv] at hv'; cases hv'
    exact absurd hm hni
  · obtain ⟨_, v', l', hg', hv', _, hnil, he⟩ := h
    rw [hg] at hg'; cases hg'
    rw [hv] at hv'; cases hv'
    have hget : (cs.Delete a u).1.DB.Get a = none := by rw [he]; exact DB.Get_Delete_same cs.DB a
    have hlist : (cs.Delete a u).1.List a = .ok [] := List_of_absent _ a ha' hget
    refine ⟨by rw [he], by rw [hlist, hnil], fun _ => ⟨hget, hlist, ?_⟩,
      fun hne => absurd hnil hne⟩
    intro w
    exact Delete_of_absent _ a w ha' hget
  · obtain ⟨_, v', l', hg', hv', _, hnil, he⟩ := h
    rw [hg] at hg'; cases hg'
    rw [hv] at hv'; cases hv'
    refine ⟨by rw [he], by rw [he]; exact List_after_Set cs.DB a _ ha',
      fun hnil' => absurd hnil' hnil, fun _ => by rw [he]; exact DB.Get_Set_same cs.DB a _⟩

/-- An instance of C6: deleting the second of two urls. -/
theorem delete_removes_url_witness :
    42 ≤ "sample address should be of length more than 42 - 1".utf8ByteSize
      ∧ Unmarshal "[\"https://bytom.com/1\",\"https://bytom.com/2\"]"
          = .ok ["https://bytom.com/1", "https://bytom.com/2"]
      ∧ ((CallbackStore.mk ⟨[("sample address should be of length more than 42 - 1",
            "[\"https://bytom.com/1\",\"https://bytom.com/2\"]")]⟩).Delete
          "sample address should be of length more than 42 - 1" "https://bytom.com/2").1.List
            "sample address should be of length more than 42 - 1"
          = .ok ["https://bytom.com/1"] :=
  ⟨by decide, by decide,
    (delete_removes_url
      ⟨⟨[("sample address should be of length more than 42 - 1",
          "[\"https://bytom.com/1\",\"https://bytom.com/2\"]")]⟩⟩
      "sample address should be of length more than 42 - 1" "https://bytom.com/2"
      "[\"https://bytom.com/1\",\"https://bytom.com/2\"]"
      ["https://bytom.com/1", "https://bytom.com/2"]
      (by decide) (by decide) (by decide) (by decide)).2.1⟩

theorem registry_step (cs : CallbackStore) (c : Call)
    (h : ∀ a v, cs.DB.Get a = some v → ∃ l, Unmarshal v = .ok l ∧ l ≠ [] ∧ l.Nodup) :
    ∀ a v, (applyCall cs c).DB.Get a = some v → ∃ l, Unmarshal v = .ok l ∧ l ≠ [] ∧ l.Nodup := by
  have hstored : ∀ (b : String) (l : List String), ¬ b.utf8ByteSize < 42 → cs.List b = .ok l →
      l.Nodup := by
    intro b l hb hl
    cases hg : cs.DB.Get b with
    | none =>
      rw [List_of_absent cs b hb hg] at hl
      cases hl
      exact List.nodup_nil
    | some v0 =>
      obtain ⟨l0, hl0, _, hnd⟩ := h b v0 hg
      rw [List_of_present cs b v0 hb hg, hl0] at hl
      cases hl
      exact hnd
  intro a v hget
  cases c with
  | add b u =>
    simp only [applyCall] at hget
    rcases Add_cases cs b u with hc | hc | hc | hc | hc
    · rw [hc.2] at hget; exact h a v hget
    · rw [hc.2.2] at hget; exact h a v hget
    · obtain ⟨_, _, v', e, _, _, he⟩ := hc
      rw [he] at hget; exact h a v hget
    · obtain ⟨_, _, l, _, _, he⟩ := hc
      rw [he] at hget; exact h a v hget
    · obtain ⟨hb, _, l, hl, hni, he⟩ := hc
      rw [he] at hget
      by_cases hab : a = b
      · subst hab
        rw [DB.Get_Set_same] at hget
        cases hget
        refine ⟨l ++ [u], Unmarshal_Marshal _, by simp, ?_⟩
        have hnd := hstored a l hb hl
        exact List.nodup_append.mpr ⟨hnd, List.nodup_singleton u, by
          intro x hx hxu
          rw [List.mem_singleton] at hxu
          exact hni (hxu ▸ hx)⟩
      · rw [DB.Get_Set_ne cs.DB b a _ hab] at hget
        exact h a v hget
  | delete b u =>
    simp only [applyCall] at hget
    rcases Delete_cases cs b u with hc | hc | hc | hc | hc | hc
    · rw [hc.2] at hget; exact h a v hget
    · rw [hc.2.2] at hget; exact h a v hget
    · obtain ⟨_, v', e, _, _, he⟩ := hc
      rw [he] at hget; exact h a v hget
    · obtain ⟨_, v', l, _, _, _, he⟩ := hc
      rw [he] at hget; exact h a v hget
    · obtain ⟨_, v', l, _, _, _, _, he⟩ := hc
      rw [he] at hget
      by_cases hab : a = b
      · subst hab
        rw [DB.Get_Delete_same] at hget
        exact absurd hget (by simp)
      · rw [DB.Get_Delete_ne cs.DB b a hab] at hget
        exact h a v hget
    · obtain ⟨_, v', l, hg', hv', _, hne, he⟩ := hc
      rw [he] at hget
      by_cases hab : a = b
      · subst hab
        rw [DB.Get_Set_same] at hget
        cases hget
        obtain ⟨l0, hl0, _, hnd⟩ := h a v' hg'
        rw [hv'] at hl0
        cases hl0
        exact ⟨_, Unmarshal_Marshal _, hne, hnd.filter _⟩
      · rw [DB.Get_Set_ne cs.DB b a _ hab] at hget
        exact h a v hget

theorem registry_steps (calls : List Call) :
    ∀ cs : CallbackStore,
      (∀ a v, cs.DB.Get a = some v → ∃ l, Unmarshal v = .ok l ∧ l ≠ [] ∧ l.Nodup) →
      ∀ a v, (applyCalls cs calls).DB.Get a = some v →
        ∃ l, Unmarshal v = .ok l ∧ l ≠ [] ∧ l.Nodup := by
  induction calls with
  | nil => intro cs h; exact h
  | cons c rest ih => intro cs h; exact ih (applyCall cs c) (registry_step cs c h)

/-- C7. The invariant of the registry: in every store reached from the empty
store by calls of `Add` and `Delete`, with any arguments and whether they
succeed or fail, every key present holds a list of urls that is not empty and
has no url twice. -/
theorem registry_lists_nonempty_without_duplicates (calls : List Call) (a v : String)
    (h : (applyCalls (NewStore DB.empty) calls).DB.Get a = some v) :
    ∃ l, Unmarshal v = .ok l ∧ l ≠ [] ∧ l.Nodup := by
  refine registry_steps calls (NewStore DB.empty) ?_ a v h
  intro b w hb
  rw [show (NewStore DB.empty).DB.Get b = none from rfl] at hb
  exact absurd hb (by simp)

/-- An instance of C7: the store after one `Add` and a `Delete` that fails. -/
theorem registry_lists_nonempty_without_duplicates_witness :
    (applyCalls (NewStore DB.empty)
        [.add "sample address should be of length more than 42" "https://bytom.com",
          .delete "sample address should be of length more than 42" "https://bytom.com/1"]).DB.Get
        "sample address should be of length more than 42" = some "[\"https://bytom.com\"]"
      ∧ ∃ l, Unmarshal "[\"https://bytom.com\"]" = .ok l ∧ l ≠ [] ∧ l.Nodup :=
  have h : (applyCalls (NewStore DB.empty)
      [.add "sample address should be of length more than 42" "https://bytom.com",
        .delete "sample address should be of length more than 42" "https://bytom.com/1"]).DB.Get
      "sample address should be of length more than 42" = some "[\"https://bytom.com\"]" := by
    simp only [applyCalls, applyCall, Add_empty_bytom_com]
    decide
  ⟨h, registry_lists_nonempty_without_duplicates _ _ _ h⟩

/-! ## The listener -/

theorem ProcessTx_seen (txl : TxListener) (now : Int) (tx : Tx)
    (h : (txl.txDB.Get tx.ID.String).isSome = true) : txl.ProcessTx now tx = (txl, []) := by
  obtain ⟨v, hv⟩ := Option.isSome_iff_exists.mp h
  simp [TxListener.ProcessTx, hv]

theorem ProcessTx_unseen (txl : TxListener) (now : Int) (tx : Tx)
    (h : txl.txDB.Get tx.ID.String = none) :
    txl.ProcessTx now tx
      = (txl.UpdateTxDB now tx.ID.String,
          dispatchOutputs txl.CBStore tx tx.Inputs tx.Outputs) := by
  simp [TxListener.ProcessTx, h, constructInputsOutputs, TxListener.UpdateTxDB]

theorem ProcessTx_txDB_cases (txl : TxListener) (now : Int) (tx : Tx) :
    (txl.ProcessTx now tx).1 = txl
      ∨ (txl.ProcessTx now tx).1
          = ⟨txl.CBStore, txl.txDB.Set tx.ID.String (MarshalTxDBValue now)⟩ := by
  cases h : txl.txDB.Get tx.ID.String with
  | none => right; rw [ProcessTx_unseen txl now tx h]; rfl
  | some v => left; rw [ProcessTx_seen txl now tx (by simp [h])]

theorem ProcessTx_records (txl : TxListener) (now : Int) (tx : Tx) :
    ((txl.ProcessTx now tx).1.txDB.Get tx.ID.String).isSome = true := by
  cases h : txl.txDB.Get tx.ID.String with
  | none =>
    rw [ProcessTx_unseen txl now tx h]
    simp [TxListener.UpdateTxDB, DB.Get_Set_same]
  | some v =>
    rw [ProcessTx_seen txl now tx (by simp [h])]
    simp [h]

theorem step_keeps_seen (txl : TxListener) (e : Event) (k : String)
    (h : (txl.txDB.Get k).isSome = true) : ((txl.step e).txDB.Get k).isSome = true := by
  cases e with
  | processTx now tx =>
    simp only [TxListener.step]
    rcases ProcessTx_txDB_cases txl now tx with hc | hc
    · rw [hc]; exact h
    · rw [hc]
      by_cases hk : k = tx.ID.String
      · subst hk; simp [DB.Get_Set_same]
      · simp only [DB.Get_Set_ne _ _ _ _ hk]; exact h
  | registry c => exact h

theorem run_keeps_seen (evs : List Event) (k : String) :
    ∀ txl : TxListener, (txl.txDB.Get k).isSome = true →
      ((txl.run evs).txDB.Get k).isSome = true := by
  induction evs with
  | nil => intro txl h; exact h
  | cons e rest ih => intro txl h; exact ih (txl.step e) (step_keeps_seen txl e k h)

/-- C8. A transaction id is taken in once: after `ProcessTx(tx)` the id of `tx`
is recorded in the database of transactions seen, and a later `ProcessTx` of a
transaction with the same id starts no callback and changes nothing, whatever
transactions were processed and whatever calls changed the registry in
between (the record is not deleted by any of these). So processing one id
twice starts at most one set of callbacks. -/
theorem same_id_dispatches_once (txl : TxListener) (now now' : Int) (tx tx' : Tx)
    (evs : List Event) (hid : tx'.ID = tx.ID) :
    ((txl.ProcessTx now tx).1.txDB.Get tx.ID.String).isSome = true
      ∧ (((txl.ProcessTx now tx).1.run evs).ProcessTx now' tx').2 = []
      ∧ (((txl.ProcessTx now tx).1.run evs).ProcessTx now' tx').1
          = (txl.ProcessTx now tx).1.run evs := by
  have hrec := ProcessTx_records txl now tx
  have hkeep := run_keeps_seen evs tx.ID.String _ hrec
  rw [← hid] at hkeep
  have h := ProcessTx_seen ((txl.ProcessTx now tx).1.run evs) now' tx' hkeep
  exact ⟨hrec, by rw [h], by rw [h]⟩

/-- An instance of C8: the same id processed again after another transaction
and a call of `Add`. -/
theorem same_id_dispatches_once_witness :
    (Tx.mk ⟨"1f"⟩ [] [⟨⟨"ff"⟩, 100, "sample address should be of length more than 42"⟩]).ID
        = (Tx.mk ⟨"1f"⟩ [] []).ID
      ∧ ((((TxListener.mk (NewStore DB.empty) DB.empty).ProcessTx 1000 (Tx.mk ⟨"1f"⟩ [] [])).1.run
          [.processTx 1001 (Tx.mk ⟨"2e"⟩ [] []),
            .registry (.add "sample address should be of length more than 42"
              "https://bytom.com")]).ProcessTx 1002
          (Tx.mk ⟨"1f"⟩ [] [⟨⟨"ff"⟩, 100, "sample address should be of length more than 42"⟩])).2
        = [] :=
  ⟨rfl, (same_id_dispatches_once (TxListener.mk (NewStore DB.empty) DB.empty) 1000 1002
    (Tx.mk ⟨"1f"⟩ [] [])
    (Tx.mk ⟨"1f"⟩ [] [⟨⟨"ff"⟩, 100, "sample address should be of length more than 42"⟩])
    [.processTx 1001 (Tx.mk ⟨"2e"⟩ [] []),
      .registry (.add "sample address should be of length more than 42" "https://bytom.com")]
    rfl).2.1⟩

theorem isOutputAddressInInputs_iff (inputs : List AnnotatedInput) (address : String) :
    isOutputAddressInInputs inputs address = true ↔ ∃ inp ∈ inputs, inp.Address = address := by
  induction inputs with
  | nil => simp [isOutputAddressInInputs]
  | cons inp rest ih =>
    by_cases h : inp.Address = address
    · simp [isOutputAddressInInputs, h]
    · simp [isOutputAddressInInputs, h, ih]

theorem mem_dispatchOutput (cs : CallbackStore) (tx : Tx) (inputs : List AnnotatedInput)
    (o : AnnotatedOutput) (d : Dispatch) (hd : d ∈ dispatchOutput cs tx inputs o) :
    d.callbackData.Address = o.Address ∧ isOutputAddressInInputs inputs o.Address = false := by
  unfold dispatchOutput at hd
  cases hl : cs.List o.Address with
  | error e => rw [hl] at hd; simp at hd
  | ok urls =>
    rw [hl] at hd
    by_cases hlen : urls.length > 0
    · by_cases hin : isOutputAddressInInputs inputs o.Address = true
      · simp [hlen, hin] at hd
      · have hin' : isOutputAddressInInputs inputs o.Address = false := by simpa using hin
        simp only [hlen, hin', if_true, Bool.not_false, List.mem_map] at hd
        obtain ⟨url, _, rfl⟩ := hd
        exact ⟨rfl, hin'⟩
    · simp [hlen] at hd

theorem mem_dispatchOutputs (cs : CallbackStore) (tx : Tx) (inputs : List AnnotatedInput)
    (d : Dispatch) :
    ∀ outputs : List AnnotatedOutput, d ∈ dispatchOutputs cs tx inputs outputs →
      ∃ o ∈ outputs, d ∈ dispatchOutput cs tx inputs o := by
  intro outputs
  induction outputs with
  | nil => intro h; simp [dispatchOutputs] at h
  | cons o rest ih =>
    intro h
    simp only [dispatchOutputs, List.mem_append] at h
    rcases h with h | h
    · exact ⟨o, List.mem_cons_self o rest, h⟩
    · obtain ⟨o', ho', hd⟩ := ih h
      exact ⟨o', List.mem_cons_of_mem o ho', hd⟩

/-- C9. No callback for an address the transaction spends from: when an
address is the address of at least one annotated input of the transaction,
`ProcessTx` starts no callback whose data carry that address, whatever urls
are registered for it and however many outputs pay it. -/
theorem no_dispatch_for_input_address (txl : TxListener) (now : Int) (tx : Tx) (A : String)
    (hin : ∃ inp ∈ tx.Inputs, inp.Address = A) :
    ∀ d ∈ (txl.ProcessTx now tx).2, d.callbackData.Address ≠ A := by
  intro d hd haddr
  cases h : txl.txDB.Get tx.ID.String with
  | some v =>
    rw [ProcessTx_seen txl now tx (by simp [h])] at hd
    simp at hd
  | none =>
    rw [ProcessTx_unseen txl now tx h] at hd
    obtain ⟨o, _, hdo⟩ := mem_dispatchOutputs _ _ _ d _ hd
    obtain ⟨ha, hnot⟩ := mem_dispatchOutput _ _ _ o d hdo
    rw [ha] at haddr
    rw [← haddr] at hin
    have := (isOutputAddressInInputs_iff tx.Inputs o.Address).mpr hin
    rw [hnot] at this
    exact absurd this (by simp)

/-- An instance of C9: a transaction that spends from and pays to an address
with a registered url starts no callback. -/
theorem no_dispatch_for_input_address_witness :
    (∃ inp ∈ [AnnotatedInput.mk ⟨"ff"⟩ 150 "sample address should be of length more than 42"],
        inp.Address = "sample address should be of length more than 42")
      ∧ ∀ d ∈ ((TxListener.mk
          ⟨⟨[("sample address should be of length more than 42", "[\"https://bytom.com\"]")]⟩⟩
          DB.empty).ProcessTx 1000
          (Tx.mk ⟨"1f"⟩ [⟨⟨"ff"⟩, 150, "sample address should be of length more than 42"⟩]
            [⟨⟨"ff"⟩, 100, "sample address should be of length more than 42"⟩])).2,
          d.callbackData.Address ≠ "sample address should be of length more than 42" :=
  ⟨⟨_, List.mem_singleton.mpr rfl, rfl⟩,
    no_dispatch_for_input_address _ 1000
      (Tx.mk ⟨"1f"⟩ [⟨⟨"ff"⟩, 150, "sample address should be of length more than 42"⟩]
        [⟨⟨"ff"⟩, 100, "sample address should be of length more than 42"⟩])
      "sample address should be of length more than 42"
      ⟨_, List.mem_singleton.mpr rfl, rfl⟩⟩

theorem dispatchOutput_eq (cs : CallbackStore) (tx : Tx) (o : AnnotatedOutput) :
    dispatchOutput cs tx tx.Inputs o =
      (match cs.List o.Address with
      | .ok urls =>
        if urls ≠ [] ∧ ∀ inp ∈ tx.Inputs, inp.Address ≠ o.Address then
          urls.map (fun url => ⟨url, ⟨o.AssetID.String, o.Amount, o.Address, tx.ID.String⟩⟩)
        else []
      | .error _ => []) := by
  unfold dispatchOutput
  cases cs.List o.Address with
  | error e => rfl
  | ok urls =>
    have hlen : urls.length > 0 ↔ urls ≠ [] := by
      rw [gt_iff_lt, List.length_pos]
    by_cases hne : urls ≠ []
    · by_cases hin : isOutputAddressInInputs tx.Inputs o.Address = true
      · have hex := (isOutputAddressInInputs_iff _ _).mp hin
        have : ¬ ∀ inp ∈ tx.Inputs, inp.Address ≠ o.Address := by
          intro hall
          obtain ⟨inp, hm, he⟩ := hex
          exact hall inp hm he
        simp only [hlen.mpr hne, hin, this, and_false, if_true, if_false, Bool.not_true]
        rfl
      · have hin' : isOutputAddressInInputs tx.Inputs o.Address = false := by simpa using hin
        have : ∀ inp ∈ tx.Inputs, inp.Address ≠ o.Address := by
          intro inp hm he
          exact hin ((isOutputAddressInInputs_iff _ _).mpr ⟨inp, hm, he⟩)
        simp only [hlen.mpr hne, hin', if_true, Bool.not_false]
        rw [if_pos ⟨hne, this⟩]
    · have hl : ¬ urls.length > 0 := fun h => hne (hlen.mp h)
      simp only [hl, hne, false_and, if_false]

theorem dispatchOutputs_eq_fanOut (cs : CallbackStore) (tx : Tx) :
    ∀ outputs : List AnnotatedOutput,
      dispatchOutputs cs tx tx.Inputs outputs = outputs.flatMap (fun o =>
        match cs.List o.Address with
        | .ok urls =>
          if urls ≠ [] ∧ ∀ inp ∈ tx.Inputs, inp.Address ≠ o.Address then
            urls.map (fun url => ⟨url, ⟨o.AssetID.String, o.Amount, o.Address, tx.ID.String⟩⟩)
          else []
        | .error _ => []) := by
  intro outputs
  induction outputs with
  | nil => rfl
  | cons o rest ih =>
    rw [dispatchOutputs, ih, dispatchOutput_eq, List.flatMap_cons]

/-- C10. The callbacks of a transaction not seen before: when the id of the
transaction is not in the database of transactions seen, `ProcessTx` starts
exactly the callbacks of `fanOut`: for each annotated output, in order, for
which `List` of its address succeeds with a non-empty list and whose address
is not the address of an annotated input, one callback per url of the list,
with the asset id, the amount and the address of the output and the id of the
transaction; and no other. With `url1` and `url2` registered for `A`, one
output of amount 100 and asset `X` to `A` and no input from `A`, exactly two
callbacks are started, to `url1` and to `url2`, both with `(X, 100, A, id)`. -/
theorem unseen_tx_fans_out (txl : TxListener) (now : Int) (tx : Tx)
    (h : txl.txDB.Get tx.ID.String = none) :
    (txl.ProcessTx now tx).2 = fanOut txl.CBStore tx
      ∧ ∀ (A url1 url2 X : String) (inputs : List AnnotatedInput),
          tx = ⟨tx.ID, inputs, [⟨⟨X⟩, 100, A⟩]⟩ →
          txl.CBStore.List A = .ok [url1, url2] →
          (∀ inp ∈ inputs, inp.Address ≠ A) →
          (txl.ProcessTx now tx).2
            = [⟨url1, ⟨X, 100, A, tx.ID.String⟩⟩, ⟨url2, ⟨X, 100, A, tx.ID.String⟩⟩] := by
  have hmain : (txl.ProcessTx now tx).2 = fanOut txl.CBStore tx := by
    rw [ProcessTx_unseen txl now tx h]
    exact dispatchOutputs_eq_fanOut txl.CBStore tx tx.Outputs
  refine ⟨hmain, ?_⟩
  intro A url1 url2 X inputs htx hlist hno
  rw [hmain]
  have hin : tx.Inputs = inputs := by rw [htx]
  have hout : tx.Outputs = [⟨⟨X⟩, 100, A⟩] := by rw [htx]
  unfold fanOut
  rw [hout, hin]
  simp [hlist, hno, Hash.String]
  intro inp hm he
  exact hno inp hm he

/-- An instance of C10: the end-to-end example, two urls registered for the
address that the only output pays. -/
theorem unseen_tx_fans_out_witness :
    (TxListener.mk
        ⟨⟨[("sample address should be of length more than 42",
            "[\"https://bytom.com/1\",\"https://bytom.com/2\"]")]⟩⟩ DB.empty).txDB.Get
        (Tx.mk ⟨"1f"⟩ [] [⟨⟨"ff"⟩, 100, "sample address should be of length more than 42"⟩]).ID.String
        = none
      ∧ ((TxListener.mk
          ⟨⟨[("sample address should be of length more than 42",
              "[\"https://bytom.com/1\",\"https://bytom.com/2\"]")]⟩⟩ DB.empty).ProcessTx 1000
          (Tx.mk ⟨"1f"⟩ [] [⟨⟨"ff"⟩, 100, "sample address should be of length more than 42"⟩])).2
        = [⟨"https://bytom.com/1",
              ⟨"ff", 100, "sample address should be of length more than 42", "1f"⟩⟩,
            ⟨"https://bytom.com/2",
              ⟨"ff", 100, "sample address should be of length more than 42", "1f"⟩⟩] :=
  ⟨rfl, (unseen_tx_fans_out
    (TxListener.mk
      ⟨⟨[("sample address should be of length more than 42",
          "[\"https://bytom.com/1\",\"https://bytom.com/2\"]")]⟩⟩ DB.empty) 1000
    (Tx.mk ⟨"1f"⟩ [] [⟨⟨"ff"⟩, 100, "sample address should be of length more than 42"⟩])
    rfl).2 "sample address should be of length more than 42" "https://bytom.com/1"
      "https://bytom.com/2" "ff" [] rfl (by decide) (by simp)⟩


/-! ## Lengths in bytes and in characters -/

theorem utf8ByteSize_go_ge (cs : List Char) : cs.length ≤ String.utf8ByteSize.go cs := by
  induction cs with
  | nil => simp [String.utf8ByteSize.go]
  | cons c cs ih =>
    have := c.utf8Size_pos
    simp only [String.utf8ByteSize.go, List.length_cons]
    omega

theorem length_le_utf8ByteSize (s : String) : s.length ≤ s.utf8ByteSize := by
  cases s with
  | mk cs => exact utf8ByteSize_go_ge cs

/-! ## The cheap checks of `IsURL` and of the address -/

/-- C14. The cheap rejections of `IsURL`: a string that is empty, or has at
least 2083 characters, or is at most 3 bytes long, or starts with a dot is not
a URL. -/
theorem isURL_cheap_rejections (s : String)
    (h : s = "" ∨ s.length ≥ 2083 ∨ s.utf8ByteSize ≤ 3 ∨ s.data.head? = some '.') :
    IsURL s = false := by
  have hc : s = "" ∨ s.length ≥ maxURLRuneCount ∨ s.utf8ByteSize ≤ minURLRuneCount
      ∨ HasPrefix s "." = true := by
    rcases h with h | h | h | h
    · exact Or.inl h
    · exact Or.inr (Or.inl h)
    · exact Or.inr (Or.inr (Or.inl h))
    · refine Or.inr (Or.inr (Or.inr ?_))
      unfold HasPrefix
      cases hd : s.data with
      | nil => rw [hd] at h; simp at h
      | cons c cs =>
        rw [hd] at h
        simp only [List.head?_cons, Option.some.injEq] at h
        subst h
        show (['.'] : List Char).isPrefixOf ('.' :: cs) = true
        simp [List.isPrefixOf]
  unfold IsURL
  rw [if_pos hc]

/-- An instance of C14: a text of three bytes. -/
theorem isURL_cheap_rejections_witness :
    ("a.b" = "" ∨ "a.b".length ≥ 2083 ∨ "a.b".utf8ByteSize ≤ 3 ∨ "a.b".data.head? = some '.')
      ∧ IsURL "a.b" = false :=
  ⟨by decide, isURL_cheap_rejections "a.b" (by decide)⟩

theorem Unmarshal_error (v : String) (e : Error) (h : Unmarshal v = .error e) :
    e = jsonError := by
  unfold Unmarshal at h
  simp only [] at h
  split at h
  · split_ifs at h
    cases h; rfl
  · split at h
    · split_ifs at h
      · split at h
        · split_ifs at h
          cases h; rfl
        · cases h; rfl
      · cases h; rfl
    · cases h; rfl

/-- C15, as the code has it. The address is checked by its length in bytes:
for an address of fewer than 42 bytes `Add`, `List` and `Delete` fail with
`ErrBadAddress`, and for an address of at least 42 bytes, so for every address
of at least 42 characters, none of them fails with `ErrBadAddress`. -/
theorem address_is_checked_by_byte_length (cs : CallbackStore) (a u : String) :
    (a.utf8ByteSize < 42 →
      (cs.Add a u).2.2 = some ErrBadAddress ∧ cs.List a = .error ErrBadAddress
        ∧ (cs.Delete a u).2 = some ErrBadAddress)
    ∧ (42 ≤ a.utf8ByteSize →
      (cs.Add a u).2.2 ≠ some ErrBadAddress ∧ cs.List a ≠ .error ErrBadAddress
        ∧ (cs.Delete a u).2 ≠ some ErrBadAddress)
    ∧ (42 ≤ a.length → 42 ≤ a.utf8ByteSize) := by
  refine ⟨?_, ?_, ?_⟩
  · intro ha
    simp [CallbackStore.Add, CallbackStore.List, CallbackStore.Delete, ha]
  · intro ha
    have ha' : ¬ a.utf8ByteSize < 42 := by omega
    refine ⟨?_, ?_, ?_⟩
    · rcases Add_cases cs a u with h | h | h | h | h
      · exact absurd h.1 ha'
      · rw [h.2.2]; simp
      · obtain ⟨_, _, v, e, _, hv, he⟩ := h
        rw [he, Unmarshal_error v e hv]; simp
      · obtain ⟨_, _, l, _, _, he⟩ := h
        rw [he]; simp
      · obtain ⟨_, _, l, _, _, he⟩ := h
        rw [he]; simp
    · cases hg : cs.DB.Get a with
      | none => rw [List_of_absent cs a ha' hg]; simp
      | some v =>
        rw [List_of_present cs a v ha' hg]
        intro hv
        have := Unmarshal_error v _ hv
        exact absurd this (by simp)
    · rcases Delete_cases cs a u with h | h | h | h | h | h
      · exact absurd h.1 ha'
      · rw [h.2.2]; simp
      · obtain ⟨_, v, e, _, hv, he⟩ := h
        rw [he, Unmarshal_error v e hv]; simp
      · obtain ⟨_, v, l, _, _, _, he⟩ := h
        rw [he]; simp
      · obtain ⟨_, v, l, _, _, _, _, he⟩ := h
        rw [he]; simp
      · obtain ⟨_, v, l, _, _, _, _, he⟩ := h
        rw [he]
        simp
  · intro ha
    have := length_le_utf8ByteSize a
    omega

/-- An instance of C15 as the code has it: an address of 21 characters and 42
bytes is accepted. -/
theorem address_is_checked_by_byte_length_witness :
    42 ≤ "ééééééééééééééééééééé".utf8ByteSize
      ∧ (NewStore DB.empty).List "ééééééééééééééééééééé" ≠ .error ErrBadAddress :=
  ⟨by decide,
    ((address_is_checked_by_byte_length (NewStore DB.empty) "ééééééééééééééééééééé"
      "https://bytom.com").2.1 (by decide)).2.1⟩

/-- C15 as stated fails: an address of 21 characters, fewer than 42, that is 42
bytes long is not rejected. On the empty store `List` returns the empty list,
`Delete` returns `ErrNoCallbacks` and `Add` of a valid url succeeds. -/
theorem short_in_characters_is_accepted :
    "ééééééééééééééééééééé".length = 21
      ∧ (NewStore DB.empty).List "ééééééééééééééééééééé" = .ok []
      ∧ ((NewStore DB.empty).Delete "ééééééééééééééééééééé" "https://bytom.com").2
          = some ErrNoCallbacks
      ∧ ((NewStore DB.empty).Add "ééééééééééééééééééééé" "https://bytom.com").2
          = (true, none) := by
  refine ⟨by decide, by decide, by decide, ?_⟩
  simp [CallbackStore.Add, isURL_bytom_com, NewStore, DB.empty, DB.Get]
  decide

/-! ## What `ProcessTx` changes -/

/-- C17. `ProcessTx` adds at most the record of the transaction it processes:
when the id is absent from the database of transactions seen, the database
afterwards is the old one with the id set to the record of the time `now`;
when the id is present the database is unchanged, so the time first recorded
is not overwritten. In both cases the entry of every other id is unchanged,
and the callback store is never changed. -/
theorem processTx_adds_only_own_record (txl : TxListener) (now : Int) (tx : Tx) :
    (txl.txDB.Get tx.ID.String = none →
        (txl.ProcessTx now tx).1.txDB = txl.txDB.Set tx.ID.String (MarshalTxDBValue now)
          ∧ (txl.ProcessTx now tx).1.txDB.Get tx.ID.String = some (MarshalTxDBValue now))
      ∧ (∀ v, txl.txDB.Get tx.ID.String = some v → (txl.ProcessTx now tx).1.txDB = txl.txDB)
      ∧ (∀ k, k ≠ tx.ID.String → (txl.ProcessTx now tx).1.txDB.Get k = txl.txDB.Get k)
      ∧ (txl.ProcessTx now tx).1.CBStore = txl.CBStore := by
  refine ⟨?_, ?_, ?_, ?_⟩
  · intro h
    rw [ProcessTx_unseen txl now tx h]
    exact ⟨rfl, DB.Get_Set_same _ _ _⟩
  · intro v h
    rw [ProcessTx_seen txl now tx (by simp [h])]
  · intro k hk
    rcases ProcessTx_txDB_cases txl now tx with hc | hc
    · rw [hc]
    · rw [hc]
      exact DB.Get_Set_ne _ _ _ _ hk
  · rcases ProcessTx_txDB_cases txl now tx with hc | hc
    · rw [hc]
    · rw [hc]

/-- An instance of C17: a transaction seen before keeps the time first
recorded. -/
theorem processTx_adds_only_own_record_witness :
    (TxListener.mk (NewStore DB.empty) ⟨[("1f", MarshalTxDBValue 1000)]⟩).txDB.Get
        (Tx.mk ⟨"1f"⟩ [] []).ID.String = some (MarshalTxDBValue 1000)
      ∧ ((TxListener.mk (NewStore DB.empty) ⟨[("1f", MarshalTxDBValue 1000)]⟩).ProcessTx 2000
          (Tx.mk ⟨"1f"⟩ [] [])).1.txDB = ⟨[("1f", MarshalTxDBValue 1000)]⟩ :=
  ⟨rfl, (processTx_adds_only_own_record
    (TxListener.mk (NewStore DB.empty) ⟨[("1f", MarshalTxDBValue 1000)]⟩) 2000
    (Tx.mk ⟨"1f"⟩ [] [])).2.1 (MarshalTxDBValue 1000) rfl⟩

/-! ## `Delete` after `Add` -/

theorem List_congr (cs cs' : CallbackStore) (b : String) (h : cs'.DB.Get b = cs.DB.Get b) :
    cs'.List b = cs.List b := by
  unfold CallbackStore.List
  rw [h]

theorem filter_ne_append_singleton (l : List String) (u : String) (h : u ∉ l) :
    (l ++ [u]).filter (fun el => decide (el ≠ u)) = l := by
  rw [List.filter_append]
  have h1 : l.filter (fun el => decide (el ≠ u)) = l := by
    rw [List.filter_eq_self]
    intro a ha
    simp only [ne_eq, decide_not, Bool.not_eq_true', decide_eq_false_iff_not]
    intro hau
    exact h (hau ▸ ha)
  rw [h1]
  simp

/-- C19. `Delete` undoes `Add`: when `Add(a, u)` returns `(true, nil)`, the call
`Delete(a, u)` made next returns `nil`, and `List(b)` then returns for every
address `b`, the address `a` included, what it returned before the `Add`. When
the store held no entry for `a` before the `Add`, it holds none after the
`Delete`. -/
theorem delete_undoes_add (cs : CallbackStore) (a u : String)
    (hok : (cs.Add a u).2 = (true, none)) :
    ((cs.Add a u).1.Delete a u).2 = none
      ∧ (∀ b, ((cs.Add a u).1.Delete a u).1.List b = cs.List b)
      ∧ (cs.DB.Get a = none → ((cs.Add a u).1.Delete a u).1.DB.Get a = none) := by
  have hfirst : ¬ a.utf8ByteSize < 42 ∧ ∃ l, cs.List a = .ok l ∧ u ∉ l
      ∧ cs.Add a u = (⟨cs.DB.Set a (Marshal (l ++ [u]))⟩, true, none) := by
    rcases Add_cases cs a u with h | h | h | h | h
    · rw [h.2] at hok; exact absurd hok (by simp)
    · rw [h.2.2] at hok; exact absurd hok (by simp)
    · obtain ⟨_, _, v, e, _, _, he⟩ := h
      rw [he] at hok; exact absurd hok (by simp)
    · obtain ⟨_, _, l, _, _, he⟩ := h
      rw [he] at hok; exact absurd hok (by simp)
    · obtain ⟨ha, _, l, hl, hni, he⟩ := h
      exact ⟨ha, l, hl, hni, he⟩
  obtain ⟨ha, l, hl, hni, he⟩ := hfirst
  have hget : (cs.Add a u).1.DB.Get a = some (Marshal (l ++ [u])) := by
    rw [he]; exact DB.Get_Set_same cs.DB a _
  have hfil := filter_ne_append_singleton l u hni
  have hcases : (l = [] ∧ (cs.Add a u).1.Delete a u
        = (⟨(cs.DB.Set a (Marshal (l ++ [u]))).Delete a⟩, none))
      ∨ (l ≠ [] ∧ (cs.Add a u).1.Delete a u
        = (⟨(cs.DB.Set a (Marshal (l ++ [u]))).Set a (Marshal l)⟩, none)) := by
    rcases Delete_cases (cs.Add a u).1 a u with h | h | h | h | h | h
    · exact absurd h.1 ha
    · rw [h.2.1] at hget; exact absurd hget (by simp)
    · obtain ⟨_, v, e, hg, hv, _⟩ := h
      rw [hget] at hg; cases hg
      rw [Unmarshal_Marshal] at hv; exact absurd hv (by simp)
    · obtain ⟨_, v, l', hg, hv, hnot, _⟩ := h
      rw [hget] at hg; cases hg
      rw [Unmarshal_Marshal] at hv; cases hv
      exact absurd (by simp) hnot
    · obtain ⟨_, v, l', hg, hv, _, hnil, hd⟩ := h
      rw [hget] at hg; cases hg
      rw [Unmarshal_Marshal] at hv; cases hv
      rw [hfil] at hnil
      left
      refine ⟨hnil, ?_⟩
      rw [hd, he]
    · obtain ⟨_, v, l', hg, hv, _, hnil, hd⟩ := h
      rw [hget] at hg; cases hg
      rw [Unmarshal_Marshal] at hv; cases hv
      rw [hfil] at hnil hd
      right
      refine ⟨hnil, ?_⟩
      rw [hd, he]
  rcases hcases with ⟨hnil, hd⟩ | ⟨hnil, hd⟩
  · subst hnil
    rw [hd]
    refine ⟨rfl, ?_, ?_⟩
    · intro b
      by_cases hb : b = a
      · subst hb
        rw [hl]
        exact List_of_absent _ b ha (DB.Get_Delete_same _ b)
      · apply List_congr
        show (DB.Delete (cs.DB.Set a _) a).Get b = cs.DB.Get b
        rw [DB.Get_Delete_ne _ a b hb, DB.Get_Set_ne _ a b _ hb]
    · intro _
      exact DB.Get_Delete_same _ a
  · rw [hd]
    refine ⟨rfl, ?_, ?_⟩
    · intro b
      by_cases hb : b = a
      · subst hb
        rw [hl]
        exact List_after_Set _ b l ha
      · apply List_congr
        show (DB.Set (cs.DB.Set a _) a _).Get b = cs.DB.Get b
        rw [DB.Get_Set_ne _ a b _ hb, DB.Get_Set_ne _ a b _ hb]
    · intro hg
      rw [List_of_absent cs a ha hg] at hl
      cases hl
      exact absurd rfl hnil

/-- An instance of C19: a url added to the empty store and deleted again. -/
theorem delete_undoes_add_witness :
    ((NewStore DB.empty).Add "sample address should be of length more than 42"
        "https://bytom.com").2 = (true, none)
      ∧ (((NewStore DB.empty).Add "sample address should be of length more than 42"
          "https://bytom.com").1.Delete "sample address should be of length more than 42"
          "https://bytom.com").2 = none :=
  have h : ((NewStore DB.empty).Add "sample address should be of length more than 42"
      "https://bytom.com").2 = (true, none) := by rw [Add_empty_bytom_com]
  ⟨h, (delete_undoes_add _ _ _ h).1⟩

/-! ## Only valid addresses and urls are stored -/

theorem validated_step (cs : CallbackStore) (c : Call)
    (h : ∀ a v, cs.DB.Get a = some v →
      42 ≤ a.utf8ByteSize ∧ ∃ l, Unmarshal v = .ok l ∧ ∀ u ∈ l, IsURL u = true) :
    ∀ a v, (applyCall cs c).DB.Get a = some v →
      42 ≤ a.utf8ByteSize ∧ ∃ l, Unmarshal v = .ok l ∧ ∀ u ∈ l, IsURL u = true := by
  have hstored : ∀ (b : String) (l : List String), ¬ b.utf8ByteSize < 42 → cs.List b = .ok l →
      ∀ u ∈ l, IsURL u = true := by
    intro b l hb hl
    cases hg : cs.DB.Get b with
    | none =>
      rw [List_of_absent cs b hb hg] at hl
      cases hl
      intro u hu
      simp at hu
    | some v0 =>
      obtain ⟨_, l0, hl0, hall⟩ := h b v0 hg
      rw [List_of_present cs b v0 hb hg, hl0] at hl
      cases hl
      exact hall
  intro a v hget
  cases c with
  | add b u =>
    simp only [applyCall] at hget
    rcases Add_cases cs b u with hc | hc | hc | hc | hc
    · rw [hc.2] at hget; exact h a v hget
    · rw [hc.2.2] at hget; exact h a v hget
    · obtain ⟨_, _, v', e, _, _, he⟩ := hc
      rw [he] at hget; exact h a v hget
    · obtain ⟨_, _, l, _, _, he⟩ := hc
      rw [he] at hget; exact h a v hget
    · obtain ⟨hb, hu, l, hl, _, he⟩ := hc
      rw [he] at hget
      by_cases hab : a = b
      · subst hab
        rw [DB.Get_Set_same] at hget
        cases hget
        refine ⟨by omega, l ++ [u], Unmarshal_Marshal _, ?_⟩
        intro w hw
        rcases List.mem_append.mp hw with hw | hw
        · exact hstored a l hb hl w hw
        · rw [List.mem_singleton] at hw
          rw [hw]; exact hu
      · rw [DB.Get_Set_ne cs.DB b a _ hab] at hget
        exact h a v hget
  | delete b u =>
    simp only [applyCall] at hget
    rcases Delete_cases cs b u with hc | hc | hc | hc | hc | hc
    · rw [hc.2] at hget; exact h a v hget
    · rw [hc.2.2] at hget; exact h a v hget
    · obtain ⟨_, v', e, _, _, he⟩ := hc
      rw [he] at hget; exact h a v hget
    · obtain ⟨_, v', l, _, _, _, he⟩ := hc
      rw [he] at hget; exact h a v hget
    · obtain ⟨_, v', l, _, _, _, _, he⟩ := hc
      rw [he] at hget
      by_cases hab : a = b
      · subst hab
        rw [DB.Get_Delete_same] at hget
        exact absurd hget (by simp)
      · rw [DB.Get_Delete_ne cs.DB b a hab] at hget
        exact h a v hget
    · obtain ⟨hb, v', l, hg', hv', _, _, he⟩ := hc
      rw [he] at hget
      by_cases hab : a = b
      · subst hab
        rw [DB.Get_Set_same] at hget
        cases hget
        obtain ⟨_, l0, hl0, hall⟩ := h a v' hg'
        rw [hv'] at hl0
        cases hl0
        refine ⟨by omega, _, Unmarshal_Marshal _, ?_⟩
        intro w hw
        exact hall w (List.mem_filter.mp hw).1
      · rw [DB.Get_Set_ne cs.DB b a _ hab] at hget
        exact h a v hget

theorem validated_steps (calls : List Call) :
    ∀ cs : CallbackStore,
      (∀ a v, cs.DB.Get a = some v →
        42 ≤ a.utf8ByteSize ∧ ∃ l, Unmarshal v = .ok l ∧ ∀ u ∈ l, IsURL u = true) →
      ∀ a v, (applyCalls cs calls).DB.Get a = some v →
        42 ≤ a.utf8ByteSize ∧ ∃ l, Unmarshal v = .ok l ∧ ∀ u ∈ l, IsURL u = true := by
  induction calls with
  | nil => intro cs h; exact h
  | cons c rest ih => intro cs h; exact ih (applyCall cs c) (validated_step cs c h)

theorem url_of_mem_dispatchOutput (cs : CallbackStore) (tx : Tx) (inputs : List AnnotatedInput)
    (o : AnnotatedOutput) (d : Dispatch) (hd : d ∈ dispatchOutput cs tx inputs o) :
    ∃ urls, cs.List o.Address = .ok urls ∧ d.url ∈ urls := by
  unfold dispatchOutput at hd
  cases hl : cs.List o.Address with
  | error e => rw [hl] at hd; simp at hd
  | ok urls =>
    rw [hl] at hd
    refine ⟨urls, rfl, ?_⟩
    by_cases hlen : urls.length > 0
    · by_cases hin : isOutputAddressInInputs inputs o.Address = true
      · simp [hlen, hin] at hd
      · have hin' : isOutputAddressInInputs inputs o.Address = false := by simpa using hin
        simp only [hlen, hin', if_true, Bool.not_false, List.mem_map] at hd
        obtain ⟨url, hu, rfl⟩ := hd
        exact hu
    · simp [hlen] at hd

/-- C20. Only checked data is stored and called: in every store reached from
the empty store by calls of `Add` and `Delete`, every key present is at least
42 bytes long and every url of every stored list satisfies `IsURL`; so every
url that `ProcessTx` starts a callback to, with such a store as its registry,
satisfies `IsURL`. -/
theorem only_validated_data_is_stored (calls : List Call) :
    (∀ a v, (applyCalls (NewStore DB.empty) calls).DB.Get a = some v →
        42 ≤ a.utf8ByteSize ∧ ∃ l, Unmarshal v = .ok l ∧ ∀ u ∈ l, IsURL u = true)
      ∧ ∀ (txDB : DB) (now : Int) (tx : Tx),
          ∀ d ∈ ((TxListener.mk (applyCalls (NewStore DB.empty) calls) txDB).ProcessTx now tx).2,
            IsURL d.url = true := by
  have hinv : ∀ a v, (applyCalls (NewStore DB.empty) calls).DB.Get a = some v →
      42 ≤ a.utf8ByteSize ∧ ∃ l, Unmarshal v = .ok l ∧ ∀ u ∈ l, IsURL u = true := by
    refine validated_steps calls (NewStore DB.empty) ?_
    intro b w hb
    rw [show (NewStore DB.empty).DB.Get b = none from rfl] at hb
    exact absurd hb (by simp)
  refine ⟨hinv, ?_⟩
  intro txDB now tx d hd
  cases h : txDB.Get tx.ID.String with
  | some v =>
    rw [ProcessTx_seen _ now tx (by simp [h])] at hd
    simp at hd
  | none =>
    rw [ProcessTx_unseen _ now tx h] at hd
    obtain ⟨o, _, hdo⟩ := mem_dispatchOutputs _ _ _ d _ hd
    obtain ⟨urls, hl, hmem⟩ := url_of_mem_dispatchOutput _ _ _ o d hdo
    have hlist : (applyCalls (NewStore DB.empty) calls).List o.Address = .ok urls := hl
    by_cases ha : o.Address.utf8ByteSize < 42
    · simp [CallbackStore.List, ha] at hlist
    · cases hg : (applyCalls (NewStore DB.empty) calls).DB.Get o.Address with
      | none =>
        rw [List_of_absent _ _ ha hg] at hlist
        cases hlist
        simp at hmem
      | some v =>
        obtain ⟨_, l, hv, hall⟩ := hinv o.Address v hg
        rw [List_of_present _ _ v ha hg, hv] at hlist
        cases hlist
        exact hall d.url hmem

/-- An instance of C20: the store after one `Add`. -/
theorem only_validated_data_is_stored_witness :
    (applyCalls (NewStore DB.empty)
        [.add "sample address should be of length more than 42" "https://bytom.com"]).DB.Get
        "sample address should be of length more than 42" = some "[\"https://bytom.com\"]"
      ∧ 42 ≤ "sample address should be of length more than 42".utf8ByteSize
      ∧ ∃ l, Unmarshal "[\"https://bytom.com\"]" = .ok l ∧ ∀ u ∈ l, IsURL u = true :=
  have h : (applyCalls (NewStore DB.empty)
      [.add "sample address should be of length more than 42" "https://bytom.com"]).DB.Get
      "sample address should be of length more than 42" = some "[\"https://bytom.com\"]" := by
    simp only [applyCalls, applyCall, Add_empty_bytom_com]
    decide
  ⟨h, (only_validated_data_is_stored
    [.add "sample address should be of length more than 42" "https://bytom.com"]).1 _ _ h⟩

/-! ## The reaper -/

theorem mem_entries_of_Get (db : DB) (k v : String) (h : db.Get k = some v) :
    (k, v) ∈ db.entries := by
  unfold DB.Get at h
  simp only [Option.map_eq_some'] at h
  obtain ⟨e, he, hv⟩ := h
  have hmem := List.mem_of_find?_eq_some he
  have hk := List.find?_some he
  simp only [beq_iff_eq] at hk
  have : e = (k, v) := by
    cases e
    simp only at hk hv
    rw [hk, hv]
  rw [← this]
  exact hmem

theorem mem_Iterator (db : DB) (k v : String) :
    (k, v) ∈ db.Iterator ↔ db.Get k = some v := by
  unfold DB.Iterator
  rw [List.mem_filter]
  constructor
  · intro h
    simpa using h.2
  · intro h
    exact ⟨mem_entries_of_Get db k v h, by simpa using h⟩

theorem cleanUpEntry_Get_ne (maxTTL now : Int) (db : DB) (key value k : String) (h : k ≠ key) :
    (cleanUpEntry maxTTL now db key value).Get k = db.Get k := by
  unfold cleanUpEntry
  simp only []
  split_ifs
  · exact DB.Get_Delete_ne db key k h
  · rfl

theorem cleanUpEntry_Get_none (maxTTL now : Int) (db : DB) (key value k : String)
    (h : db.Get k = none) : (cleanUpEntry maxTTL now db key value).Get k = none := by
  by_cases hk : k = key
  · unfold cleanUpEntry
    simp only []
    split_ifs
    · rw [hk]; exact DB.Get_Delete_same db key
    · exact h
  · rw [cleanUpEntry_Get_ne maxTTL now db key value k hk, h]

theorem cleanUp_foldl_none (maxTTL now : Int) (k : String) (L : List (String × String)) :
    ∀ acc : DB, acc.Get k = none →
      (L.foldl (fun db e => cleanUpEntry maxTTL now db e.1 e.2) acc).Get k = none := by
  induction L with
  | nil => intro acc h; exact h
  | cons e L ih =>
    intro acc h
    exact ih _ (cleanUpEntry_Get_none maxTTL now acc e.1 e.2 k h)

theorem cleanUp_foldl_deleted (maxTTL now : Int) (k : String) (L : List (String × String)) :
    ∀ acc : DB,
      (∃ e ∈ L, e.1 = k ∧ (UnmarshalTxDBValue e.2).2 ≠ none
        ∧ wrapInt64 (now - (UnmarshalTxDBValue e.2).1.Unixtime) > maxTTL) →
      (L.foldl (fun db e => cleanUpEntry maxTTL now db e.1 e.2) acc).Get k = none := by
  induction L with
  | nil => intro acc h; simp at h
  | cons e L ih =>
    intro acc h
    obtain ⟨e', hmem, hk, hc⟩ := h
    rw [List.foldl_cons]
    rcases List.mem_cons.mp hmem with rfl | hmem
    · apply cleanUp_foldl_none
      unfold cleanUpEntry
      simp only []
      rw [if_pos hc, hk]
      exact DB.Get_Delete_same acc k
    · exact ih _ ⟨e', hmem, hk, hc⟩

theorem cleanUp_foldl_kept (maxTTL now : Int) (k : String) (L : List (String × String)) :
    ∀ acc : DB,
      (∀ e ∈ L, e.1 = k → ¬ ((UnmarshalTxDBValue e.2).2 ≠ none
        ∧ wrapInt64 (now - (UnmarshalTxDBValue e.2).1.Unixtime) > maxTTL)) →
      (L.foldl (fun db e => cleanUpEntry maxTTL now db e.1 e.2) acc).Get k = acc.Get k := by
  induction L with
  | nil => intro acc _; rfl
  | cons e L ih =>
    intro acc h
    rw [List.foldl_cons, ih _ (fun e' he' => h e' (List.mem_cons_of_mem e he'))]
    by_cases hk : k = e.1
    · have hc := h e (List.mem_cons_self e L) hk.symm
      unfold cleanUpEntry
      simp only []
      rw [if_neg hc]
    · exact cleanUpEntry_Get_ne maxTTL now acc e.1 e.2 k hk

theorem wrapInt64_eq (x : Int) (h1 : -(2 : Int) ^ 63 ≤ x) (h2 : x < (2 : Int) ^ 63) :
    wrapInt64 x = x := by
  unfold wrapInt64
  norm_num at h1 h2 ⊢
  omega

/-- What one round of the reaper does to the entry of a key. -/
theorem CleanUpOldTx_Get (txl : TxListener) (ttl now : Int) (k v : String)
    (hget : txl.txDB.Get k = some v) :
    ((UnmarshalTxDBValue v).2 ≠ none
        ∧ wrapInt64 (now - (UnmarshalTxDBValue v).1.Unixtime) > ttl →
      (txl.CleanUpOldTx ttl now).txDB.Get k = none)
    ∧ (¬ ((UnmarshalTxDBValue v).2 ≠ none
        ∧ wrapInt64 (now - (UnmarshalTxDBValue v).1.Unixtime) > ttl) →
      (txl.CleanUpOldTx ttl now).txDB.Get k = some v) := by
  refine ⟨?_, ?_⟩
  · intro hc
    exact cleanUp_foldl_deleted ttl now k _ _ ⟨(k, v), (mem_Iterator _ k v).mpr hget, rfl, hc⟩
  · intro hc
    show (txl.txDB.Iterator.foldl _ txl.txDB).Get k = some v
    rw [cleanUp_foldl_kept ttl now k _ txl.txDB, hget]
    intro e he hk
    have he' : txl.txDB.Get e.1 = some e.2 := (mem_Iterator _ e.1 e.2).mp he
    rw [hk, hget] at he'
    cases he'
    exact hc

/-- C18, as the code has it. The condition of the reaper deletes only records
that do not decode: one round of `CleanUpOldTx` at the time `now` deletes an
entry exactly when its value fails to decode as a `TxDBValue` and the `int64`
difference of `now` and the `Unixtime` the decoder left, zero unless a member
set it, is above `maxTTL`; that difference wraps around, and it is the plain
difference whenever that fits in an `int64`. So an entry whose value decodes is
never deleted, however old its time is, an entry that is not deleted keeps its
value, and no entry is added. -/
theorem reaper_deletes_only_undecodable (txl : TxListener) (now : Int) (k v : String)
    (hget : txl.txDB.Get k = some v) :
    ((txl.CleanUpOldTx maxTTL now).txDB.Get k = none ↔
        ((UnmarshalTxDBValue v).2 ≠ none
          ∧ wrapInt64 (now - (UnmarshalTxDBValue v).1.Unixtime) > maxTTL))
      ∧ (-(2 : Int) ^ 63 ≤ now - (UnmarshalTxDBValue v).1.Unixtime →
          now - (UnmarshalTxDBValue v).1.Unixtime < (2 : Int) ^ 63 →
          wrapInt64 (now - (UnmarshalTxDBValue v).1.Unixtime)
            = now - (UnmarshalTxDBValue v).1.Unixtime)
      ∧ ((UnmarshalTxDBValue v).2 = none → (txl.CleanUpOldTx maxTTL now).txDB.Get k = some v)
      ∧ ((txl.CleanUpOldTx maxTTL now).txDB.Get k ≠ none →
          (txl.CleanUpOldTx maxTTL now).txDB.Get k = some v)
      ∧ (∀ k', txl.txDB.Get k' = none → (txl.CleanUpOldTx maxTTL now).txDB.Get k' = none)
      ∧ (txl.CleanUpOldTx maxTTL now).CBStore = txl.CBStore := by
  have h := CleanUpOldTx_Get txl maxTTL now k v hget
  refine ⟨?_, wrapInt64_eq _, ?_, ?_, ?_, rfl⟩
  · constructor
    · intro hnone
      by_contra hc
      rw [h.2 hc] at hnone
      exact absurd hnone (by simp)
    · exact h.1
  · intro hok
    exact h.2 (fun hc => hc.1 hok)
  · intro hne
    by_cases hc : (UnmarshalTxDBValue v).2 ≠ none
        ∧ wrapInt64 (now - (UnmarshalTxDBValue v).1.Unixtime) > maxTTL
    · exact absurd (h.1 hc) hne
    · exact h.2 hc
  · intro k' hk'
    exact cleanUp_foldl_none maxTTL now k' _ _ hk'

/-- An instance of C18 as the code has it: a value that is not JSON is deleted
once the time is above `maxTTL`. -/
theorem reaper_deletes_only_undecodable_witness :
    (TxListener.mk (NewStore DB.empty)
        ⟨[("1f", MarshalTxDBValue 0), ("2e", "corrupt")]⟩).txDB.Get "2e" = some "corrupt"
      ∧ (UnmarshalTxDBValue "corrupt").2 ≠ none
      ∧ wrapInt64 (172801 - (UnmarshalTxDBValue "corrupt").1.Unixtime) > maxTTL
      ∧ ((TxListener.mk (NewStore DB.empty)
          ⟨[("1f", MarshalTxDBValue 0), ("2e", "corrupt")]⟩).CleanUpOldTx maxTTL
            172801).txDB.Get "2e" = none :=
  ⟨rfl, by decide, by decide,
    (reaper_deletes_only_undecodable
      (TxListener.mk (NewStore DB.empty) ⟨[("1f", MarshalTxDBValue 0), ("2e", "corrupt")]⟩)
      172801 "2e" "corrupt" rfl).1.mpr ⟨by decide, by decide⟩⟩

/-- C18 as stated fails: an object that has the member `Unixtime` twice, first
with the number -9223372036854775808 and then with a string, fails to decode
and leaves the `Unixtime` `-2^63`; at the time 946688400 the difference of the
two is above `maxTTL`, yet one round of `CleanUpOldTx` keeps the entry, because
the `int64` difference the code compares has wrapped around to a negative
number. -/
theorem reaper_keeps_undecodable_record_on_overflow :
    UnmarshalTxDBValue "\x7b\"Unixtime\":-9223372036854775808,\"Unixtime\":\"x\"\x7d"
        = (⟨-(2 : Int) ^ 63⟩, some jsonError)
      ∧ (946688400 : Int) - (-(2 : Int) ^ 63) > maxTTL
      ∧ wrapInt64 ((946688400 : Int) - (-(2 : Int) ^ 63)) = -9223372035908087408
      ∧ (TxListener.mk (NewStore DB.empty)
          ⟨[("1f", "\x7b\"Unixtime\":-9223372036854775808,\"Unixtime\":\"x\"\x7d")]⟩).txDB.Get "1f"
          = some "\x7b\"Unixtime\":-9223372036854775808,\"Unixtime\":\"x\"\x7d"
      ∧ ((TxListener.mk (NewStore DB.empty)
          ⟨[("1f", "\x7b\"Unixtime\":-9223372036854775808,\"Unixtime\":\"x\"\x7d")]⟩).CleanUpOldTx
            maxTTL 946688400).txDB.Get "1f"
          = some "\x7b\"Unixtime\":-9223372036854775808,\"Unixtime\":\"x\"\x7d" := by
  have hdec : UnmarshalTxDBValue
      "\x7b\"Unixtime\":-9223372036854775808,\"Unixtime\":\"x\"\x7d"
        = (⟨-(2 : Int) ^ 63⟩, some jsonError) := by decide
  refine ⟨hdec, by decide, by decide, rfl, ?_⟩
  refine (CleanUpOldTx_Get
    (TxListener.mk (NewStore DB.empty)
      ⟨[("1f", "\x7b\"Unixtime\":-9223372036854775808,\"Unixtime\":\"x\"\x7d")]⟩)
    maxTTL 946688400 "1f"
    "\x7b\"Unixtime\":-9223372036854775808,\"Unixtime\":\"x\"\x7d" rfl).2 ?_
  rw [hdec]
  intro h
  exact absurd h.2 (by decide)

/-- C11 fails on the code: a record first seen at the time 0 is older than 48
hours at the time 172801, and one round of `CleanUpOldTx` at that time leaves
it in the database. -/
theorem reaper_keeps_expired_record :
    UnmarshalTxDBValue (MarshalTxDBValue 0) = (⟨0⟩, none)
      ∧ (172801 : Int) - 0 > 172800
      ∧ maxTTL = 172800
      ∧ ((TxListener.mk (NewStore DB.empty) ⟨[("1f", MarshalTxDBValue 0)]⟩).CleanUpOldTx maxTTL
          172801).txDB.Get "1f" = some (MarshalTxDBValue 0) := by
  refine ⟨by decide, by decide, by decide, ?_⟩
  decide

/-! ## The record of a transaction is read back -/

theorem digitChar_spec (k : Nat) (h : k < 10) :
    isDigit (Nat.digitChar k) = true ∧ (Nat.digitChar k).toNat - 48 = k
      ∧ (k ≠ 0 → Nat.digitChar k ≠ '0') := by
  interval_cases k <;> exact ⟨by decide, by decide, by decide⟩

theorem digitsValue_append (xs ys : List Char) :
    ∀ acc, digitsValue acc (xs ++ ys) = digitsValue (digitsValue acc xs) ys := by
  induction xs with
  | nil => intro acc; rfl
  | cons x xs ih =>
    intro acc
    show digitsValue (acc * 10 + (x.toNat - 48)) (xs ++ ys) = _
    rw [ih]
    rfl

/-- The digits `Nat.toDigits` writes: at least one, all of them digits, no zero
in front of a number that is not zero, and their value is the number. -/
theorem toDigitsCore_spec (fuel : Nat) :
    ∀ n, n < fuel → ∃ L : List Char, (∀ ds, Nat.toDigitsCore 10 fuel n ds = L ++ ds)
      ∧ (∀ c ∈ L, isDigit c = true) ∧ digitsValue 0 L = n
      ∧ (n = 0 → L = ['0']) ∧ (n ≠ 0 → ∃ c L', L = c :: L' ∧ c ≠ '0') := by
  induction fuel with
  | zero => intro n h; omega
  | succ fuel ih =>
    intro n hn
    have hd := digitChar_spec (n % 10) (Nat.mod_lt n (by omega))
    by_cases h0 : n / 10 = 0
    · have hlt : n < 10 := by omega
      have hmod : n % 10 = n := Nat.mod_eq_of_lt hlt
      refine ⟨[Nat.digitChar (n % 10)], ?_, ?_, ?_, ?_, ?_⟩
      · intro ds
        simp [Nat.toDigitsCore, h0]
      · intro c hc
        rw [List.mem_singleton] at hc
        rw [hc]; exact hd.1
      · show 0 * 10 + ((Nat.digitChar (n % 10)).toNat - 48) = n
        rw [hd.2.1, hmod]
        omega
      · intro hz
        subst hz
        rfl
      · intro hz
        exact ⟨_, [], rfl, hd.2.2 (by omega)⟩
    · obtain ⟨L, hL, hdig, hval, _, hnz⟩ := ih (n / 10) (by omega)
      refine ⟨L ++ [Nat.digitChar (n % 10)], ?_, ?_, ?_, ?_, ?_⟩
      · intro ds
        simp [Nat.toDigitsCore, h0, hL]
      · intro c hc
        rcases List.mem_append.mp hc with hc | hc
        · exact hdig c hc
        · rw [List.mem_singleton] at hc
          rw [hc]; exact hd.1
      · rw [digitsValue_append, hval]
        show n / 10 * 10 + ((Nat.digitChar (n % 10)).toNat - 48) = n
        rw [hd.2.1]
        omega
      · intro hz
        omega
      · intro _
        obtain ⟨c, L', hLe, hc⟩ := hnz h0
        exact ⟨c, L' ++ [Nat.digitChar (n % 10)], by rw [hLe]; rfl, hc⟩

theorem repr_spec (n : Nat) :
    (∀ c ∈ (Nat.repr n).data, isDigit c = true) ∧ digitsValue 0 (Nat.repr n).data = n
      ∧ (n = 0 → (Nat.repr n).data = ['0'])
      ∧ (n ≠ 0 → ∃ c L', (Nat.repr n).data = c :: L' ∧ c ≠ '0') := by
  obtain ⟨L, hL, hdig, hval, hz, hnz⟩ := toDigitsCore_spec (n + 1) n (by omega)
  have hdata : (Nat.repr n).data = L := by
    show (Nat.toDigits 10 n).asString.data = L
    unfold Nat.toDigits
    rw [hL []]
    simp [List.asString]
  rw [hdata]
  exact ⟨hdig, hval, hz, hnz⟩

theorem takeWhile_isDigit_append (L : List Char) (c : Char) (r : List Char)
    (hL : ∀ x ∈ L, isDigit x = true) (hc : isDigit c = false) :
    (L ++ c :: r).takeWhile isDigit = L ∧ (L ++ c :: r).dropWhile isDigit = c :: r := by
  induction L with
  | nil => simp [List.takeWhile, List.dropWhile, hc]
  | cons x L ih =>
    have hx := hL x (List.mem_cons_self x L)
    have := ih (fun y hy => hL y (List.mem_cons_of_mem x hy))
    simp [List.takeWhile, List.dropWhile, hx, this.1, this.2]

/-- A text of digits as `Nat.repr` writes them, followed by a closing brace, is
read as an integer literal. -/
theorem readIntPart_repr (n : Nat) (r : List Char) :
    readIntPart ((Nat.repr n).data ++ '\x7d' :: r) = some ((Nat.repr n).data, '\x7d' :: r) := by
  obtain ⟨hdig, _, hz, hnz⟩ := repr_spec n
  by_cases h0 : n = 0
  · rw [hz h0]
    rfl
  · obtain ⟨c, L', hL, hc⟩ := hnz h0
    rw [hL] at hdig ⊢
    have hcd : isDigit c = true := hdig c (List.mem_cons_self c L')
    have htw := takeWhile_isDigit_append L' '\x7d' r
      (fun y hy => hdig y (List.mem_cons_of_mem c hy)) (by decide)
    simp only [List.cons_append, readIntPart, if_neg hc, hcd, if_true, htw.1, htw.2]

theorem readFracExp_brace (r : List Char) :
    readFracExp ('\x7d' :: r) = some (false, '\x7d' :: r) := by
  rfl

theorem numberHead_ne (c : Char) (hc : c = '-' ∨ isDigit c = true) :
    c ≠ '"' ∧ c ≠ 'n' ∧ c ≠ 't' ∧ c ≠ 'f' ∧ c ≠ '[' ∧ c ≠ '\x7b' ∧ isSpace c = false := by
  have key : ∀ d : Char, (d = '-' → False) → (isDigit d = true → False) → c ≠ d := by
    intro d h1 h2 hcd
    subst hcd
    rcases hc with h | h
    · exact h1 h
    · exact h2 h
  refine ⟨key _ (by decide) (by decide), key _ (by decide) (by decide),
    key _ (by decide) (by decide), key _ (by decide) (by decide), key _ (by decide) (by decide),
    key _ (by decide) (by decide), ?_⟩
  have h1 := key ' ' (by decide) (by decide)
  have h2 := key '\t' (by decide) (by decide)
  have h3 := key '\r' (by decide) (by decide)
  have h4 := key '\n' (by decide) (by decide)
  simp [isSpace, h1, h2, h3, h4]

/-- The text `toString t` of an integer: a minus sign for a negative number and
the digits of its absolute value. -/
theorem toString_int_spec (t : Int) :
    ∃ D : List Char, (toString t).data = (if t < 0 then ['-'] else []) ++ D
      ∧ (∀ r, readIntPart (D ++ '\x7d' :: r) = some (D, '\x7d' :: r))
      ∧ (∃ c D', D = c :: D' ∧ isDigit c = true)
      ∧ (if t < 0 then -(digitsValue 0 D : Int) else (digitsValue 0 D : Int)) = t := by
  have hhead : ∀ n : Nat, ∃ c D', (Nat.repr n).data = c :: D' ∧ isDigit c = true := by
    intro n
    obtain ⟨hdig, _, hz, hnz⟩ := repr_spec n
    by_cases h0 : n = 0
    · exact ⟨'0', [], hz h0, by decide⟩
    · obtain ⟨c, L', hL, _⟩ := hnz h0
      exact ⟨c, L', hL, hdig c (by rw [hL]; exact List.mem_cons_self c L')⟩
  cases t with
  | ofNat m =>
    refine ⟨(Nat.repr m).data, ?_, fun r => readIntPart_repr m r, hhead m, ?_⟩
    · have hneg : ¬ (Int.ofNat m < 0) := by simp
      rw [if_neg hneg]
      rfl
    · have hneg : ¬ (Int.ofNat m < 0) := by simp
      rw [if_neg hneg, (repr_spec m).2.1]
      rfl
  | negSucc m =>
    refine ⟨(Nat.repr (m + 1)).data, ?_, fun r => readIntPart_repr (m + 1) r, hhead (m + 1), ?_⟩
    · have hneg : Int.negSucc m < 0 := Int.negSucc_lt_zero m
      rw [if_pos hneg]
      rfl
    · have hneg : Int.negSucc m < 0 := Int.negSucc_lt_zero m
      rw [if_pos hneg, (repr_spec (m + 1)).2.1]
      rfl

theorem readNumber_toString (t : Int) (r : List Char) :
    ∃ D : List Char, readNumber ((toString t).data ++ '\x7d' :: r)
        = some (⟨decide (t < 0), D, false⟩, '\x7d' :: r)
      ∧ (if t < 0 then -(digitsValue 0 D : Int) else (digitsValue 0 D : Int)) = t
      ∧ ∃ c R', (toString t).data = c :: R' ∧ (c = '-' ∨ isDigit c = true) := by
  obtain ⟨D, hdata, hint, ⟨c, D', hD, hc⟩, hval⟩ := toString_int_spec t
  refine ⟨D, ?_, hval, ?_⟩
  · rw [hdata]
    by_cases hneg : t < 0
    · rw [if_pos hneg]
      have hdec : decide (t < 0) = true := by simp [hneg]
      rw [hdec]
      show readNumber ('-' :: (D ++ '\x7d' :: r)) = _
      unfold readNumber
      have hp : (['-'] : List Char).isPrefixOf ('-' :: (D ++ '\x7d' :: r)) = true := by
        simp [List.isPrefixOf]
      simp only [hp, if_true, List.drop_succ_cons, List.drop_zero, hint r, readFracExp_brace,
        Option.map_some']
    · rw [if_neg hneg]
      have hdec : decide (t < 0) = false := by simp [hneg]
      rw [hdec, List.nil_append]
      unfold readNumber
      have hp : (['-'] : List Char).isPrefixOf (D ++ '\x7d' :: r) = false := by
        rw [hD]
        have : c ≠ '-' := by
          rintro rfl
          exact absurd hc (by decide)
        simp [List.isPrefixOf, this.symm]
      simp only [hp, Bool.false_eq_true, if_false, hint r, readFracExp_brace, Option.map_some']
  · rw [hdata, hD]
    by_cases hneg : t < 0
    · rw [if_pos hneg]
      exact ⟨'-', _, rfl, Or.inl rfl⟩
    · rw [if_neg hneg]
      exact ⟨c, _, rfl, Or.inr hc⟩

theorem skipJSON_number (t : Int) (r : List Char) (fuel depth : Nat) :
    skipJSON (fuel + 1) .value depth ((toString t).data ++ '\x7d' :: r) = some ('\x7d' :: r) := by
  obtain ⟨D, hnum, _, c, R', hR, hc⟩ := readNumber_toString t r
  obtain ⟨h1, h2, h3, h4, h5, h6, _⟩ := numberHead_ne c hc
  rw [hR] at hnum ⊢
  simp only [List.cons_append] at hnum ⊢
  unfold skipJSON
  simp only [if_neg h1, if_neg h2, if_neg h3, if_neg h4, if_neg h5, if_neg h6, hnum,
    Option.map_some']

theorem storeUnixtime_number (t : Int) (r : List Char) (st : DecodeState)
    (h1 : -(2 : Int) ^ 63 ≤ t) (h2 : t < (2 : Int) ^ 63) :
    storeUnixtime st ((toString t).data ++ '\x7d' :: r) = { st with Unixtime := t } := by
  obtain ⟨D, hnum, hval, c, R', hR, hc⟩ := readNumber_toString t r
  obtain ⟨_, hn, _, _, _, _, _⟩ := numberHead_ne c hc
  have hint : NumberLit.toInt64 ⟨decide (t < 0), D, false⟩ = some t := by
    unfold NumberLit.toInt64
    simp only [Bool.false_eq_true, if_false, decide_eq_true_eq]
    rw [hval, if_pos ⟨h1, h2⟩]
  rw [hR] at hnum ⊢
  simp only [List.cons_append] at hnum ⊢
  unfold storeUnixtime
  have hc' : c = '-' ∨ isDigit c = true := hc
  simp only [if_neg hn, if_pos hc', hnum, hint]

theorem unquote_Unixtime (r : List Char) :
    unquote ('U' :: 'n' :: 'i' :: 'x' :: 't' :: 'i' :: 'm' :: 'e' :: '"' :: r)
      = some ("Unixtime".data, r) :=
  unquote_encodeChars "Unixtime".data r

/-- The record `MarshalTxDBValue` writes for a time that an `int64` holds is
read back by `UnmarshalTxDBValue`, without an error. -/
theorem UnmarshalTxDBValue_Marshal (t : Int) (h1 : -(2 : Int) ^ 63 ≤ t)
    (h2 : t < (2 : Int) ^ 63) :
    UnmarshalTxDBValue (MarshalTxDBValue t) = (⟨t⟩, none) := by
  obtain ⟨D, _, _, c, R', hR, hc⟩ := readNumber_toString t []
  obtain ⟨_, _, _, _, _, _, hsp⟩ := numberHead_ne c hc
  have hdata : (MarshalTxDBValue t).data
      = '\x7b' :: '"' :: 'U' :: 'n' :: 'i' :: 'x' :: 't' :: 'i' :: 'm' :: 'e' :: '"' :: ':'
          :: ((toString t).data ++ ['\x7d']) := by
    unfold MarshalTxDBValue
    simp only [String.data_append]
    rfl
  have hskip : skipSpace ((toString t).data ++ ['\x7d']) = (toString t).data ++ ['\x7d'] := by
    rw [hR]
    simp only [List.cons_append, skipSpace, hsp]
    rfl
  have hmem : ∀ fuel, decodeMembers (fuel + 1) ⟨0, false⟩
      ('"' :: 'U' :: 'n' :: 'i' :: 'x' :: 't' :: 'i' :: 'm' :: 'e' :: '"' :: ':'
        :: ((toString t).data ++ ['\x7d'])) = some (⟨t, false⟩, []) := by
    intro fuel
    unfold decodeMembers
    have hq : ('"' : Char) = '"' := rfl
    have hcolon : (':' : Char) = ':' := rfl
    have hsk2 : skipSpace (':' :: ((toString t).data ++ ['\x7d']))
        = ':' :: ((toString t).data ++ ['\x7d']) := rfl
    have hkey : isUnixtimeKey "Unixtime".data = true := by decide
    have hbrace : skipSpace ['\x7d'] = ['\x7d'] := rfl
    have hne : ¬ ('\x7d' : Char) = ',' := by decide
    simp only [hq, if_true, unquote_Unixtime, hsk2, hcolon, hskip,
      skipJSON_number t [] _ 1, hkey, storeUnixtime_number t [] _ h1 h2, hbrace, if_neg hne]
  unfold UnmarshalTxDBValue
  rw [hdata]
  have hs1 : ∀ x : List Char, skipSpace ('\x7b' :: x) = '\x7b' :: x := fun _ => rfl
  have hs2 : ∀ x : List Char, skipSpace ('"' :: x) = '"' :: x := fun _ => rfl
  have hne : ¬ ('"' : Char) = '\x7d' := by decide
  simp only [hs1, hs2, if_true, if_neg hne, List.length_cons, hmem]
  rfl

/-- C16. The record of a transaction seen goes round: for a time `t` that an
`int64` holds, the JSON text of `TxDBValue{Unixtime: t}`, stored under a key
with `Set` and read back with `Get`, decodes without an error to a `TxDBValue`
whose `Unixtime` is `t`; so the record that `UpdateTxDB` writes decodes to the
time it was written with. -/
theorem txDBValue_round_trip (t : Int) (h1 : -(2 : Int) ^ 63 ≤ t) (h2 : t < (2 : Int) ^ 63)
    (db : DB) (k : String) (txl : TxListener) :
    (∃ v, (db.Set k (MarshalTxDBValue t)).Get k = some v
        ∧ UnmarshalTxDBValue v = (⟨t⟩, none))
      ∧ ∃ v, (txl.UpdateTxDB t k).txDB.Get k = some v ∧ UnmarshalTxDBValue v = (⟨t⟩, none) :=
  ⟨⟨_, DB.Get_Set_same db k _, UnmarshalTxDBValue_Marshal t h1 h2⟩,
    ⟨_, DB.Get_Set_same txl.txDB k _, UnmarshalTxDBValue_Marshal t h1 h2⟩⟩

/-- An instance of C16: the steps of `TestGetSetTxDBValue` for the time
1700000000. -/
theorem txDBValue_round_trip_witness :
    -(2 : Int) ^ 63 ≤ 1700000000 ∧ (1700000000 : Int) < (2 : Int) ^ 63
      ∧ ∃ v, (DB.empty.Set "txid" (MarshalTxDBValue 1700000000)).Get "txid" = some v
        ∧ UnmarshalTxDBValue v = (⟨1700000000⟩, none) :=
  ⟨by decide, by decide,
    (txDBValue_round_trip 1700000000 (by decide) (by decide) DB.empty "txid"
      ⟨NewStore DB.empty, DB.empty⟩).1⟩

/-! ## The matcher decides the language of an expression -/

theorem mem_splits_append (s1 s2 : List Char) : (s1, s2) ∈ splits (s1 ++ s2) := by
  induction s1 with
  | nil =>
    cases s2 with
    | nil => simp [splits]
    | cons c cs => simp [splits]
  | cons c cs ih =>
    simp only [List.cons_append, splits, List.mem_cons, List.mem_map]
    right
    exact ⟨(cs, s2), ih, rfl⟩

theorem any_splits_iff (s : List Char) (f : List Char × List Char → Bool) :
    (splits s).any f = true ↔ ∃ s1 s2, s = s1 ++ s2 ∧ f (s1, s2) = true := by
  rw [List.any_eq_true]
  constructor
  · rintro ⟨p, hp, hf⟩
    exact ⟨p.1, p.2, (append_of_mem_splits s p hp).symm, hf⟩
  · rintro ⟨s1, s2, rfl, hf⟩
    exact ⟨(s1, s2), mem_splits_append s1 s2, hf⟩

theorem matchPlus_sound (m : List Char → Bool) (n : Nat) :
    ∀ s, matchPlus m n s = true →
      ∃ pieces : List (List Char), pieces ≠ [] ∧ s = pieces.flatten ∧ ∀ x ∈ pieces, m x = true := by
  induction n with
  | zero => intro s h; simp [matchPlus] at h
  | succ n ih =>
    intro s h
    rw [matchPlus, Bool.or_eq_true] at h
    rcases h with h | h
    · exact ⟨[s], by simp, by simp, by simpa using h⟩
    · rw [any_splits_iff] at h
      obtain ⟨s1, s2, rfl, hf⟩ := h
      simp only [Bool.and_eq_true] at hf
      obtain ⟨⟨_, hm1⟩, hrest⟩ := hf
      obtain ⟨pieces, _, hflat, hall⟩ := ih s2 hrest
      refine ⟨s1 :: pieces, by simp, by rw [hflat]; rfl, ?_⟩
      intro x hx
      rcases List.mem_cons.mp hx with rfl | hx
      · exact hm1
      · exact hall x hx

theorem matchPlus_complete (m : List Char → Bool) (pieces : List (List Char)) :
    ∀ n, pieces ≠ [] → (pieces.flatten).length < n → (∀ x ∈ pieces, m x = true) →
      matchPlus m n pieces.flatten = true := by
  induction pieces with
  | nil => intro n h; exact absurd rfl h
  | cons x rest ih =>
    intro n _ hlen hall
    obtain ⟨k, rfl⟩ : ∃ k, n = k + 1 := ⟨n - 1, by omega⟩
    have hx : m x = true := hall x (List.mem_cons_self x rest)
    have hrest : ∀ y ∈ rest, m y = true := fun y hy => hall y (List.mem_cons_of_mem x hy)
    rw [List.flatten_cons] at hlen ⊢
    rw [List.length_append] at hlen
    by_cases hr : rest.flatten = []
    · rw [hr, List.append_nil, matchPlus, hx, Bool.true_or]
    · have hrne : rest ≠ [] := by
        intro h
        rw [h] at hr
        exact hr rfl
      by_cases hxe : x = []
      · subst hxe
        rw [List.nil_append]
        exact ih (k + 1) hrne (by simpa using hlen) hrest
      · have hxlen : 0 < x.length := List.length_pos.mpr hxe
        have hrec := ih k hrne (by omega) hrest
        rw [matchPlus, Bool.or_eq_true]
        right
        rw [any_splits_iff]
        refine ⟨x, rest.flatten, rfl, ?_⟩
        have h1 : x.isEmpty = false := by
          cases x with
          | nil => exact absurd rfl hxe
          | cons _ _ => rfl
        have h2 : rest.flatten.isEmpty = false := by
          cases hh : rest.flatten with
          | nil => exact absurd hh hr
          | cons _ _ => rfl
        simp [h1, h2, hx, hrec]

/-- The matcher accepts a text exactly when the text is in the language of the
expression. -/
theorem matchesAll_iff_Lang (r : Regex) : ∀ s, r.matchesAll s = true ↔ r.Lang s := by
  induction r with
  | lit t => intro s; simp [Regex.matchesAll, Regex.Lang]
  | cls p =>
    intro s
    simp only [Regex.matchesAll, Regex.Lang]
    constructor
    · intro h
      split at h
      · rename_i c
        exact ⟨c, rfl, h⟩
      · exact absurd h (by simp)
    · rintro ⟨c, rfl, hc⟩
      exact hc
  | seq r1 r2 ih1 ih2 =>
    intro s
    simp only [Regex.matchesAll, Regex.Lang]
    rw [any_splits_iff]
    constructor
    · rintro ⟨s1, s2, hs, hf⟩
      simp only [Bool.and_eq_true] at hf
      exact ⟨s1, s2, hs, (ih1 s1).mp hf.1, (ih2 s2).mp hf.2⟩
    · rintro ⟨s1, s2, hs, h1, h2⟩
      refine ⟨s1, s2, hs, ?_⟩
      simp only [Bool.and_eq_true]
      exact ⟨(ih1 s1).mpr h1, (ih2 s2).mpr h2⟩
  | opt r ih =>
    intro s
    simp only [Regex.matchesAll, Regex.Lang, Bool.or_eq_true, List.isEmpty_iff, ih s]
  | plus r ih =>
    intro s
    simp only [Regex.matchesAll, Regex.Lang]
    constructor
    · intro h
      obtain ⟨pieces, hne, hflat, hall⟩ := matchPlus_sound _ _ s h
      exact ⟨pieces, hne, hflat, fun x hx => (ih x).mp (hall x hx)⟩
    · rintro ⟨pieces, hne, rfl, hall⟩
      exact matchPlus_complete _ pieces _ hne (by omega) (fun x hx => (ih x).mpr (hall x hx))

theorem plus_cls_Lang (p : Char → Bool) (s : List Char) :
    (Regex.plus (.cls p)).Lang s ↔ s ≠ [] ∧ ∀ c ∈ s, p c = true := by
  simp only [Regex.Lang]
  constructor
  · rintro ⟨pieces, hne, rfl, hall⟩
    refine ⟨?_, ?_⟩
    · cases pieces with
      | nil => exact absurd rfl hne
      | cons x rest =>
        obtain ⟨c, hx, _⟩ := hall x (List.mem_cons_self x rest)
        rw [hx]
        simp
    · intro c hc
      rw [List.mem_flatten] at hc
      obtain ⟨x, hx, hcx⟩ := hc
      obtain ⟨d, hd, hp⟩ := hall x hx
      rw [hd, List.mem_singleton] at hcx
      rw [hcx]; exact hp
  · rintro ⟨hne, hall⟩
    refine ⟨s.map (fun c => [c]), by simpa using hne, ?_, ?_⟩
    · clear hne hall
      induction s with
      | nil => rfl
      | cons c cs ih => simp only [List.map_cons, List.flatten_cons, List.singleton_append, ← ih]
    · intro x hx
      rw [List.mem_map] at hx
      obtain ⟨c, hc, rfl⟩ := hx
      exact ⟨c, rfl, hall c hc⟩

/-! ## The pattern `URL` -/

theorem scheme_Lang (s0 : List Char) :
    (Regex.seq (.lit "http".data) (.seq (.opt (.lit "s".data)) (.lit "://".data))).Lang s0
      ↔ s0 = "http://".data ∨ s0 = "https://".data := by
  simp only [Regex.Lang]
  constructor
  · rintro ⟨a, b, rfl, rfl, c, d, rfl, hc, rfl⟩
    rcases hc with rfl | rfl
    · left; rfl
    · right; rfl
  · rintro (rfl | rfl)
    · exact ⟨"http".data, "://".data, rfl, rfl, [], "://".data, rfl, Or.inl rfl, rfl⟩
    · exact ⟨"http".data, "s://".data, rfl, rfl, "s".data, "://".data, rfl, Or.inr rfl, rfl⟩

theorem group_Lang (g : List Char) :
    (Regex.seq (.lit ".".data) (.plus (.cls isHostChar))).Lang g
      ↔ ∃ g', g = '.' :: g' ∧ g' ≠ [] ∧ ∀ c ∈ g', isHostChar c = true := by
  have h := plus_cls_Lang isHostChar
  constructor
  · intro hg
    obtain ⟨a, b, hab, ha, hb⟩ := hg
    have ha' : a = ".".data := ha
    rw [ha'] at hab
    exact ⟨b, hab, (h b).mp hb⟩
  · rintro ⟨g', rfl, hne, hall⟩
    exact ⟨".".data, g', rfl, rfl, (h g').mpr ⟨hne, hall⟩⟩

/-- The texts the pattern `URL` denotes: an optional `http://` or `https://`, one
or more host characters, one or more groups of a dot and host characters, and
one or more characters of the last class. -/
theorem URL_Lang_iff (s : List Char) :
    URL.Lang s ↔ ∃ s0 s1 s3 : List Char, ∃ groups : List (List Char),
      s = s0 ++ (s1 ++ (groups.flatten ++ s3))
      ∧ (s0 = [] ∨ s0 = "http://".data ∨ s0 = "https://".data)
      ∧ (s1 ≠ [] ∧ ∀ c ∈ s1, isHostChar c = true)
      ∧ (groups ≠ [] ∧ ∀ g ∈ groups, ∃ g', g = '.' :: g' ∧ g' ≠ []
          ∧ ∀ c ∈ g', isHostChar c = true)
      ∧ (s3 ≠ [] ∧ ∀ c ∈ s3, isTailChar c = true) := by
  have hh := plus_cls_Lang isHostChar
  have ht := plus_cls_Lang isTailChar
  have hs := scheme_Lang
  constructor
  · intro h
    obtain ⟨s0, r0, hs0, h0, s1, r1, hr0, h1, s2, s3, hr1, h2, h3⟩ := h
    obtain ⟨groups, hgne, hgflat, hgall⟩ := h2
    refine ⟨s0, s1, s3, groups, ?_, ?_, (hh s1).mp h1, ⟨hgne, ?_⟩, (ht s3).mp h3⟩
    · rw [hs0, hr0, hr1, hgflat]
    · rcases h0 with h0 | h0
      · exact Or.inl h0
      · exact Or.inr ((hs s0).mp h0)
    · intro g hg
      exact (group_Lang g).mp (hgall g hg)
  · rintro ⟨s0, s1, s3, groups, rfl, h0, h1, ⟨hgne, hgall⟩, h3⟩
    refine ⟨s0, _, rfl, ?_, s1, _, rfl, (hh s1).mpr h1, groups.flatten, s3, rfl, ?_, (ht s3).mpr h3⟩
    · rcases h0 with h0 | h0
      · exact Or.inl h0
      · exact Or.inr ((hs s0).mpr h0)
    · exact ⟨groups, hgne, rfl, fun g hg => (group_Lang g).mpr (hgall g hg)⟩

theorem isTailChar_of_isHostChar (c : Char) (h : isHostChar c = true) : isTailChar c = true := by
  unfold isHostChar at h
  unfold isTailChar
  simp only [Bool.or_eq_true, decide_eq_true_eq] at h
  rcases h with (h | h) | h
  · simp [h]
  · subst h; decide
  · subst h; decide

theorem URL_Lang_chars (s : List Char) (h : URL.Lang s) :
    (∀ c ∈ s, isTailChar c = true) ∧ '.' ∈ s := by
  obtain ⟨s0, s1, s3, groups, rfl, h0, ⟨_, h1⟩, ⟨hgne, hgall⟩, ⟨_, h3⟩⟩ := (URL_Lang_iff s).mp h
  refine ⟨?_, ?_⟩
  · intro c hc
    simp only [List.mem_append, List.mem_flatten] at hc
    rcases hc with hc | hc | ⟨g, hg, hcg⟩ | hc
    · rcases h0 with rfl | rfl | rfl
      · simp at hc
      · revert c; decide
      · revert c; decide
    · exact isTailChar_of_isHostChar c (h1 c hc)
    · obtain ⟨g', rfl, _, hall⟩ := hgall g hg
      rcases List.mem_cons.mp hcg with rfl | hcg
      · decide
      · exact isTailChar_of_isHostChar c (hall c hcg)
    · exact h3 c hc
  · cases groups with
    | nil => exact absurd rfl hgne
    | cons g rest =>
      obtain ⟨g', rfl, _, _⟩ := hgall g (List.mem_cons_self g rest)
      simp

theorem IsURL_matches (s : String) (h : IsURL s = true) : rxURL_MatchString s = true := by
  unfold IsURL at h
  by_cases hc : s = "" ∨ s.length ≥ maxURLRuneCount ∨ s.utf8ByteSize ≤ minURLRuneCount
      ∨ HasPrefix s "." = true
  · rw [if_pos hc] at h
    exact absurd h (by simp)
  · rw [if_neg hc] at h
    simp only [] at h
    generalize urlParse _ = p at h
    cases p with
    | none => exact absurd h (by simp)
    | some u =>
      simp only [] at h
      by_cases h1 : HasPrefix u.Host "." = true
      · rw [if_pos h1] at h
        exact absurd h (by simp)
      · rw [if_neg h1] at h
        by_cases h2 : u.Host = "" ∧ (u.Path ≠ "" ∧ (!Contains u.Path ".") = true)
        · rw [if_pos h2] at h
          exact absurd h (by simp)
        · rw [if_neg h2] at h
          exact h

/-- C13. `IsURL` accepts only a string that matches the pattern `URL`, applied
to the string as it was given: a url is in the language of the pattern, so all
its characters are of the last class of the pattern, which holds the
characters of all its classes, and one of them is a dot. A string with a
character outside that class, a space for one, or without a dot is not a url,
and `Add` with it and an address of at least 42 bytes fails with
`ErrNotValidURL`. -/
theorem isURL_only_on_pattern (s : String) :
    (IsURL s = true →
        rxURL_MatchString s = true ∧ URL.Lang s.data
          ∧ (∀ c ∈ s.data, isTailChar c = true) ∧ '.' ∈ s.data)
      ∧ ((∃ c ∈ s.data, isTailChar c = false) ∨ '.' ∉ s.data →
          IsURL s = false
            ∧ ∀ (cs : CallbackStore) (a : String), 42 ≤ a.utf8ByteSize →
                cs.Add a s = (cs, false, some ErrNotValidURL)) := by
  have hfwd : IsURL s = true →
      rxURL_MatchString s = true ∧ URL.Lang s.data
        ∧ (∀ c ∈ s.data, isTailChar c = true) ∧ '.' ∈ s.data := by
    intro h
    have hm := IsURL_matches s h
    have hl : URL.Lang s.data := (matchesAll_iff_Lang URL s.data).mp hm
    exact ⟨hm, hl, URL_Lang_chars s.data hl⟩
  refine ⟨hfwd, ?_⟩
  intro hbad
  have hfalse : IsURL s = false := by
    cases hu : IsURL s with
    | false => rfl
    | true =>
      obtain ⟨_, _, hall, hdot⟩ := hfwd hu
      rcases hbad with ⟨c, hc, hcf⟩ | hnd
      · rw [hall c hc] at hcf
        exact absurd hcf (by simp)
      · exact absurd hdot hnd
  refine ⟨hfalse, ?_⟩
  intro cs a ha
  have ha' : ¬ a.utf8ByteSize < 42 := by omega
  simp [CallbackStore.Add, ha', hfalse]

/-- An instance of C13: the url `bad url` of `TestAdd`, with a space. -/
theorem isURL_only_on_pattern_witness :
    ((∃ c ∈ "bad url".data, isTailChar c = false) ∨ '.' ∉ "bad url".data)
      ∧ IsURL "bad url" = false
      ∧ (NewStore DB.empty).Add "sample address should be of length more than 42" "bad url"
          = (NewStore DB.empty, false, some ErrNotValidURL) :=
  have h : (∃ c ∈ "bad url".data, isTailChar c = false) ∨ '.' ∉ "bad url".data :=
    Or.inl ⟨' ', by decide, by decide⟩
  ⟨h, ((isURL_only_on_pattern "bad url").2 h).1,
    ((isURL_only_on_pattern "bad url").2 h).2 (NewStore DB.empty)
      "sample address should be of length more than 42" (by decide)⟩

/-! ## A well-formed `https` url -/

theorem isAlnum_bounds (c : Char) (h : isAlnum c = true) : 48 ≤ c.toNat ∧ c.toNat ≤ 122 := by
  unfold isAlnum at h
  simp only [Bool.or_eq_true, Bool.and_eq_true, decide_eq_true_eq] at h
  omega

theorem hostText_ne (c d : Char) (hc : isAlnum c = true ∨ c = '.') (hd : isAlnum d = false)
    (hdot : d ≠ '.') : c ≠ d := by
  intro hcd
  subst hcd
  rcases hc with h | h
  · rw [h] at hd; exact absurd hd (by simp)
  · exact hdot h

theorem before_of_not_mem (sep : Char) (l : List Char) (h : ∀ c ∈ l, c ≠ sep) :
    before sep l = l ∧ fromFirst sep l = [] := by
  unfold before fromFirst
  induction l with
  | nil => simp
  | cons x l ih =>
    have hx : (x != sep) = true := by simpa using h x (List.mem_cons_self x l)
    have := ih (fun c hc => h c (List.mem_cons_of_mem x hc))
    simp [List.takeWhile, List.dropWhile, hx, this.1, this.2]

theorem contains_false_of_ne (sep : Char) (l : List Char) (h : ∀ c ∈ l, c ≠ sep) :
    l.contains sep = false := by
  induction l with
  | nil => rfl
  | cons x l ih =>
    have hx : x ≠ sep := h x (List.mem_cons_self x l)
    have := ih (fun c hc => h c (List.mem_cons_of_mem x hc))
    simp only [List.contains_cons, this, Bool.or_false]
    simpa using hx.symm

theorem unescape_host_text (X : List Char) (h : ∀ c ∈ X, isAlnum c = true ∨ c = '.') :
    unescape .encodeHost X = some X := by
  induction X with
  | nil => rfl
  | cons x X ih =>
    have hx := h x (List.mem_cons_self x X)
    have hpct : x ≠ '%' := hostText_ne x '%' hx (by decide) (by decide)
    have hesc : shouldEscapeHost x = false := by
      rcases hx with hx | hx
      · simp [shouldEscapeHost, hx]
      · subst hx; decide
    have hno : ¬ ((Encoding.encodeHost = .encodeHost ∨ Encoding.encodeHost = .encodeZone)
        ∧ x.toNat < 128 ∧ shouldEscapeHost x = true) := by
      rw [hesc]
      simp
    have ih' := ih (fun c hc => h c (List.mem_cons_of_mem x hc))
    unfold unescape
    rw [if_neg hpct, if_neg hno, ih']
    rfl

/-- The parser on `https://` and a host of letters, digits and dots that starts
with a letter or digit: the host is the text, the path is empty. -/
theorem urlParse_https (X : List Char) (c : Char) (X' : List Char) (hX : X = c :: X')
    (hc : isAlnum c = true) (h : ∀ c ∈ X, isAlnum c = true ∨ c = '.') :
    urlParse ⟨'h' :: 't' :: 't' :: 'p' :: 's' :: ':' :: '/' :: '/' :: X⟩
      = some ⟨⟨X⟩, ""⟩ := by
  have hne : ∀ d : Char, isAlnum d = false → d ≠ '.' → ∀ x ∈ X, x ≠ d :=
    fun d hd hdot x hx => hostText_ne x d (h x hx) hd hdot
  have hhash := before_of_not_mem '#' X (hne '#' (by decide) (by decide))
  have hq := before_of_not_mem '?' X (hne '?' (by decide) (by decide))
  have hsl := before_of_not_mem '/' X (hne '/' (by decide) (by decide))
  have hat := contains_false_of_ne '@' X (hne '@' (by decide) (by decide))
  have hcol := contains_false_of_ne ':' X (hne ':' (by decide) (by decide))
  have hbr : (['['] : List Char).isPrefixOf X = false := by
    rw [hX]
    have : c ≠ '[' := hostText_ne c '[' (Or.inl hc) (by decide) (by decide)
    simp [List.isPrefixOf, this.symm]
  have hctl : X.any (fun c => c.toNat < 32 || c.toNat = 127) = false := by
    rw [List.any_eq_false]
    intro x hx
    rcases h x hx with hx' | hx'
    · have := isAlnum_bounds x hx'
      simp only [Bool.or_eq_true, decide_eq_true_eq, not_or]
      omega
    · subst hx'; decide
  have hhost : parseHost X = some X := by
    unfold parseHost
    rw [hbr]
    simp only [Bool.false_eq_true, if_false, hcol]
    exact unescape_host_text X h
  have hauth : parseAuthority X = some X := by
    unfold parseAuthority
    rw [hat]
    simp only [Bool.false_eq_true, if_false]
    exact hhost
  have hparse : parse ('h' :: 't' :: 't' :: 'p' :: 's' :: ':' :: '/' :: '/' :: X)
      = some ⟨⟨X⟩, ""⟩ := by
    unfold parse
    have h1 : ('h' :: 't' :: 't' :: 'p' :: 's' :: ':' :: '/' :: '/' :: X).any
        (fun c => c.toNat < 32 || c.toNat = 127) = false := by
      simp only [List.any_cons, hctl]
      decide
    have h2 : ¬ ('h' :: 't' :: 't' :: 'p' :: 's' :: ':' :: '/' :: '/' :: X) = ['*'] := by simp
    have h3 : getScheme ('h' :: 't' :: 't' :: 'p' :: 's' :: ':' :: '/' :: '/' :: X)
        = some ("https".data, '/' :: '/' :: X) := rfl
    have h4 : before '?' ('/' :: '/' :: X) = '/' :: '/' :: X := by
      have := (before_of_not_mem '?' ('/' :: '/' :: X) (by
        intro x hx
        simp only [List.mem_cons] at hx
        rcases hx with rfl | rfl | hx
        · decide
        · decide
        · exact hne '?' (by decide) (by decide) x hx)).1
      exact this
    rw [h1]
    simp only [Bool.false_eq_true, if_false, if_neg h2, h3, h4]
    have h5 : ¬ ((!(['/'] : List Char).isPrefixOf ('/' :: '/' :: X)) = true ∧ "https".data ≠ []) := by
      simp [List.isPrefixOf]
    have h6 : ¬ ((!(['/'] : List Char).isPrefixOf ('/' :: '/' :: X)) = true
        ∧ (before '/' ('/' :: '/' :: X)).contains ':' = true) := by
      simp [List.isPrefixOf]
    have h7 : ("https".data ≠ [] ∨ (!(['/', '/', '/'] : List Char).isPrefixOf ('/' :: '/' :: X)) = true)
        ∧ (['/', '/'] : List Char).isPrefixOf ('/' :: '/' :: X) = true := by
      refine ⟨Or.inl (by decide), ?_⟩
      simp [List.isPrefixOf]
    rw [if_neg h5, if_neg h6, if_pos h7]
    simp only [List.drop_succ_cons, List.drop_zero, hsl.1, hsl.2, hauth]
    rfl
  unfold urlParse
  have hb : before '#' ('h' :: 't' :: 't' :: 'p' :: 's' :: ':' :: '/' :: '/' :: X)
      = 'h' :: 't' :: 't' :: 'p' :: 's' :: ':' :: '/' :: '/' :: X := by
    have := (before_of_not_mem '#' ('h' :: 't' :: 't' :: 'p' :: 's' :: ':' :: '/' :: '/' :: X) (by
      intro x hx
      simp only [List.mem_cons] at hx
      rcases hx with rfl | rfl | rfl | rfl | rfl | rfl | rfl | rfl | hx
      all_goals first | decide | exact hne '#' (by decide) (by decide) x hx)).1
    exact this
  have hf : fromFirst '#' ('h' :: 't' :: 't' :: 'p' :: 's' :: ':' :: '/' :: '/' :: X) = [] := by
    have := (before_of_not_mem '#' ('h' :: 't' :: 't' :: 'p' :: 's' :: ':' :: '/' :: '/' :: X) (by
      intro x hx
      simp only [List.mem_cons] at hx
      rcases hx with rfl | rfl | rfl | rfl | rfl | rfl | rfl | rfl | hx
      all_goals first | decide | exact hne '#' (by decide) (by decide) x hx)).2
    exact this
  simp only [hb, hf, hparse]
  rfl

theorem peel_head (a : Char) (L s1 Y : List Char) (h : a :: L = s1 ++ '.' :: Y)
    (ha : a ≠ '.') : ∃ s1', s1 = a :: s1' ∧ L = s1' ++ '.' :: Y := by
  cases s1 with
  | nil =>
    simp only [List.nil_append, List.cons.injEq] at h
    exact absurd h.1 ha
  | cons x s1' =>
    simp only [List.cons_append, List.cons.injEq] at h
    exact ⟨s1', by rw [h.1], h.2⟩

/-- No text that starts with `https//` is in the language of the pattern. -/
theorem not_URL_Lang_https_slashes (X : List Char) :
    ¬ URL.Lang ('h' :: 't' :: 't' :: 'p' :: 's' :: '/' :: '/' :: X) := by
  intro hl
  obtain ⟨s0, s1, s3, groups, hs, h0, ⟨_, h1⟩, ⟨hgne, hgall⟩, _⟩ := (URL_Lang_iff _).mp hl
  cases groups with
  | nil => exact absurd rfl hgne
  | cons g rest =>
    obtain ⟨g', rfl, _, _⟩ := hgall _ (List.mem_cons_self g rest)
    rcases h0 with rfl | rfl | rfl
    · simp only [List.nil_append, List.flatten_cons, List.cons_append, List.append_assoc] at hs
      obtain ⟨a1, e1, hs1⟩ := peel_head _ _ _ _ hs (by decide)
      obtain ⟨a2, e2, hs2⟩ := peel_head _ _ _ _ hs1 (by decide)
      obtain ⟨a3, e3, hs3⟩ := peel_head _ _ _ _ hs2 (by decide)
      obtain ⟨a4, e4, hs4⟩ := peel_head _ _ _ _ hs3 (by decide)
      obtain ⟨a5, e5, hs5⟩ := peel_head _ _ _ _ hs4 (by decide)
      obtain ⟨a6, e6, _⟩ := peel_head _ _ _ _ hs5 (by decide)
      have := h1 '/' (by rw [e1, e2, e3, e4, e5, e6]; simp)
      exact absurd this (by decide)
    · have h5 : ('s' : Char) = ':' := by
        simp only [List.flatten_cons, List.cons_append, List.append_assoc] at hs
        have := hs
        simp only [String.data, List.cons_append, List.cons.injEq] at this
        exact this.2.2.2.2.1
      exact absurd h5 (by decide)
    · have h6 : ('/' : Char) = ':' := by
        simp only [List.flatten_cons, List.cons_append, List.append_assoc] at hs
        have := hs
        simp only [String.data, List.cons_append, List.cons.injEq] at this
        exact this.2.2.2.2.2.1
      exact absurd h6 (by decide)

theorem isHostChar_of_isAlnum (c : Char) (h : isAlnum c = true) : isHostChar c = true := by
  unfold isAlnum at h
  unfold isHostChar isWord
  simp only [Bool.or_eq_true] at h ⊢
  exact Or.inl (Or.inl (Or.inl h))

/-- The pattern accepts `https://`, a host name and an ending of two or more
characters. -/
theorem URL_Lang_https (H T : List Char) (t0 t1 : Char) (hH : H ≠ [])
    (hHa : ∀ c ∈ H, isAlnum c = true) (h0 : isAlnum t0 = true) (h1 : isAlnum t1 = true)
    (hT : ∀ c ∈ T, isAlnum c = true) :
    URL.Lang ('h' :: 't' :: 't' :: 'p' :: 's' :: ':' :: '/' :: '/' :: (H ++ '.' :: t0 :: t1 :: T)) := by
  rw [URL_Lang_iff]
  refine ⟨"https://".data, H, t1 :: T, [['.', t0]], ?_, Or.inr (Or.inr rfl), ⟨hH, ?_⟩, ⟨by simp, ?_⟩,
    ⟨by simp, ?_⟩⟩
  · simp
  · intro c hc
    exact isHostChar_of_isAlnum c (hHa c hc)
  · intro g hg
    rw [List.mem_singleton] at hg
    refine ⟨[t0], hg, by simp, ?_⟩
    intro c hc
    rw [List.mem_singleton] at hc
    rw [hc]
    exact isHostChar_of_isAlnum t0 h0
  · intro c hc
    apply isTailChar_of_isHostChar
    apply isHostChar_of_isAlnum
    rcases List.mem_cons.mp hc with rfl | hc
    · exact h1
    · exact hT c hc

/-- C12. `IsURL` accepts a well-formed `https` url and rejects the same text
with `//` in place of `://`: for a non-empty `h` of ASCII letters and digits and
a `t` of at least two ASCII letters or digits, fewer than 2083 characters in
all, `IsURL("https://" ++ h ++ "." ++ t)` is true and
`IsURL("https//" ++ h ++ "." ++ t)` is false. -/
theorem isURL_https_host (h t : String) (hh : h.data ≠ [])
    (hha : ∀ c ∈ h.data, isAlnum c = true) (ht : 2 ≤ t.length)
    (hta : ∀ c ∈ t.data, isAlnum c = true)
    (hlen : ("https://" ++ h ++ "." ++ t).length < 2083) :
    IsURL ("https://" ++ h ++ "." ++ t) = true ∧ IsURL ("https//" ++ h ++ "." ++ t) = false := by
  obtain ⟨t0, t1, T, hT⟩ : ∃ t0 t1 T, t.data = t0 :: t1 :: T := by
    have : 2 ≤ t.data.length := ht
    cases hd : t.data with
    | nil => rw [hd] at this; simp at this
    | cons a r =>
      cases r with
      | nil => rw [hd] at this; simp at this
      | cons b r' => exact ⟨a, b, r', rfl⟩
  obtain ⟨c, H', hH⟩ : ∃ c H', h.data = c :: H' := by
    cases hd : h.data with
    | nil => exact absurd hd hh
    | cons a r => exact ⟨a, r, rfl⟩
  have hc : isAlnum c = true := hha c (by rw [hH]; exact List.mem_cons_self c H')
  have hX : ∀ x ∈ h.data ++ '.' :: t.data, isAlnum x = true ∨ x = '.' := by
    intro x hx
    rcases List.mem_append.mp hx with hx | hx
    · exact Or.inl (hha x hx)
    · rcases List.mem_cons.mp hx with hx | hx
      · exact Or.inr hx
      · exact Or.inl (hta x hx)
  have hstr : ("https://" ++ h ++ "." ++ t : String)
      = ⟨'h' :: 't' :: 't' :: 'p' :: 's' :: ':' :: '/' :: '/' :: (h.data ++ '.' :: t.data)⟩ := by
    apply String.ext
    simp only [String.data_append]
    simp
  have hstr2 : ("https//" ++ h ++ "." ++ t : String)
      = ⟨'h' :: 't' :: 't' :: 'p' :: 's' :: '/' :: '/' :: (h.data ++ '.' :: t.data)⟩ := by
    apply String.ext
    simp only [String.data_append]
    simp
  refine ⟨?_, ?_⟩
  · have hparse := urlParse_https (h.data ++ '.' :: t.data) c (H' ++ '.' :: t.data)
      (by rw [hH]; rfl) hc hX
    have hmatch : rxURL_MatchString ("https://" ++ h ++ "." ++ t) = true := by
      rw [hstr]
      unfold rxURL_MatchString
      rw [matchesAll_iff_Lang]
      show URL.Lang ('h' :: 't' :: 't' :: 'p' :: 's' :: ':' :: '/' :: '/' :: (h.data ++ '.' :: t.data))
      rw [hT]
      exact URL_Lang_https h.data T t0 t1 hh hha (hta t0 (by rw [hT]; simp))
        (hta t1 (by rw [hT]; simp)) (fun x hx => hta x (by rw [hT]; simp [hx]))
    have hcond : ¬ (("https://" ++ h ++ "." ++ t : String) = ""
        ∨ ("https://" ++ h ++ "." ++ t).length ≥ maxURLRuneCount
        ∨ ("https://" ++ h ++ "." ++ t).utf8ByteSize ≤ minURLRuneCount
        ∨ HasPrefix ("https://" ++ h ++ "." ++ t) "." = true) := by
      have hl8 : 8 ≤ ("https://" ++ h ++ "." ++ t).length := by
        simp only [String.length_append]
        have : ("https://" : String).length = 8 := by decide
        omega
      have hbytes := length_le_utf8ByteSize ("https://" ++ h ++ "." ++ t)
      rintro (h1 | h1 | h1 | h1)
      · rw [h1] at hl8
        exact absurd hl8 (by decide)
      · unfold maxURLRuneCount at h1; omega
      · unfold minURLRuneCount at h1; omega
      · rw [hstr] at h1
        unfold HasPrefix at h1
        simp [List.isPrefixOf] at h1
    have hcolon : ¬ (Contains ("https://" ++ h ++ "." ++ t) ":" = true
        ∧ (!Contains ("https://" ++ h ++ "." ++ t) "://") = true) := by
      rw [hstr]
      intro hcc
      have : Contains ⟨'h' :: 't' :: 't' :: 'p' :: 's' :: ':' :: '/' :: '/'
          :: (h.data ++ '.' :: t.data)⟩ "://" = true := by
        unfold Contains
        simp [hasInfix, List.isPrefixOf]
      rw [this] at hcc
      exact absurd hcc.2 (by simp)
    unfold IsURL
    rw [if_neg hcond]
    simp only [if_neg hcolon]
    rw [hstr, hparse]
    simp only []
    have hp1 : ¬ HasPrefix ⟨h.data ++ '.' :: t.data⟩ "." = true := by
      rw [hH]
      unfold HasPrefix
      have : c ≠ '.' := by
        rintro rfl
        exact absurd hc (by decide)
      simp [List.isPrefixOf, this.symm]
    have hp2 : ¬ ((⟨h.data ++ '.' :: t.data⟩ : String) = "" ∧ (("" : String) ≠ ""
        ∧ (!Contains "" ".") = true)) := by
      rintro ⟨_, h2, _⟩
      exact h2 rfl
    rw [if_neg hp1, if_neg hp2, ← hstr]
    exact hmatch
  · cases hu : IsURL ("https//" ++ h ++ "." ++ t) with
    | false => rfl
    | true =>
      have hm := IsURL_matches _ hu
      rw [hstr2] at hm
      unfold rxURL_MatchString at hm
      rw [matchesAll_iff_Lang] at hm
      exact absurd hm (not_URL_Lang_https_slashes _)

/-- An instance of C12: the two strings of `TestIsURL`. -/
theorem isURL_https_host_witness :
    "bytom".data ≠ [] ∧ 2 ≤ "com".length
      ∧ IsURL ("https://" ++ "bytom" ++ "." ++ "com") = true
      ∧ IsURL ("https//" ++ "bytom" ++ "." ++ "com") = false :=
  ⟨by decide, by decide,
    isURL_https_host "bytom" "com" (by decide) (by decide) (by decide) (by decide) (by decide)⟩

/-! ## The fuel of the scanner is enough -/

theorem readDigits1_length (s r : List Char) (h : readDigits1 s = some r) :
    r.length ≤ s.length := by
  unfold readDigits1 at h
  split_ifs at h
  cases h
  exact (List.dropWhile_suffix isDigit).length_le

theorem readExponent_length (s : List Char) (b : Bool) (r : List Char)
    (h : readExponent s = some (b, r)) : r.length ≤ s.length := by
  cases s with
  | nil => simp [readExponent] at h; rw [h.2]
  | cons c t =>
    cases t with
    | nil =>
      rw [readExponent] at h
      split_ifs at h
      simp only [Option.some.injEq, Prod.mk.injEq] at h
      rw [← h.2]
    | cons d t1 =>
      rw [readExponent] at h
      split_ifs at h
      · simp only [Option.map_eq_some'] at h
        obtain ⟨q, hq, hqe⟩ := h
        have := readDigits1_length _ _ hq
        simp only [Prod.mk.injEq] at hqe
        rw [← hqe.2]
        simp only [List.length_cons]
        omega
      · simp only [Option.map_eq_some'] at h
        obtain ⟨q, hq, hqe⟩ := h
        have := readDigits1_length _ _ hq
        simp only [Prod.mk.injEq] at hqe
        rw [← hqe.2]
        simp only [List.length_cons] at this ⊢
        omega
      · simp only [Option.some.injEq, Prod.mk.injEq] at h
        rw [← h.2]

theorem readFracExp_length (s : List Char) (b : Bool) (r : List Char)
    (h : readFracExp s = some (b, r)) : r.length ≤ s.length := by
  cases s with
  | nil => simp [readFracExp] at h; rw [h.2]
  | cons c t =>
    rw [readFracExp] at h
    split_ifs at h
    · cases hd : readDigits1 t with
      | none => rw [hd] at h; simp at h
      | some r1 =>
        rw [hd] at h
        simp only [Option.map_eq_some'] at h
        obtain ⟨q, hq, hqe⟩ := h
        have h1 := readDigits1_length _ _ hd
        have h2 := readExponent_length _ q.1 q.2 hq
        simp only [Prod.mk.injEq] at hqe
        rw [← hqe.2]
        simp only [List.length_cons]
        omega
    · exact readExponent_length _ b r h

theorem readIntPart_length (s ds r : List Char) (h : readIntPart s = some (ds, r)) :
    r.length < s.length := by
  cases s with
  | nil => simp [readIntPart] at h
  | cons c t =>
    rw [readIntPart] at h
    split_ifs at h
    · simp only [Option.some.injEq, Prod.mk.injEq] at h
      rw [← h.2]
      simp
    · simp only [Option.some.injEq, Prod.mk.injEq] at h
      rw [← h.2]
      have := (List.dropWhile_suffix isDigit (l := t)).length_le
      simp only [List.length_cons]
      omega

theorem readNumber_length (s : List Char) (n : NumberLit) (r : List Char)
    (h : readNumber s = some (n, r)) : r.length < s.length := by
  unfold readNumber at h
  simp only [] at h
  split at h
  · simp at h
  · rename_i ds r1 hint
    simp only [Option.map_eq_some'] at h
    obtain ⟨q, hq, hqe⟩ := h
    have h1 := readIntPart_length _ _ _ hint
    have h2 := readFracExp_length _ q.1 q.2 hq
    simp only [Prod.mk.injEq] at hqe
    rw [← hqe.2]
    have h3 : (if (['-'] : List Char).isPrefixOf s = true then List.drop 1 s else s).length
        ≤ s.length := by
      split_ifs
      · simp
      · exact Nat.le_refl _
    omega

theorem dropPrefix_length_le (p s r : List Char) (h : dropPrefix p s = some r) :
    r.length ≤ s.length := by
  have := dropPrefix_length p s r h
  omega

/-- What `skipJSON` leaves is shorter than the text it was given. -/
theorem skipJSON_length (fuel : Nat) :
    ∀ (mode : ScanMode) (depth : Nat) (s r : List Char),
      skipJSON fuel mode depth s = some r → r.length < s.length := by
  induction fuel with
  | zero => intro mode depth s r h; simp [skipJSON] at h
  | succ fuel ih =>
    intro mode depth s r h
    cases mode with
    | value =>
      cases s with
      | nil => simp [skipJSON] at h
      | cons c t =>
        rw [skipJSON] at h
        split_ifs at h with h1 h2 h3 h4 h5 h6 h7 h8
        · simp only [Option.map_eq_some'] at h
          obtain ⟨q, hq, hqe⟩ := h
          have := unquoteAux_length _ _ _ _ hq
          rw [← hqe]
          simp only [List.length_cons]
          omega
        · have := dropPrefix_length_le _ _ _ h
          simp only [List.length_cons]; omega
        · have := dropPrefix_length_le _ _ _ h
          simp only [List.length_cons]; omega
        · have := dropPrefix_length_le _ _ _ h
          simp only [List.length_cons]; omega
        · have hsk := skipSpace_length t
          cases hs : skipSpace t with
          | nil => rw [hs] at h; simp at h
          | cons d r1 =>
            rw [hs] at h hsk
            simp only [] at h
            split_ifs at h
            · cases h
              simp only [List.length_cons] at hsk ⊢
              omega
            · have := ih _ _ _ _ h
              simp only [List.length_cons] at hsk this ⊢
              omega
        · have hsk := skipSpace_length t
          cases hs : skipSpace t with
          | nil => rw [hs] at h; simp at h
          | cons d r1 =>
            rw [hs] at h hsk
            simp only [] at h
            split_ifs at h
            · cases h
              simp only [List.length_cons] at hsk ⊢
              omega
            · have := ih _ _ _ _ h
              simp only [List.length_cons] at hsk this ⊢
              omega
        · simp only [Option.map_eq_some'] at h
          obtain ⟨q, hq, hqe⟩ := h
          have := readNumber_length _ q.1 q.2 hq
          rw [← hqe]
          exact this
    | elems =>
      rw [skipJSON] at h
      cases hv : skipJSON fuel .value depth s with
      | none => rw [hv] at h; simp at h
      | some r1 =>
        rw [hv] at h
        simp only [] at h
        have h1 := ih _ _ _ _ hv
        have hsk := skipSpace_length r1
        cases hs : skipSpace r1 with
        | nil => rw [hs] at h; simp at h
        | cons d r2 =>
          rw [hs] at h hsk
          simp only [] at h
          split_ifs at h
          · have := ih _ _ _ _ h
            have hsk2 := skipSpace_length r2
            simp only [List.length_cons] at hsk
            omega
          · cases h
            simp only [List.length_cons] at hsk
            omega
    | members =>
      cases s with
      | nil => simp [skipJSON] at h
      | cons q t =>
        rw [skipJSON] at h
        split_ifs at h
        cases hu : unquote t with
        | none => rw [hu] at h; simp at h
        | some p =>
          obtain ⟨key, r1⟩ := p
          rw [hu] at h
          simp only [] at h
          have h1 := unquoteAux_length _ _ _ _ hu
          have hsk1 := skipSpace_length r1
          cases hs1 : skipSpace r1 with
          | nil => rw [hs1] at h; simp at h
          | cons colon r2 =>
            rw [hs1] at h hsk1
            simp only [] at h
            split_ifs at h
            cases hv : skipJSON fuel .value depth (skipSpace r2) with
            | none => rw [hv] at h; simp at h
            | some r3 =>
              rw [hv] at h
              simp only [] at h
              have h2 := ih _ _ _ _ hv
              have hsk2 := skipSpace_length r2
              have hsk3 := skipSpace_length r3
              cases hs3 : skipSpace r3 with
              | nil => rw [hs3] at h; simp at h
              | cons d r4 =>
                rw [hs3] at h hsk3
                simp only [] at h
                simp only [List.length_cons] at hsk1 hsk3 ⊢
                split_ifs at h
                · have := ih _ _ _ _ h
                  have hsk4 := skipSpace_length r4
                  omega
                · cases h
                  omega

/-- More fuel does not change what `skipJSON` returns, and the fuel that the
decoder gives it is enough: a result that any fuel reaches is reached with
twice the length of the text and one more for a value, two more for the
elements of an array and the members of an object. -/
theorem skipJSON_fuel (fuel : Nat) :
    ∀ (mode : ScanMode) (depth : Nat) (s r : List Char),
      skipJSON fuel mode depth s = some r →
      ∀ f : Nat, 2 * s.length + (match mode with | .value => 1 | _ => 2) ≤ f →
        skipJSON f mode depth s = some r := by
  induction fuel with
  | zero => intro mode depth s r h; simp [skipJSON] at h
  | succ fuel ih =>
    intro mode depth s r h f hf
    cases f with
    | zero => cases mode <;> simp at hf
    | succ f =>
    cases mode with
    | value =>
      simp only [] at hf
      cases s with
      | nil => simp [skipJSON] at h
      | cons c t =>
        rw [skipJSON] at h ⊢
        simp only [List.length_cons] at hf
        by_cases h1 : c = '"'
        · rw [if_pos h1] at h ⊢; exact h
        rw [if_neg h1] at h ⊢
        by_cases h2 : c = 'n'
        · rw [if_pos h2] at h ⊢; exact h
        rw [if_neg h2] at h ⊢
        by_cases h3 : c = 't'
        · rw [if_pos h3] at h ⊢; exact h
        rw [if_neg h3] at h ⊢
        by_cases h4 : c = 'f'
        · rw [if_pos h4] at h ⊢; exact h
        rw [if_neg h4] at h ⊢
        by_cases h5 : c = '['
        · rw [if_pos h5] at h ⊢
          by_cases hd : depth + 1 > maxNestingDepth
          · rw [if_pos hd] at h; cases h
          rw [if_neg hd] at h ⊢
          have hsk := skipSpace_length t
          cases hs : skipSpace t with
          | nil => rw [hs] at h; simp at h
          | cons d r1 =>
            rw [hs] at h hsk
            simp only [] at h ⊢
            by_cases h6 : d = ']'
            · rw [if_pos h6] at h ⊢; exact h
            rw [if_neg h6] at h ⊢
            refine ih _ _ _ _ h f ?_
            simp only [List.length_cons] at hsk ⊢
            omega
        rw [if_neg h5] at h ⊢
        by_cases h7 : c = '\x7b'
        · rw [if_pos h7] at h ⊢
          by_cases hd : depth + 1 > maxNestingDepth
          · rw [if_pos hd] at h; cases h
          rw [if_neg hd] at h ⊢
          have hsk := skipSpace_length t
          cases hs : skipSpace t with
          | nil => rw [hs] at h; simp at h
          | cons d r1 =>
            rw [hs] at h hsk
            simp only [] at h ⊢
            by_cases h6 : d = '\x7d'
            · rw [if_pos h6] at h ⊢; exact h
            rw [if_neg h6] at h ⊢
            refine ih _ _ _ _ h f ?_
            simp only [List.length_cons] at hsk ⊢
            omega
        rw [if_neg h7] at h ⊢
        exact h
    | elems =>
      simp only [] at hf
      rw [skipJSON] at h ⊢
      cases hv : skipJSON fuel .value depth s with
      | none => rw [hv] at h; simp at h
      | some r1 =>
        rw [hv] at h
        rw [ih _ _ _ _ hv f (by simp only []; omega)]
        simp only [] at h ⊢
        have h1 := skipJSON_length _ _ _ _ _ hv
        have hsk := skipSpace_length r1
        cases hs : skipSpace r1 with
        | nil => rw [hs] at h; simp at h
        | cons d r2 =>
          rw [hs] at h hsk
          simp only [] at h ⊢
          by_cases h2 : d = ','
          · rw [if_pos h2] at h ⊢
            refine ih _ _ _ _ h f ?_
            have hsk2 := skipSpace_length r2
            simp only [List.length_cons] at hsk ⊢
            omega
          rw [if_neg h2] at h ⊢
          exact h
    | members =>
      simp only [] at hf
      cases s with
      | nil => simp [skipJSON] at h
      | cons q t =>
        rw [skipJSON] at h ⊢
        simp only [List.length_cons] at hf
        by_cases hq : q = '"'
        swap
        · rw [if_neg hq] at h; cases h
        rw [if_pos hq] at h ⊢
        cases hu : unquote t with
        | none => rw [hu] at h; simp at h
        | some p =>
          obtain ⟨key, r1⟩ := p
          rw [hu] at h
          simp only [] at h ⊢
          have h1 := unquoteAux_length _ _ _ _ hu
          have hsk1 := skipSpace_length r1
          cases hs1 : skipSpace r1 with
          | nil => rw [hs1] at h; simp at h
          | cons colon r2 =>
            rw [hs1] at h hsk1
            simp only [] at h ⊢
            by_cases hc : colon = ':'
            swap
            · rw [if_neg hc] at h; cases h
            rw [if_pos hc] at h ⊢
            have hsk2 := skipSpace_length r2
            simp only [List.length_cons] at hsk1
            cases hv : skipJSON fuel .value depth (skipSpace r2) with
            | none => rw [hv] at h; simp at h
            | some r3 =>
              rw [hv] at h
              rw [ih _ _ _ _ hv f (by simp only []; omega)]
              simp only [] at h ⊢
              have h2 := skipJSON_length _ _ _ _ _ hv
              have hsk3 := skipSpace_length r3
              cases hs3 : skipSpace r3 with
              | nil => rw [hs3] at h; simp at h
              | cons d r4 =>
                rw [hs3] at h hsk3
                simp only [] at h ⊢
                simp only [List.length_cons] at hsk3
                by_cases h3 : d = ','
                · rw [if_pos h3] at h ⊢
                  refine ih _ _ _ _ h f ?_
                  have hsk4 := skipSpace_length r4
                  simp only []
                  omega
                rw [if_neg h3] at h ⊢
                exact h

/-- What `decodeMembers` leaves is shorter than the text it was given. -/
theorem decodeMembers_length (fuel : Nat) :
    ∀ (st : DecodeState) (s : List Char) (p : DecodeState × List Char),
      decodeMembers fuel st s = some p → p.2.length < s.length := by
  induction fuel with
  | zero => intro st s p h; simp [decodeMembers] at h
  | succ fuel ih =>
    intro st s p h
    cases s with
    | nil => simp [decodeMembers] at h
    | cons q t =>
      rw [decodeMembers] at h
      split_ifs at h
      cases hu : unquote t with
      | none => rw [hu] at h; simp at h
      | some p1 =>
        obtain ⟨key, r1⟩ := p1
        rw [hu] at h
        simp only [] at h
        have h1 := unquoteAux_length _ _ _ _ hu
        have hsk1 := skipSpace_length r1
        cases hs1 : skipSpace r1 with
        | nil => rw [hs1] at h; simp at h
        | cons colon r2 =>
          rw [hs1] at h hsk1
          simp only [] at h
          by_cases hc : colon = ':'
          swap
          · rw [if_neg hc] at h; cases h
          rw [if_pos hc] at h
          cases hv : skipJSON (2 * (skipSpace r2).length + 2) .value 1 (skipSpace r2) with
          | none => rw [hv] at h; simp at h
          | some r3 =>
            rw [hv] at h
            simp only [] at h
            have h2 := skipJSON_length _ _ _ _ _ hv
            have hsk2 := skipSpace_length r2
            have hsk3 := skipSpace_length r3
            cases hs3 : skipSpace r3 with
            | nil => rw [hs3] at h; simp at h
            | cons d r4 =>
              rw [hs3] at h hsk3
              simp only [] at h
              simp only [List.length_cons] at hsk1 hsk3 ⊢
              by_cases h3 : d = ','
              · rw [if_pos h3] at h
                have := ih _ _ _ h
                have hsk4 := skipSpace_length r4
                omega
              rw [if_neg h3] at h
              by_cases h4 : d = '\x7d'
              · rw [if_pos h4] at h
                cases h
                simp only []
                omega
              rw [if_neg h4] at h
              cases h

/-- More fuel does not change what `decodeMembers` returns, and the fuel that
`UnmarshalTxDBValue` gives it is enough: a result that any fuel reaches is
reached with one more than the length of the text. -/
theorem decodeMembers_fuel (fuel : Nat) :
    ∀ (st : DecodeState) (s : List Char) (p : DecodeState × List Char),
      decodeMembers fuel st s = some p →
      ∀ f : Nat, s.length + 1 ≤ f → decodeMembers f st s = some p := by
  induction fuel with
  | zero => intro st s p h; simp [decodeMembers] at h
  | succ fuel ih =>
    intro st s p h f hf
    cases f with
    | zero => simp at hf
    | succ f =>
    cases s with
    | nil => simp [decodeMembers] at h
    | cons q t =>
      rw [decodeMembers] at h ⊢
      simp only [List.length_cons] at hf
      by_cases hq : q = '"'
      swap
      · rw [if_neg hq] at h; cases h
      rw [if_pos hq] at h ⊢
      cases hu : unquote t with
      | none => rw [hu] at h; simp at h
      | some p1 =>
        obtain ⟨key, r1⟩ := p1
        rw [hu] at h
        simp only [] at h ⊢
        have h1 := unquoteAux_length _ _ _ _ hu
        have hsk1 := skipSpace_length r1
        cases hs1 : skipSpace r1 with
        | nil => rw [hs1] at h; simp at h
        | cons colon r2 =>
          rw [hs1] at h hsk1
          simp only [] at h ⊢
          by_cases hc : colon = ':'
          swap
          · rw [if_neg hc] at h; cases h
          rw [if_pos hc] at h ⊢
          cases hv : skipJSON (2 * (skipSpace r2).length + 2) .value 1 (skipSpace r2) with
          | none => rw [hv] at h; simp at h
          | some r3 =>
            rw [hv] at h
            simp only [] at h ⊢
            have h2 := skipJSON_length _ _ _ _ _ hv
            have hsk2 := skipSpace_length r2
            have hsk3 := skipSpace_length r3
            cases hs3 : skipSpace r3 with
            | nil => rw [hs3] at h; simp at h
            | cons d r4 =>
              rw [hs3] at h hsk3
              simp only [] at h ⊢
              simp only [List.length_cons] at hsk1 hsk3
              by_cases h3 : d = ','
              · rw [if_pos h3] at h ⊢
                refine ih _ _ _ h f ?_
                have hsk4 := skipSpace_length r4
                omega
              rw [if_neg h3] at h ⊢
              exact h

end AddressCallbacks
